import Mathlib

/-!
# cluster22-autoscale: fuzzy controller, trace reader and span graph

A shallow embedding of the Go sources `updator/logic.go`, `updator/updator.go`,
`updator/server/server.go`, `extractor/extractor.go` and `extractor/graph.go`,
followed by the theorems that settle the claims of the specification against that
code.

Conventions of the embedding.

* `float64` / `float32` values are idealised as exact rationals (`ℚ`); the only
  non-finite outcomes the code can produce, those of a division by zero, are
  kept explicit in `GoFloat`. The conversions on the way to the node agent,
  `float32(delta)` and `int64(f)`, are modelled with their rounding and range.
* A Go map is ranged in an unspecified order: every function that ranges over a
  map takes the order of that traversal as an argument.
* A runtime panic is an `Except.error` carrying the `Fault`.
* A loop with no static bound is run with a step budget (`fuel`); `none` means
  the budget ran out before the loop exited.
-/

/-! # Part I: the embedding -/

/-! ## Values shared by the packages -/

/-- The outcome of an IEEE-754 division on exact operands: a finite quotient,
an infinity (non-zero over zero) or NaN (zero over zero). -/
inductive GoFloat where
  | fin (q : ℚ)
  | posInf
  | negInf
  | nan
  deriving DecidableEq

/-- Go's `x / y` on floating-point operands; it never panics. -/
def GoFloat.div (x y : ℚ) : GoFloat :=
  if y = 0 then
    if x = 0 then GoFloat.nan else if 0 < x then GoFloat.posInf else GoFloat.negInf
  else GoFloat.fin (x / y)

/-- Go's `x + y` on floating-point operands, exact on finite ones. -/
def GoFloat.add : GoFloat → GoFloat → GoFloat
  | GoFloat.fin x, GoFloat.fin y => GoFloat.fin (x + y)
  | GoFloat.fin _, y => y
  | x, GoFloat.fin _ => x
  | GoFloat.posInf, GoFloat.posInf => GoFloat.posInf
  | GoFloat.negInf, GoFloat.negInf => GoFloat.negInf
  | _, _ => GoFloat.nan

/-- The product of an infinity of the given sign and a finite factor: NaN for the
factor 0. -/
def GoFloat.infTimes (positive : Bool) (y : ℚ) : GoFloat :=
  if y = 0 then GoFloat.nan
  else if (0 < y) = positive then GoFloat.posInf else GoFloat.negInf

/-- Go's `x * y` on floating-point operands, exact on finite ones. -/
def GoFloat.mul : GoFloat → GoFloat → GoFloat
  | GoFloat.fin x, GoFloat.fin y => GoFloat.fin (x * y)
  | GoFloat.nan, _ => GoFloat.nan
  | _, GoFloat.nan => GoFloat.nan
  | GoFloat.posInf, GoFloat.fin y => GoFloat.infTimes true y
  | GoFloat.negInf, GoFloat.fin y => GoFloat.infTimes false y
  | GoFloat.fin x, GoFloat.posInf => GoFloat.infTimes true x
  | GoFloat.fin x, GoFloat.negInf => GoFloat.infTimes false x
  | GoFloat.posInf, GoFloat.posInf => GoFloat.posInf
  | GoFloat.negInf, GoFloat.negInf => GoFloat.posInf
  | GoFloat.posInf, GoFloat.negInf => GoFloat.negInf
  | GoFloat.negInf, GoFloat.posInf => GoFloat.negInf

/-- The run-time panics the modelled code can raise. -/
inductive Fault where
  | indexOutOfRange
  | nilDereference
  deriving DecidableEq, Repr

deriving instance DecidableEq for Except

namespace updator

/-! ## `updator/logic.go` -/

inductive Ratio where
  | RatioLow
  | RatioMedium
  | RatioHigh
  deriving DecidableEq, Repr

inductive Quality where
  | QualityPoor
  | QualityGeneral
  | QualityGood
  deriving DecidableEq, Repr

structure Condition where
  ratio : Ratio
  quality : Quality
  deriving DecidableEq, Repr

open Ratio Quality

/-- The rule table `initialRuleSets`, as the list of its nine entries. -/
def initialRuleSets : List (Condition × ℚ) :=
  [ (⟨RatioLow, QualityPoor⟩, 2 / 10),
    (⟨RatioLow, QualityGeneral⟩, 0),
    (⟨RatioLow, QualityGood⟩, -(2 / 10)),
    (⟨RatioMedium, QualityPoor⟩, 5 / 10),
    (⟨RatioMedium, QualityGeneral⟩, 2 / 10),
    (⟨RatioMedium, QualityGood⟩, 0),
    (⟨RatioHigh, QualityPoor⟩, 1),
    (⟨RatioHigh, QualityGeneral⟩, 5 / 10),
    (⟨RatioHigh, QualityGood⟩, 2 / 10) ]

/-- The function `getRules`: the rule table. -/
def getRules : List (Condition × ℚ) := initialRuleSets

/-- The source's `min` on weights. -/
def min (w1 w2 : ℚ) : ℚ := if w1 < w2 then w1 else w2

def lowRatioFunc (ratio : ℚ) : ℚ :=
  if 0 < ratio ∧ ratio ≤ 6 / 10 then 1
  else if 6 / 10 ≤ ratio ∧ ratio < 1 then -(25 / 10) * ratio + 25 / 10
  else 0

def mediumRatioFunc (ratio : ℚ) : ℚ :=
  if 6 / 10 < ratio ∧ ratio ≤ 1 then 25 / 10 * ratio - 15 / 10
  else if 1 < ratio ∧ ratio ≤ 14 / 10 then -(25 / 10) * ratio + 35 / 10
  else 0

def highRatioFunc (ratio : ℚ) : ℚ :=
  if 1 < ratio ∧ ratio ≤ 14 / 10 then 25 / 10 * ratio - 25 / 10
  else if ratio > 14 / 10 then 1
  else 0

def poorQualityFunc (quality : ℚ) : ℚ :=
  if quality > 1 then 1
  else if 8 / 10 < quality ∧ quality ≤ 1 then 5 * quality - 4
  else 0

def generalQualityFunc (quality : ℚ) : ℚ :=
  if 6 / 10 < quality ∧ quality ≤ 8 / 10 then 5 * quality - 3
  else if 8 / 10 < quality ∧ quality ≤ 1 then -5 * quality + 5
  else 0

def goodQualityFunc (quality : ℚ) : ℚ :=
  if quality ≤ 6 / 10 then 1
  else if 6 / 10 < quality ∧ quality ≤ 8 / 10 then -5 * quality + 4
  else 0

/-- The map `getRatioMap` returns: every bucket is a key of it. -/
def getRatioMap (ratio : ℚ) : Ratio → ℚ
  | RatioHigh => highRatioFunc ratio
  | RatioMedium => mediumRatioFunc ratio
  | RatioLow => lowRatioFunc ratio

/-- The map `getQualityMap` returns: every bucket is a key of it. -/
def getQualityMap (quality : ℚ) : Quality → ℚ
  | QualityGood => goodQualityFunc quality
  | QualityGeneral => generalQualityFunc quality
  | QualityPoor => poorQualityFunc quality

structure Result where
  delta : ℚ
  weight : ℚ
  deriving DecidableEq

/-- The first loop of `CalculateDelta`: `resultMap[cond] = Result{delta, weight}`
for every entry of the rule table, visited in the order `rangeRules`. -/
def buildResultMap (rangeRules : List (Condition × ℚ)) (ratio quality : ℚ) :
    Condition → Option Result :=
  rangeRules.foldl
    (fun resultMap rule cond =>
      if cond = rule.1 then
        some ⟨rule.2, min (getRatioMap ratio rule.1.ratio) (getQualityMap quality rule.1.quality)⟩
      else resultMap cond)
    (fun _ => none)

/-- The second loop of `CalculateDelta`: the accumulators `(sum, w)` after the
entries of `resultMap` were visited in the order `rangeResult`. -/
def accumulate (resultMap : Condition → Option Result) (rangeResult : List Condition) : ℚ × ℚ :=
  rangeResult.foldl
    (fun acc cond =>
      match resultMap cond with
      | some r => (acc.1 + r.delta * r.weight, acc.2 + r.weight)
      | none => acc)
    (0, 0)

/-- The function `CalculateDelta(ratio, quality)`; `rangeRules` is the order in which the
rule table (`getRules`) is ranged and `rangeResult` the order in which `resultMap` is. -/
def CalculateDelta (rangeRules : List (Condition × ℚ)) (rangeResult : List Condition)
    (ratio quality : ℚ) : GoFloat :=
  let acc := accumulate (buildResultMap rangeRules ratio quality) rangeResult
  GoFloat.div acc.1 acc.2

/-- The nine keys of the rule table. -/
def ruleKeys : List Condition := initialRuleSets.map Prod.fst

/-- The activation of a rule: the smaller of its two memberships. -/
def activation (ratio quality : ℚ) (c : Condition) : ℚ :=
  min (getRatioMap ratio c.ratio) (getQualityMap quality c.quality)

/-- The rule deltas as the specification lists them. -/
def specRuleDelta : Condition → ℚ
  | ⟨RatioLow, QualityPoor⟩ => 2 / 10
  | ⟨RatioLow, QualityGeneral⟩ => 0
  | ⟨RatioLow, QualityGood⟩ => -(2 / 10)
  | ⟨RatioMedium, QualityPoor⟩ => 5 / 10
  | ⟨RatioMedium, QualityGeneral⟩ => 2 / 10
  | ⟨RatioMedium, QualityGood⟩ => 0
  | ⟨RatioHigh, QualityPoor⟩ => 1
  | ⟨RatioHigh, QualityGeneral⟩ => 5 / 10
  | ⟨RatioHigh, QualityGood⟩ => 2 / 10

/-- The nine rules in the order the specification lists them. -/
def specRules : List Condition :=
  [ ⟨RatioLow, QualityPoor⟩, ⟨RatioLow, QualityGeneral⟩, ⟨RatioLow, QualityGood⟩,
    ⟨RatioMedium, QualityPoor⟩, ⟨RatioMedium, QualityGeneral⟩, ⟨RatioMedium, QualityGood⟩,
    ⟨RatioHigh, QualityPoor⟩, ⟨RatioHigh, QualityGeneral⟩, ⟨RatioHigh, QualityGood⟩ ]

/-- The specification's inference formula: `Σ(activation·ruleDelta) / Σ(activation)`. -/
def specDelta (ratio quality : ℚ) : ℚ :=
  (specRules.map (fun c => activation ratio quality c * specRuleDelta c)).sum /
    (specRules.map (fun c => activation ratio quality c)).sum

end updator

/-! ## The external data model (`github.com/jaegertracing/jaeger/model`)

Only the fields the repository reads. Identifiers are unsigned 64-bit numbers,
times and durations signed 64-bit counts of nanoseconds. Spans and their
`Process` are taken to be non-nil, as the decoder produces them. -/

namespace model

structure TraceID where
  High : Nat
  Low : Nat
  deriving DecidableEq, Repr

inductive SpanRefType where
  | ChildOf
  | FollowsFrom
  deriving DecidableEq, Repr

structure SpanRef where
  TraceID : TraceID
  SpanID : Nat
  RefType : SpanRefType
  deriving DecidableEq, Repr

/-- A process; `Tags` holds the `VStr` of each process tag, in order. -/
structure Process where
  ServiceName : String
  Tags : List String
  deriving DecidableEq, Repr

structure Span where
  TraceID : TraceID
  SpanID : Nat
  OperationName : String
  References : List SpanRef
  StartTime : Int
  Duration : Int
  Process : Process
  deriving DecidableEq, Repr

structure Trace where
  Spans : List Span
  deriving DecidableEq, Repr

/-- The test `span.TraceID.String() == span.SpanID.String()`: a span id prints as 16
hexadecimal digits, a trace id as the 16 digits of `Low` when `High` is zero and as
32 digits otherwise, so the two strings agree exactly when `High = 0` and
`Low = SpanID`. -/
def Span.idStringsEqual (span : Span) : Bool :=
  span.TraceID.High == 0 && span.TraceID.Low == span.SpanID

end model

namespace extractor

/-! ## Helpers for loops, bytes and machine integers -/

/-- A `for _, x := range xs` loop whose body may panic. -/
def rangeLoop {σ α : Type} (body : σ → α → Except Fault σ) : List α → σ → Except Fault σ
  | [], st => Except.ok st
  | x :: xs, st =>
    match body st x with
    | Except.error e => Except.error e
    | Except.ok st1 => rangeLoop body xs st1

/-- The value kept by a 64-bit signed integer after an overflowing operation. -/
def wrapInt64 (x : Int) : Int := (x + 2 ^ 63) % 2 ^ 64 - 2 ^ 63

/-- The conversion `int(f)` of a float: the fraction is discarded (truncation toward zero). -/
def truncToInt (q : ℚ) : Int := q.num.tdiv q.den

/-- The function `bytes.Compare`: lexicographic order on byte strings. -/
def bytesCompare : List Nat → List Nat → Ordering
  | [], [] => Ordering.eq
  | [], _ :: _ => Ordering.lt
  | _ :: _, [] => Ordering.gt
  | a :: as, b :: bs =>
    if a < b then Ordering.lt else if b < a then Ordering.gt else bytesCompare as bs

/-- The bytes `s[lo:hi]`, without the bounds check. -/
def sub (s : List Nat) (lo hi : Nat) : List Nat := (s.take hi).drop lo

/-- The slice expression `s[lo:hi]` with integer bounds; it panics when the bounds are
out of range (the capacity of `s` is taken to be its length). -/
def slice (s : List Nat) (lo hi : Int) : Except Fault (List Nat) :=
  if 0 ≤ lo ∧ lo ≤ hi ∧ hi ≤ s.length then Except.ok (sub s lo.toNat hi.toNat)
  else Except.error Fault.indexOutOfRange

/-- The function `binary.BigEndian.PutUint64` on a fresh 8-byte buffer. -/
def putUint64 (v : Nat) : List Nat :=
  [v / 2 ^ 56 % 256, v / 2 ^ 48 % 256, v / 2 ^ 40 % 256, v / 2 ^ 32 % 256,
    v / 2 ^ 24 % 256, v / 2 ^ 16 % 256, v / 2 ^ 8 % 256, v % 256]

/-- The number a byte string denotes in big-endian order (`binary.BigEndian.Uint64` on
8 bytes). -/
def beUint64 : List Nat → Nat
  | [] => 0
  | b :: bs => b * 256 ^ bs.length + beUint64 bs

/-! ## `extractor/extractor.go` -/

def spanKeyPrefix : Nat := 0x80
def serviceNameIndexKey : Nat := 0x81
def sizeOfTraceID : Nat := 16

/-- An entry of the key-value store. -/
structure Item where
  key : List Nat
  value : List Nat
  userMeta : Nat
  deriving DecidableEq, Repr

/-- The store: its entries in ascending byte order of their keys, the order in which
an iterator visits them. -/
abbrev Store := List Item

/-- The entries a forward iterator yields from `it.Seek(k)` on: those from the first
key not below `k`. -/
def seekForward (store : Store) (k : List Nat) : List Item :=
  store.dropWhile (fun item => bytesCompare item.key k == Ordering.lt)

/-- The entries a reverse iterator yields from `it.Seek(k)` on: from the last key not
above `k`, downwards. -/
def seekReverse (store : Store) (k : List Nat) : List Item :=
  store.reverse.dropWhile (fun item => bytesCompare item.key k == Ordering.gt)

/-- The entries visited by `for it.Seek(p); it.ValidForPrefix(p); it.Next()`. -/
def scanPrefix (store : Store) (p : List Nat) : List Item :=
  (seekForward store p).takeWhile (fun item => p.isPrefixOf item.key)

/-- A query; times are `UnixNano` values and the service name is its bytes. -/
structure Query where
  serviceName : List Nat
  startTime : Int
  endTime : Int
  numTraces : Int
  deriving DecidableEq, Repr

def NewQuery (serviceName : List Nat) (startTime endTime : Int) (numTraces : Int) : Query :=
  ⟨serviceName, startTime, endTime, numTraces⟩

/-- The value `uint64(t.UnixNano() / 1000)`: the division truncates toward zero and the
conversion to `uint64` wraps. -/
def timeAsEpochMicroseconds (t : Int) : Nat := ((t.tdiv 1000) % 2 ^ 64).toNat

/-- The function `bytesToTraceID`: `High` from bytes 0..8, `Low` from bytes 8..16. -/
def bytesToTraceID (key : List Nat) : model.TraceID :=
  ⟨beUint64 (sub key 0 8), beUint64 (sub key 8 sizeOfTraceID)⟩

/-- The state of the scan of `queryWithoutServiceName`: the keys recorded so far and
`prevTraceID` (`nil` is the empty byte string). -/
structure ScanState where
  traceKeys : List (List Nat)
  prevTraceID : List Nat
  deriving DecidableEq, Repr

/-- The body of the scan loop of `queryWithoutServiceName`. -/
def scanBody (minTimeStamp maxTimeStamp : List Nat) (st : ScanState) (item : Item) :
    Except Fault ScanState :=
  match slice item.key (sizeOfTraceID + 1) (sizeOfTraceID + 1 + 8) with
  | Except.error e => Except.error e
  | Except.ok timestamp =>
    match slice item.key 1 (sizeOfTraceID + 1) with
    | Except.error e => Except.error e
    | Except.ok traceID =>
      if bytesCompare timestamp minTimeStamp ≠ Ordering.lt ∧
          bytesCompare timestamp maxTimeStamp ≠ Ordering.gt then
        if traceID ≠ st.prevTraceID then
          Except.ok ⟨st.traceKeys ++ [item.key], traceID⟩
        else Except.ok st
      else Except.ok st

/-- The keys `queryWithoutServiceName` has recorded when its scan ends. -/
def scanPrimary (store : Store) (query : Query) : Except Fault (List (List Nat)) :=
  let minTimeStamp := putUint64 (timeAsEpochMicroseconds query.startTime)
  let maxTimeStamp := putUint64 (timeAsEpochMicroseconds query.endTime)
  match rangeLoop (scanBody minTimeStamp maxTimeStamp) (scanPrefix store [spanKeyPrefix])
      ⟨[], []⟩ with
  | Except.error e => Except.error e
  | Except.ok st => Except.ok st.traceKeys

/-- The timestamp field of a primary key. -/
def keyTimestamp (key : List Nat) : List Nat := sub key (sizeOfTraceID + 1) (sizeOfTraceID + 1 + 8)

/-- The order `sort.Slice` is asked for in `queryWithoutServiceName` (descending
timestamp), as the relation "may stand before". `sort.Slice` is not stable: the
insertion sort used below yields one of the orders it may produce, and the theorems on
this function use only that the result is a permutation sorted by this relation. -/
def timestampDescending (k h : List Nat) : Prop :=
  bytesCompare (keyTimestamp k) (keyTimestamp h) ≠ Ordering.lt

instance : DecidableRel timestampDescending := fun k h =>
  inferInstanceAs (Decidable (bytesCompare (keyTimestamp k) (keyTimestamp h) ≠ Ordering.lt))

/-- The method `queryWithoutServiceName`: scan, sort by descending timestamp, truncate to
the limit, decode the trace ids. -/
def queryWithoutServiceName (store : Store) (query : Query) :
    Except Fault (List model.TraceID) :=
  match scanPrimary store query with
  | Except.error e => Except.error e
  | Except.ok traceKeys =>
    let sorted := traceKeys.insertionSort timestampDescending
    let sizeCount : Nat :=
      if 0 < query.numTraces ∧ query.numTraces < sorted.length then query.numTraces.toNat
      else sorted.length
    Except.ok ((sorted.take sizeCount).map (fun key => bytesToTraceID (sub key 1 (sizeOfTraceID + 1))))

/-- The loop condition `scanFunction`; `item` is `none` when the iterator is not valid. -/
def scanFunction (item : Option Item) (indexPrefix timeBytesStart timeBytesEnd : List Nat) :
    Except Fault Bool :=
  match item with
  | none => Except.ok false
  | some it =>
    let timestampStartIndex : Int := (it.key.length : Int) - (sizeOfTraceID + 8 : Nat)
    match slice it.key timestampStartIndex (timestampStartIndex + 8) with
    | Except.error e => Except.error e
    | Except.ok timestamp =>
      let timestampInRange : Bool :=
        bytesCompare timeBytesEnd timestamp != Ordering.gt &&
          bytesCompare timeBytesStart timestamp != Ordering.lt
      if it.key.length ≠ indexPrefix.length + 24 then Except.ok false
      else
        match slice it.key 0 timestampStartIndex with
        | Except.error e => Except.error e
        | Except.ok head => Except.ok (indexPrefix.isPrefixOf head && timestampInRange)

/-- The reverse scan of `queryWithServiceName` over the entries the iterator yields,
collecting the trace-id bytes into `indexResults`. -/
def scanIndex (index maxTimeStamp minTimeStamp : List Nat) :
    List Item → List (List Nat) → Except Fault (List (List Nat))
  | [], indexResults => Except.ok indexResults
  | it :: rest, indexResults =>
    match scanFunction (some it) index maxTimeStamp minTimeStamp with
    | Except.error e => Except.error e
    | Except.ok false => Except.ok indexResults
    | Except.ok true =>
      let timestampStartIndex : Int := (it.key.length : Int) - (sizeOfTraceID + 8 : Nat)
      match slice it.key 0 timestampStartIndex with
      | Except.error e => Except.error e
      | Except.ok head =>
        if index = head then
          match slice it.key ((it.key.length : Int) - (sizeOfTraceID : Nat)) it.key.length with
          | Except.error e => Except.error e
          | Except.ok traceIDBytes => scanIndex index maxTimeStamp minTimeStamp rest
              (indexResults ++ [traceIDBytes])
        else scanIndex index maxTimeStamp minTimeStamp rest indexResults

/-- The order `sort.Slice` is asked for in `queryWithServiceName` (ascending bytes). -/
def bytesAscending (k h : List Nat) : Prop := bytesCompare h k ≠ Ordering.lt

instance : DecidableRel bytesAscending := fun k h =>
  inferInstanceAs (Decidable (bytesCompare h k ≠ Ordering.lt))

/-- The last loop of `queryWithServiceName`: adjacent equal ids are kept once. -/
def dedupAdjacent : List (List Nat) → List Nat → List model.TraceID
  | [], _ => []
  | traceID :: rest, prevTraceID =>
    if prevTraceID ≠ traceID then bytesToTraceID traceID :: dedupAdjacent rest traceID
    else dedupAdjacent rest prevTraceID

/-- The method `queryWithServiceName`: reverse scan of the service index from
`index ++ maxTimeStamp ++ [0xFF]`, sort by id bytes, drop adjacent duplicates. -/
def queryWithServiceName (store : Store) (query : Query) : Except Fault (List model.TraceID) :=
  let index := serviceNameIndexKey :: query.serviceName
  let minTimeStamp := putUint64 (timeAsEpochMicroseconds query.startTime)
  let maxTimeStamp := putUint64 (timeAsEpochMicroseconds query.endTime)
  let startIndex := index ++ maxTimeStamp ++ [0xFF]
  match scanIndex index maxTimeStamp minTimeStamp (seekReverse store startIndex) [] with
  | Except.error e => Except.error e
  | Except.ok indexResults =>
    Except.ok (dedupAdjacent (indexResults.insertionSort bytesAscending) [])

/-- The method `QueryTimeRange`: the branch is chosen by `query.serviceName == ""`. -/
def QueryTimeRange (store : Store) (query : Query) : Except Fault (List model.TraceID) :=
  if query.serviceName = [] then queryWithoutServiceName store query
  else queryWithServiceName store query

/-- The first loop of `GetPercentileLatency` for one trace: the sum of the filtered
span durations, in 64-bit arithmetic. -/
def traceLatency (filter : model.Span → Bool) (trace : model.Trace) : Int :=
  trace.Spans.foldl
    (fun latency span => if filter span then wrapInt64 (latency + span.Duration) else latency) 0

/-- The slice `latencies` before it is sorted: the non-zero sums, in trace order. -/
def collectLatencies (filter : model.Span → Bool) (traces : List model.Trace) : List Int :=
  traces.foldl
    (fun latencies trace =>
      if traceLatency filter trace ≠ 0 then latencies ++ [traceLatency filter trace]
      else latencies)
    []

/-- The body of the percentile loop: `results = append(results, latencies[index])`. -/
def percentileBody (latencies : List Int) (results : List Int) (percentile : ℚ) :
    Except Fault (List Int) :=
  let index : Int := truncToInt ((latencies.length : ℚ) * percentile)
  if 0 ≤ index then
    match latencies[index.toNat]? with
    | some latency => Except.ok (results ++ [latency])
    | none => Except.error Fault.indexOutOfRange
  else Except.error Fault.indexOutOfRange

/-- The method `GetPercentileLatency`; `results` starts as
`make([]time.Duration, len(percentiles))`, that many zero durations. -/
def GetPercentileLatency (percentiles : List ℚ) (traces : List model.Trace)
    (filter : model.Span → Bool) : Except Fault (List Int) :=
  let latencies := (collectLatencies filter traces).insertionSort (fun a b => a ≤ b)
  rangeLoop (percentileBody latencies) percentiles (List.replicate percentiles.length 0)

/-! ## `extractor/graph.go`

The `Span` nodes of a graph live on the heap and are reached through pointers. The
heap is the list of the nodes in allocation order and a pointer is an index into
it; a slice that is `nil` is `none`, an allocated slice (possibly empty) is `some`. -/

structure Span where
  spanID : Nat
  podName : String
  startTime : Int
  duration : Int
  children : Option (List Nat)
  parent : Option Nat
  deriving DecidableEq, Repr

/-- A graph; `root` is `none` while it is the nil pointer, and `longestPath` lists the
spans of the path nodes from the head on. -/
structure Graph where
  traceID : model.TraceID
  root : Option Nat
  startTime : Int
  longestPath : Option (List Nat)
  deriving DecidableEq, Repr

/-- The assignment `p.field = v` through a pointer: the node at `p` is replaced. -/
def modifyAt (heap : List Span) (p : Nat) (f : Span → Span) : List Span :=
  match heap[p]? with
  | some node => heap.set p (f node)
  | none => heap

/-- The state of `NewGraph` while the tree is built. -/
structure BuildState where
  heap : List Span
  spanMap : Nat → Option Nat
  graph : Graph

/-- The body of the first loop of `NewGraph`: allocate the node of `span`, enter it in
`spanMap`, and make it the root when its two ids print alike. -/
def allocBody (st : BuildState) (span : model.Span) : Except Fault BuildState :=
  match span.Process.Tags[1]? with
  | none => Except.error Fault.indexOutOfRange
  | some pod =>
    let ptr := st.heap.length
    let heap := st.heap ++ [⟨span.SpanID, pod, 0, span.Duration, some [], none⟩]
    let spanMap : Nat → Option Nat := fun id => if id = span.SpanID then some ptr else st.spanMap id
    if span.idStringsEqual then
      Except.ok ⟨heap, spanMap,
        { st.graph with traceID := span.TraceID, startTime := span.StartTime, root := some ptr }⟩
    else Except.ok ⟨heap, spanMap, st.graph⟩

/-- The body of the second loop of `NewGraph`: set the relative start time, read
`span.References[0]`, and for a child-of reference link the node under its parent. -/
def linkBody (st : BuildState) (span : model.Span) : Except Fault BuildState :=
  match st.spanMap span.SpanID with
  | none => Except.error Fault.nilDereference
  | some self =>
    let heap1 := modifyAt st.heap self
      (fun node => { node with startTime := span.StartTime - st.graph.startTime })
    match span.References with
    | [] => Except.error Fault.indexOutOfRange
    | ref :: _ =>
      if ref.RefType = model.SpanRefType.ChildOf then
        let heap2 := modifyAt heap1 self (fun node => { node with parent := st.spanMap ref.SpanID })
        match st.spanMap ref.SpanID with
        | none => Except.error Fault.nilDereference
        | some parent =>
          let heap3 := modifyAt heap2 parent
            (fun node => { node with children := some (node.children.getD [] ++ [self]) })
          Except.ok { st with heap := heap3 }
      else Except.ok { st with heap := heap1 }

/-- The two loops of `NewGraph` (all of it before `buildLongestPath` is called). -/
def buildTree (trace : model.Trace) : Except Fault BuildState :=
  match rangeLoop allocBody trace.Spans ⟨[], fun _ => none, ⟨⟨0, 0⟩, none, 0, none⟩⟩ with
  | Except.error e => Except.error e
  | Except.ok st => rangeLoop linkBody trace.Spans st

/-- The inner loop of `buildLongestPath`: `(maxChild, maxDuration)` after the children
were visited in order, starting from `(curr, 0)`. -/
def pickMaxChild (heap : List Span) (curr : Nat) (children : List Nat) : Nat × Int :=
  children.foldl
    (fun best child =>
      match heap[child]? with
      | some node => if best.2 < node.duration then (child, node.duration) else best
      | none => best)
    (curr, 0)

/-- The outer loop of `buildLongestPath`, `for curr.children != nil`, run for at most
`fuel` iterations; `path` lists the spans of the path nodes built so far. -/
def descend (heap : List Span) : Nat → Nat → List Nat → Option (Except Fault (List Nat))
  | 0, _, _ => none
  | fuel + 1, curr, path =>
    match heap[curr]? with
    | none => some (Except.error Fault.nilDereference)
    | some node =>
      match node.children with
      | none => some (Except.ok path)
      | some children =>
        let maxChild := (pickMaxChild heap curr children).1
        descend heap fuel maxChild (path ++ [maxChild])

/-- The method `buildLongestPath`: the path starts at the root; a nil root is dereferenced
by the loop condition. -/
def buildLongestPath (fuel : Nat) (heap : List Span) (g : Graph) :
    Option (Except Fault (List Nat)) :=
  match g.root with
  | none => some (Except.error Fault.nilDereference)
  | some root => descend heap fuel root [root]

/-- The function `NewGraph`: the heap and the graph it returns, when it returns. -/
def NewGraph (fuel : Nat) (trace : model.Trace) : Option (Except Fault (List Span × Graph)) :=
  match buildTree trace with
  | Except.error e => some (Except.error e)
  | Except.ok st =>
    match buildLongestPath fuel st.heap st.graph with
    | none => none
    | some (Except.error e) => some (Except.error e)
    | some (Except.ok path) => some (Except.ok (st.heap, { st.graph with longestPath := some path }))

/-! ## Predicates and inputs used in the statements -/

/-- Every node of the heap has an allocated `children` slice whose entries point into
the heap. -/
def HeapClosed (heap : List Span) : Prop :=
  ∀ (p : Nat) (node : Span), heap[p]? = some node →
    ∃ cs, node.children = some cs ∧ ∀ c ∈ cs, c < heap.length

/-- What the loops of `NewGraph` maintain: a closed heap, and `spanMap` and `root`
pointing into it. -/
def BuildInv (st : BuildState) : Prop :=
  HeapClosed st.heap ∧ (∀ id p, st.spanMap id = some p → p < st.heap.length) ∧
    ∀ r, st.graph.root = some r → r < st.heap.length

/-- The span id a span asks to be attached under: that of its first reference, when
that reference is child-of. -/
def firstChildOf (span : model.Span) : Option Nat :=
  match span.References with
  | ref :: _ => if ref.RefType = model.SpanRefType.ChildOf then some ref.SpanID else none
  | [] => none

/-- The positions, in trace order, of those of the first `k` spans that ask to be
attached under span id `id`. -/
def attachedUnder (spans : List model.Span) (k : Nat) (id : Nat) : List Nat :=
  (List.range k).filter (fun j => (spans[j]?).bind firstChildOf == some id)

/-- The map `spanMap` after the first `k` spans were entered: it sends the id of each of
them to its position, and nothing else. -/
def MapInv (spans : List model.Span) (k : Nat) (spanMap : Nat → Option Nat) : Prop :=
  (∀ (j : Nat) (s : model.Span), j < k → spans[j]? = some s → spanMap s.SpanID = some j) ∧
    ∀ (id p : Nat), spanMap id = some p → p < k ∧ ∃ s, spans[p]? = some s ∧ s.SpanID = id

/-- The state of the first loop of `NewGraph` after `k` spans. -/
def AllocInv (spans : List model.Span) (k : Nat) (st : BuildState) : Prop :=
  st.heap.length = k ∧ MapInv spans k st.spanMap ∧
    ∀ (i : Nat) (node : Span), st.heap[i]? = some node →
      node.children = some [] ∧ (spans[i]?).map (fun s => s.SpanID) = some node.spanID

/-- The state of the second loop of `NewGraph` after `k` spans. -/
def LinkInv (spans : List model.Span) (k : Nat) (st : BuildState) : Prop :=
  st.heap.length = spans.length ∧ MapInv spans spans.length st.spanMap ∧
    (∀ (i : Nat) (node : Span), st.heap[i]? = some node →
      (spans[i]?).map (fun s => s.SpanID) = some node.spanID ∧
        node.children = some (attachedUnder spans k node.spanID)) ∧
    ∀ (j : Nat) (s : model.Span) (pid : Nat), j < k → spans[j]? = some s →
      firstChildOf s = some pid → pid ∈ spans.map (fun s => s.SpanID)

/-- The byte order `a ≤ b`: `bytes.Compare(a, b) <= 0`. -/
def bytesLe (a b : List Nat) : Prop := bytesCompare a b ≠ Ordering.gt

/-- The byte order `a < b`: `bytes.Compare(a, b) < 0`. -/
def bytesLt (a b : List Nat) : Prop := bytesCompare a b = Ordering.lt

/-- The store invariant of the key-value store: the entries are listed in ascending
byte order of their keys, and every byte is below 256. -/
def StoreOrdered (store : Store) : Prop :=
  store.Pairwise (fun a b => bytesLe a.key b.key) ∧ ∀ item ∈ store, ∀ b ∈ item.key, b < 256

/-- A primary key as the writer lays it out: 33 bytes, the first `0x80`. -/
def WellFormedPrimaryKey (key : List Nat) : Prop :=
  key.length = 33 ∧ key.head? = some spanKeyPrefix ∧ ∀ b ∈ key, b < 256

/-- The start time embedded in a primary key, in microseconds. -/
def keyMicros (key : List Nat) : Nat := beUint64 (keyTimestamp key)

/-- The trace id embedded in a primary key. -/
def keyTraceID (key : List Nat) : model.TraceID := bytesToTraceID (sub key 1 (sizeOfTraceID + 1))

/-- The test the scan of `queryWithoutServiceName` applies to the timestamp of a key. -/
def timestampInRange (minTimeStamp maxTimeStamp key : List Nat) : Prop :=
  bytesCompare (keyTimestamp key) minTimeStamp ≠ Ordering.lt ∧
    bytesCompare (keyTimestamp key) maxTimeStamp ≠ Ordering.gt

instance (minTimeStamp maxTimeStamp key : List Nat) :
    Decidable (timestampInRange minTimeStamp maxTimeStamp key) :=
  inferInstanceAs (Decidable (_ ∧ _))

/-- The state `scanBody` moves to on a key whose slices are in range. -/
def scanNext (minTimeStamp maxTimeStamp : List Nat) (st : ScanState) (key : List Nat) :
    ScanState :=
  if timestampInRange minTimeStamp maxTimeStamp key then
    if sub key 1 (sizeOfTraceID + 1) ≠ st.prevTraceID then
      ⟨st.traceKeys ++ [key], sub key 1 (sizeOfTraceID + 1)⟩
    else st
  else st

/-- The variable `prevTraceID` is nil or the trace id of a recorded key. -/
def ScanInv (st : ScanState) : Prop :=
  st.prevTraceID = [] ∨ ∃ k ∈ st.traceKeys, sub k 1 (sizeOfTraceID + 1) = st.prevTraceID

instance (key : List Nat) : Decidable (WellFormedPrimaryKey key) :=
  inferInstanceAs (Decidable (_ ∧ _ ∧ _))

/-- The primary key of a span: prefix, trace id (high part zero), start time in
microseconds, span id. -/
def primaryKey (traceLow micros spanID : Nat) : List Nat :=
  [spanKeyPrefix] ++ putUint64 0 ++ putUint64 traceLow ++ putUint64 micros ++ putUint64 spanID

/-- The service-index key of a span: prefix, service name, start time, trace id. -/
def serviceIndexKey (service : List Nat) (micros traceLow : Nat) : List Nat :=
  [serviceNameIndexKey] ++ service ++ putUint64 micros ++ putUint64 0 ++ putUint64 traceLow

/-- A store of four primary keys: trace 1 at 5 µs and 20 µs, trace 2 at 7 µs, trace 3
at 30 µs. -/
def examplePrimaryStore : Store :=
  [⟨primaryKey 1 5 1, [], 0⟩, ⟨primaryKey 1 20 2, [], 0⟩, ⟨primaryKey 2 7 1, [], 0⟩,
    ⟨primaryKey 3 30 1, [], 0⟩]

/-- A store of two service-index keys of service `"a"`: trace 1 at 5 µs, trace 2 at
6 µs. -/
def exampleIndexStore : Store :=
  [⟨serviceIndexKey [97] 5 1, [], 0⟩, ⟨serviceIndexKey [97] 6 2, [], 0⟩]

/-- The service-index key of a span of the trace `(high, low)`. -/
def serviceIndexKeyOf (service : List Nat) (micros high low : Nat) : List Nat :=
  [serviceNameIndexKey] ++ service ++ putUint64 micros ++ putUint64 high ++ putUint64 low

/-- A store of two service-index keys of service `"a"`: trace `(0, 1)` at 10 µs and, at
20 µs, a trace whose id starts with the byte `0xFF`. -/
def highTraceIndexStore : Store :=
  [⟨serviceIndexKeyOf [97] 10 0 1, [], 0⟩, ⟨serviceIndexKeyOf [97] 20 (255 * 2 ^ 56) 7, [], 0⟩]

/-- The same store with the first byte of the second trace id lowered to `0xFE`. -/
def lowerTraceIndexStore : Store :=
  [⟨serviceIndexKeyOf [97] 10 0 1, [], 0⟩, ⟨serviceIndexKeyOf [97] 20 (254 * 2 ^ 56) 7, [], 0⟩]

/-- A store of service-index keys of the services `"a"` (trace 1 at 5 µs) and `"ab"`
(trace 2 at 6 µs). -/
def twoServiceIndexStore : Store :=
  [⟨serviceIndexKey [97] 5 1, [], 0⟩, ⟨serviceIndexKey [97, 98] 6 2, [], 0⟩]

/-- Every key of the store that starts with the span prefix is a well-formed primary
key. -/
def PrimaryKeysWellFormed (store : Store) : Prop :=
  ∀ item ∈ store, [spanKeyPrefix].isPrefixOf item.key = true → WellFormedPrimaryKey item.key

instance (store : Store) : Decidable (PrimaryKeysWellFormed store) :=
  inferInstanceAs (Decidable (∀ item ∈ store, _ → _))

instance (a b : List Nat) : Decidable (bytesLe a b) :=
  inferInstanceAs (Decidable (_ ≠ _))

instance (a b : List Nat) : Decidable (bytesLt a b) :=
  inferInstanceAs (Decidable (_ = _))

/-- The key is exactly `index ++ timestamp ++ traceID`, with an 8-byte timestamp between
the two bounds (in byte order) and the 16 trace-id bytes `tid`. -/
def IndexKeyOf (index minTimeStamp maxTimeStamp key tid : List Nat) : Prop :=
  ∃ ts, key = index ++ ts ++ tid ∧ ts.length = 8 ∧ tid.length = 16 ∧
    bytesLe minTimeStamp ts ∧ bytesLe ts maxTimeStamp

/-- The trace-id byte strings the last loop of `queryWithServiceName` keeps. -/
def dedupBytes : List (List Nat) → List Nat → List (List Nat)
  | [], _ => []
  | traceID :: rest, prevTraceID =>
    if prevTraceID ≠ traceID then traceID :: dedupBytes rest traceID
    else dedupBytes rest prevTraceID

/-- The trace-id bytes of a primary key, `key[1:17]`. -/
def keyTraceIDBytes (key : List Nat) : List Nat := sub key 1 (sizeOfTraceID + 1)

instance (store : Store) : Decidable (StoreOrdered store) :=
  inferInstanceAs (Decidable (_ ∧ _))

/-! ### `GetTraces` -/

/-- The two unmarshalers `decodeValue` calls (`json.Unmarshal` and the generated
`Span.Unmarshal`); they are external, `none` stands for an error. -/
structure Codec where
  unmarshalJSON : List Nat → Option model.Span
  unmarshalProto : List Nat → Option model.Span

/-- The errors `GetTraces` can return. -/
inductive ReadError where
  | unmarshal
  | unknownEncoding (encodeType : Nat)
  deriving DecidableEq, Repr

def jsonEncoding : Nat := 0x01
def protoEncoding : Nat := 0x02
def encodingTypeBits : Nat := 0x0F

def decodeValue (codec : Codec) (val : List Nat) (encodeType : Nat) :
    Except ReadError model.Span :=
  if encodeType = jsonEncoding then
    match codec.unmarshalJSON val with
    | some sp => Except.ok sp
    | none => Except.error ReadError.unmarshal
  else if encodeType = protoEncoding then
    match codec.unmarshalProto val with
    | some sp => Except.ok sp
    | none => Except.error ReadError.unmarshal
  else Except.error (ReadError.unknownEncoding encodeType)

def createPrimaryKeySeekPrefix (traceID : model.TraceID) : List Nat :=
  [spanKeyPrefix] ++ putUint64 traceID.High ++ putUint64 traceID.Low

/-- The inner loop of `GetTraces` over the entries under one seek prefix:
`spans = append(spans, sp)` for each decoded value; the first error ends the call.
Values are taken to be readable (`ValueCopy` does not fail). -/
def decodeSpans (codec : Codec) :
    List Item → List model.Span → Except ReadError (List model.Span)
  | [], spans => Except.ok spans
  | item :: rest, spans =>
    match decodeValue codec item.value (item.userMeta &&& encodingTypeBits) with
    | Except.error e => Except.error e
    | Except.ok sp => decodeSpans codec rest (spans ++ [sp])

/-- The outer loop of `GetTraces` over the seek prefixes: a trace is appended when at
least one span was decoded. -/
def collectTraces (codec : Codec) (store : Store) :
    List (List Nat) → List model.Trace → Except ReadError (List model.Trace)
  | [], traces => Except.ok traces
  | seekPrefix :: rest, traces =>
    match decodeSpans codec (scanPrefix store seekPrefix) [] with
    | Except.error e => Except.error e
    | Except.ok spans =>
      if 0 < spans.length then collectTraces codec store rest (traces ++ [⟨spans⟩])
      else collectTraces codec store rest traces

def GetTraces (codec : Codec) (store : Store) (traceIDs : List model.TraceID) :
    Except ReadError (List model.Trace) :=
  collectTraces codec store (traceIDs.map createPrimaryKeySeekPrefix) []

/-- The span an entry decodes to, if it decodes. -/
def decodeOpt (codec : Codec) (item : Item) : Option model.Span :=
  match decodeValue codec item.value (item.userMeta &&& encodingTypeBits) with
  | Except.ok sp => some sp
  | Except.error _ => none

/-- The entries of the store whose key starts with `seekPrefix`, in store order. -/
def entriesUnder (store : Store) (seekPrefix : List Nat) : List Item :=
  store.filter (fun item => seekPrefix.isPrefixOf item.key)

/-- The trace made of the decoded entries under `seekPrefix`, when there is one. -/
def traceUnder (codec : Codec) (store : Store) (seekPrefix : List Nat) : Option model.Trace :=
  match (entriesUnder store seekPrefix).filterMap (decodeOpt codec) with
  | [] => none
  | sp :: spans => some ⟨sp :: spans⟩

/-- A codec that decodes every value to the same span. -/
def constantCodec : Codec :=
  ⟨fun _ => some ⟨⟨0, 1⟩, 1, "op", [], 0, 10, ⟨"svc", ["ip", "pod"]⟩⟩,
    fun _ => some ⟨⟨0, 1⟩, 1, "op", [], 0, 10, ⟨"svc", ["ip", "pod"]⟩⟩⟩

/-- The store of four primary keys with values in the default (binary) encoding. -/
def exampleSpanStore : Store :=
  [⟨primaryKey 1 5 1, [], 2⟩, ⟨primaryKey 1 20 2, [], 2⟩, ⟨primaryKey 2 7 1, [], 2⟩,
    ⟨primaryKey 3 30 1, [], 2⟩]

/-- A span of trace 1 carrying two process tags, the second naming its pod. -/
def exampleSpan (spanID : Nat) (duration : Int) (refs : List model.SpanRef) : model.Span :=
  ⟨⟨0, 1⟩, spanID, "op", refs, 0, duration, ⟨"svc", ["ip", "pod"]⟩⟩

def childOfRoot : model.SpanRef := ⟨⟨0, 1⟩, 1, model.SpanRefType.ChildOf⟩

/-- A reference of the root to a span of another trace. -/
def followsOther : model.SpanRef := ⟨⟨0, 9⟩, 9, model.SpanRefType.FollowsFrom⟩

/-- A root of duration 10 without references and two childless children of durations
7 and 3. -/
def rootTenTrace : model.Trace :=
  ⟨[exampleSpan 1 10 [], exampleSpan 2 7 [childOfRoot], exampleSpan 3 3 [childOfRoot]]⟩

/-- The same tree, the root carrying a follows-from reference. -/
def rootTenTraceWithRef : model.Trace :=
  ⟨[exampleSpan 1 10 [followsOther], exampleSpan 2 7 [childOfRoot],
    exampleSpan 3 3 [childOfRoot]]⟩

/-- A trace of a single span, its root, which has no children. -/
def loneRootTrace : model.Trace := ⟨[exampleSpan 1 10 [followsOther]]⟩

/-- A root and a second span whose first reference is follows-from. -/
def followerTrace : model.Trace :=
  ⟨[exampleSpan 1 10 [followsOther],
    exampleSpan 2 7 [⟨⟨0, 1⟩, 1, model.SpanRefType.FollowsFrom⟩]]⟩

/-- A well-formed trace: a root without references, a child of the root and a child of
that child. -/
def chainTrace : model.Trace :=
  ⟨[exampleSpan 1 10 [], exampleSpan 2 7 [childOfRoot],
    exampleSpan 3 3 [⟨⟨0, 1⟩, 2, model.SpanRefType.ChildOf⟩]]⟩

/-- A root and a second span that is child-of a span absent from the trace. -/
def orphanTrace : model.Trace :=
  ⟨[exampleSpan 1 10 [followsOther],
    exampleSpan 2 7 [⟨⟨0, 1⟩, 9, model.SpanRefType.ChildOf⟩]]⟩

/-- One hundred traces of one span each, of durations 1 to 100 nanoseconds. -/
def hundredTraces : List model.Trace :=
  (List.range 100).map (fun i => ⟨[exampleSpan 1 ((i : Int) + 1) []]⟩)

/-- The span filter `getQoS` passes: the spans of one service. -/
def serviceFilter (svcName : String) (span : model.Span) : Bool :=
  span.Process.ServiceName == svcName

end extractor

namespace updator

open Ratio Quality

/-! ## `updator/updator.go` and `updator/server/server.go`

The cluster API, the cgroup files and the trace reader are external: the functions
below take what the code reads from them (the old replica count, the parsed quota
value, the measured latencies) as arguments and return what it writes. -/

/-- The map of `getRatioMap` for a ratio that need not be finite: every comparison
with NaN is false, `+Inf` satisfies only `ratio > 1.4`, and `-Inf` no condition. -/
def getRatioMapFloat : GoFloat → Ratio → ℚ
  | GoFloat.fin r, b => getRatioMap r b
  | GoFloat.posInf, RatioHigh => 1
  | GoFloat.posInf, _ => 0
  | GoFloat.negInf, _ => 0
  | GoFloat.nan, _ => 0

/-- The map of `getQualityMap` for a quality that need not be finite: every comparison
with NaN is false, `+Inf` satisfies only `quality > 1`, and `-Inf` only
`quality <= 0.6`. -/
def getQualityMapFloat : GoFloat → Quality → ℚ
  | GoFloat.fin q, b => getQualityMap q b
  | GoFloat.posInf, QualityPoor => 1
  | GoFloat.posInf, _ => 0
  | GoFloat.negInf, QualityGood => 1
  | GoFloat.negInf, _ => 0
  | GoFloat.nan, _ => 0

/-- The function `CalculateDelta` on arguments that need not be finite, as `update` may
pass them: the two loops of `CalculateDelta` over the membership maps above. -/
def CalculateDeltaFloat (rangeRules : List (Condition × ℚ)) (rangeResult : List Condition)
    (ratio quality : GoFloat) : GoFloat :=
  let resultMap : Condition → Option Result :=
    rangeRules.foldl
      (fun resultMap rule cond =>
        if cond = rule.1 then
          some ⟨rule.2,
            min (getRatioMapFloat ratio rule.1.ratio) (getQualityMapFloat quality rule.1.quality)⟩
        else resultMap cond)
      (fun _ => none)
  let acc := accumulate resultMap rangeResult
  GoFloat.div acc.1 acc.2

structure HistoryEntry where
  currRps : Int
  currShare : Int
  quality : GoFloat
  deriving DecidableEq

/-- The map `Updator.history`; a pod without an entry is sent to `none`. -/
abbrev History := String → Option HistoryEntry

/-- Lines 160-173 of `Updator.update`: the delta chosen for the pod and the history
after the step. A pod with an entry gets `CalculateDelta(rps / lastRps, quality)` and
its `currRps` is overwritten; a pod without one gets `1.0` and a fresh entry
`HistoryEntry{currRps: rps}`. -/
def updateDelta (rangeRules : List (Condition × ℚ)) (rangeResult : List Condition)
    (history : History) (podName : String) (rps : Int) : GoFloat × History :=
  match history podName with
  | some entry =>
    let lastRps := entry.currRps
    let ratio := GoFloat.div (rps : ℚ) (lastRps : ℚ)
    let quality := entry.quality
    let delta := CalculateDeltaFloat rangeRules rangeResult ratio quality
    (delta, fun p => if p = podName then some { entry with currRps := rps } else history p)
  | none =>
    (GoFloat.fin 1,
      fun p => if p = podName then some ⟨rps, 0, GoFloat.fin 0⟩ else history p)

/-- The method `updateReplica`: the replica count it sets and returns,
`int32(float64(oldReplicas) * delta)`, for the old count read from the cluster and a
finite delta. -/
def updateReplica (oldReplicas : Int) (delta : ℚ) : Int :=
  extractor.truncToInt ((oldReplicas : ℚ) * delta)

/-- The conversion `int64(f)` of a `float64`: the fraction is discarded when the result
fits 64 bits; a value out of range, an infinity and NaN convert to the smallest `int64`
(the result of the conversion instruction on amd64). -/
def int64OfFloat : GoFloat → Int
  | GoFloat.fin f =>
    let t := extractor.truncToInt f
    if -(2 ^ 63) ≤ t ∧ t < 2 ^ 63 then t else -(2 ^ 63)
  | _ => -(2 ^ 63)

/-- The assignment `curr, _ := strconv.ParseFloat(string(content), 64)`: `parsed` is the
finite number the content denotes, `none` when `ParseFloat` rejects the content
(anything but a number from end to end, a trailing newline included). The error is
discarded and `curr` is then 0. -/
def parsedOrZero (parsed : Option ℚ) : ℚ :=
  match parsed with
  | some curr => curr
  | none => 0

/-- The function `updateCpu`: the value it writes and returns,
`int64(curr * (1 + delta))`, for the content read from the cgroup file and the `float64`
delta the function receives. The file is taken to be read and written without error
(the function panics otherwise); sum and product are exact, as `float64` is on
integers below `2^53`. -/
def updateCpu (parsed : Option ℚ) (delta : GoFloat) : Int :=
  let curr := parsedOrZero parsed
  let newValue := int64OfFloat (GoFloat.mul (GoFloat.fin curr) (GoFloat.add (GoFloat.fin 1) delta))
  newValue

/-- The function `updateMemory`: the value it writes and returns. -/
def updateMemory (parsed : Option ℚ) (delta : GoFloat) : Int :=
  let curr := parsedOrZero parsed
  let newValue := int64OfFloat (GoFloat.mul (GoFloat.fin curr) (GoFloat.add (GoFloat.fin 1) delta))
  newValue

/-- The function `updateNetworkBandwidth`: the value it writes and returns. -/
def updateNetworkBandwidth (parsed : Option ℚ) (delta : GoFloat) : Int :=
  let curr := parsedOrZero parsed
  let newValue := int64OfFloat (GoFloat.mul (GoFloat.fin curr) (GoFloat.add (GoFloat.fin 1) delta))
  newValue

/-- The integer nearest to `x ≥ 0`, a tie going to the even one. -/
def roundHalfEven (x : ℚ) : Nat :=
  let f := x.num.toNat / x.den
  let twice := 2 * (x.num.toNat % x.den)
  if twice < x.den then f
  else if x.den < twice then f + 1
  else if f % 2 = 0 then f else f + 1

/-- The binary exponent a `float32` gives the magnitude `a`: the largest `e` in
`-126 .. 127` with `2^e ≤ a`, and `-126` below that range. -/
def float32Exponent (a : ℚ) : Int :=
  (((List.range 253).filter
    (fun i => decide (2 ^ (i + 1) * a.den ≤ a.num.toNat * 2 ^ 126))).length : Int) - 126

/-- The conversion `float32(f)` of a `float64`: the nearest number with a 24-bit
significand (ties to even), an infinity from `2^128 - 2^103` on. -/
def float32 : GoFloat → GoFloat
  | GoFloat.fin q =>
    let a := |q|
    let quantum : ℚ := 2 ^ (float32Exponent a - 23)
    let r : ℚ := (roundHalfEven (a / quantum) : ℚ) * quantum
    if (2 : ℚ) ^ 128 ≤ r then (if 0 < q then GoFloat.posInf else GoFloat.negInf)
    else GoFloat.fin (if 0 ≤ q then r else -r)
  | f => f

/-- The type `utils.ResourceType`; `other` is any string that is none of the four
constants. -/
inductive ResourceType where
  | ResourceCPU
  | ResourceMemory
  | ResourceNetworkBandwidth
  | ResourceReplica
  | other
  deriving DecidableEq, Repr

/-- The handler `DoUpdate`: the `LatestShare` of the reply, and whether an error is
returned with it. `delta` is the `float32` of the request; widening it to `float64` is
exact. -/
def DoUpdate (resourceType : ResourceType) (parsed : Option ℚ) (delta : GoFloat) : Int × Bool :=
  match resourceType with
  | ResourceType.ResourceCPU => (updateCpu parsed delta, false)
  | ResourceType.ResourceMemory => (updateMemory parsed delta, false)
  | ResourceType.ResourceNetworkBandwidth => (updateNetworkBandwidth parsed delta, false)
  | _ => (0, true)

/-- Lines 181-206 of `Updator.update`, the branch of a policy other than replica: the
request carries `Delta: float32(delta)` and the policy, and the reply of `DoUpdate` is
what the node agent wrote. -/
def updateInPlace (policy : ResourceType) (parsed : Option ℚ) (delta : GoFloat) : Int × Bool :=
  DoUpdate policy parsed (float32 delta)

/-- The constant `defaultE2eLatency`, one second in nanoseconds. -/
def defaultE2eLatency : Int := 1000000000

def defaultQoSThreshold : ℚ := 1000

/-- The comparison `x > c` of a float with a finite constant; it is false for NaN. -/
def floatGt (x : GoFloat) (c : ℚ) : Bool :=
  match x with
  | GoFloat.fin q => decide (c < q)
  | GoFloat.posInf => true
  | GoFloat.negInf => false
  | GoFloat.nan => false

/-- The variables of the loop of `isQosViolation`. -/
structure QosState where
  violation : Bool
  operation : String
  prevLat : Int
  deriving DecidableEq, Repr

/-- The body of the loop of `isQosViolation` for one entry `(op, lats)` of the map. -/
def qosBody (st : QosState) (entry : String × List Int) : Except Fault QosState :=
  match entry.2 with
  | lat50 :: lat99 :: _ =>
    let violation : Bool :=
      decide (lat50 > defaultE2eLatency) ||
        floatGt (GoFloat.div (lat99 : ℚ) (lat50 : ℚ)) defaultQoSThreshold
    if violation && decide (lat99 > st.prevLat) then
      Except.ok ⟨violation, entry.1, lat99⟩
    else Except.ok { st with violation := violation }
  | _ => Except.error Fault.indexOutOfRange

/-- The method `isQosViolation` on the map `lat50and99s` it gets from
`getQoSByOperation`; `rangeLats` lists the entries of the map in the order in which
the loop ranges over them. -/
def isQosViolation (rangeLats : List (String × List Int)) : Except Fault (Bool × String) :=
  match extractor.rangeLoop qosBody rangeLats ⟨false, "", 0⟩ with
  | Except.error e => Except.error e
  | Except.ok st => Except.ok (st.violation, st.operation)

/-- Measured latencies of the three fixed operations, in nanoseconds: the first has a
median of two seconds, the other two are fast. -/
def exampleLats : List (String × List Int) :=
  [("/wrk2-api/post/compose", [2000000000, 3000000000]),
    ("/wrk2-api/user-timeline/read", [1000000, 2000000]),
    ("/wrk2-api/home-timeline/read", [1000000, 2000000])]

end updator

/-! # Part II: lemmas and theorems -/

namespace updator

open Ratio Quality

/-! ### Lemmas on the controller -/

theorem min_eq_inf (a b : ℚ) : updator.min a b = a ⊓ b := by
  unfold updator.min
  split_ifs with h
  · exact (inf_eq_left.mpr h.le).symm
  · exact (inf_eq_right.mpr (not_lt.mp h)).symm

theorem lowRatioFunc_nonneg (r : ℚ) : 0 ≤ lowRatioFunc r := by
  unfold lowRatioFunc
  split_ifs with h1 h2
  · norm_num
  · linarith [h2.2]
  · exact le_refl 0

theorem mediumRatioFunc_nonneg (r : ℚ) : 0 ≤ mediumRatioFunc r := by
  unfold mediumRatioFunc
  split_ifs with h1 h2
  · linarith [h1.1]
  · linarith [h2.2]
  · exact le_refl 0

theorem highRatioFunc_nonneg (r : ℚ) : 0 ≤ highRatioFunc r := by
  unfold highRatioFunc
  split_ifs with h1 h2
  · linarith [h1.1]
  · norm_num
  · exact le_refl 0

theorem poorQualityFunc_nonneg (q : ℚ) : 0 ≤ poorQualityFunc q := by
  unfold poorQualityFunc
  split_ifs with h1 h2
  · norm_num
  · linarith [h2.1]
  · exact le_refl 0

theorem generalQualityFunc_nonneg (q : ℚ) : 0 ≤ generalQualityFunc q := by
  unfold generalQualityFunc
  split_ifs with h1 h2
  · linarith [h1.1]
  · linarith [h2.2]
  · exact le_refl 0

theorem goodQualityFunc_nonneg (q : ℚ) : 0 ≤ goodQualityFunc q := by
  unfold goodQualityFunc
  split_ifs with h1 h2
  · norm_num
  · linarith [h2.2]
  · exact le_refl 0

theorem getRatioMap_nonneg (r : ℚ) (b : Ratio) : 0 ≤ getRatioMap r b := by
  cases b
  · exact lowRatioFunc_nonneg r
  · exact mediumRatioFunc_nonneg r
  · exact highRatioFunc_nonneg r

theorem getQualityMap_nonneg (q : ℚ) (b : Quality) : 0 ≤ getQualityMap q b := by
  cases b
  · exact poorQualityFunc_nonneg q
  · exact generalQualityFunc_nonneg q
  · exact goodQualityFunc_nonneg q

theorem activation_nonneg (r q : ℚ) (c : Condition) : 0 ≤ activation r q c := by
  unfold activation
  rw [min_eq_inf]
  exact le_inf (getRatioMap_nonneg r _) (getQualityMap_nonneg q _)

/-- Some ratio bucket has a positive membership as soon as the ratio is positive. -/
theorem exists_ratio_pos (r : ℚ) (hr : 0 < r) : ∃ b, 0 < getRatioMap r b := by
  by_cases h1 : r ≤ 6 / 10
  · refine ⟨RatioLow, ?_⟩
    show 0 < lowRatioFunc r
    unfold lowRatioFunc
    rw [if_pos ⟨hr, h1⟩]
    norm_num
  · by_cases h2 : r ≤ 1
    · refine ⟨RatioMedium, ?_⟩
      show 0 < mediumRatioFunc r
      unfold mediumRatioFunc
      rw [if_pos ⟨not_le.mp h1, h2⟩]
      linarith [not_le.mp h1]
    · refine ⟨RatioHigh, ?_⟩
      show 0 < highRatioFunc r
      unfold highRatioFunc
      split_ifs with h3 h4
      · linarith [h3.1]
      · norm_num
      · exact absurd (not_le.mp h2) (fun h => h4 (lt_of_not_le (fun h5 => h3 ⟨h, h5⟩)))

/-- Some quality bucket has a positive membership, whatever the quality. -/
theorem exists_quality_pos (q : ℚ) : ∃ b, 0 < getQualityMap q b := by
  by_cases h1 : q ≤ 6 / 10
  · refine ⟨QualityGood, ?_⟩
    show 0 < goodQualityFunc q
    unfold goodQualityFunc
    rw [if_pos h1]
    norm_num
  · by_cases h2 : q ≤ 8 / 10
    · refine ⟨QualityGeneral, ?_⟩
      show 0 < generalQualityFunc q
      unfold generalQualityFunc
      rw [if_pos ⟨not_le.mp h1, h2⟩]
      linarith [not_le.mp h1]
    · refine ⟨QualityPoor, ?_⟩
      show 0 < poorQualityFunc q
      unfold poorQualityFunc
      split_ifs with h3 h4
      · norm_num
      · linarith [h4.1]
      · exact absurd (not_le.mp h2) (fun h => h4 ⟨h, not_lt.mp h3⟩)

theorem mem_specRules (c : Condition) : c ∈ specRules := by
  rcases c with ⟨r, q⟩
  cases r <;> cases q <;> simp [specRules]

theorem sum_map_nonneg {α : Type} (a : α → ℚ) (l : List α) (h : ∀ c ∈ l, 0 ≤ a c) :
    0 ≤ (l.map a).sum := by
  induction l with
  | nil => simp
  | cons x xs ih =>
    simp only [List.map_cons, List.sum_cons]
    have h1 := h x (List.mem_cons_self x xs)
    have h2 := ih (fun c hc => h c (List.mem_cons_of_mem x hc))
    linarith

theorem le_sum_map_of_mem {α : Type} (a : α → ℚ) (l : List α) (h : ∀ c ∈ l, 0 ≤ a c)
    (c : α) (hc : c ∈ l) : a c ≤ (l.map a).sum := by
  induction l with
  | nil => simp at hc
  | cons x xs ih =>
    simp only [List.map_cons, List.sum_cons]
    have h1 := h x (List.mem_cons_self x xs)
    have h2 := sum_map_nonneg a xs (fun c hc => h c (List.mem_cons_of_mem x hc))
    rcases List.mem_cons.mp hc with rfl | hmem
    · linarith
    · have := ih (fun c hc => h c (List.mem_cons_of_mem x hc)) hmem
      linarith

/-- The sum of the nine activations is positive for a positive ratio. -/
theorem activation_sum_pos (r q : ℚ) (hr : 0 < r) :
    0 < (specRules.map (activation r q)).sum := by
  obtain ⟨br, hbr⟩ := exists_ratio_pos r hr
  obtain ⟨bq, hbq⟩ := exists_quality_pos q
  have hpos : 0 < activation r q ⟨br, bq⟩ := by
    unfold activation
    rw [min_eq_inf]
    exact lt_inf_iff.mpr ⟨hbr, hbq⟩
  exact lt_of_lt_of_le hpos
    (le_sum_map_of_mem (activation r q) specRules (fun c _ => activation_nonneg r q c)
      ⟨br, bq⟩ (mem_specRules _))


theorem ruleKeys_nodup : (initialRuleSets.map Prod.fst).Nodup := by
  simp [initialRuleSets]

theorem mem_initialRuleSets (c : Condition) : (c, specRuleDelta c) ∈ initialRuleSets := by
  rcases c with ⟨r, q⟩
  cases r <;> cases q <;> simp [initialRuleSets, specRuleDelta]

/-- What the first loop leaves under a key of a table whose keys are distinct. -/
theorem buildResultMap_of_mem (l : List (Condition × ℚ)) (r q : ℚ)
    (hnd : (l.map Prod.fst).Nodup) (c : Condition) (d : ℚ) (hmem : (c, d) ∈ l) :
    buildResultMap l r q c = some ⟨d, activation r q c⟩ := by
  induction l using List.reverseRecOn with
  | nil => simp at hmem
  | append_singleton xs x ih =>
    unfold buildResultMap at ih ⊢
    rw [List.foldl_append]
    simp only [List.foldl_cons, List.foldl_nil]
    rw [List.map_append, List.nodup_append] at hnd
    obtain ⟨hxs, -, hdisj⟩ := hnd
    rcases List.mem_append.mp hmem with h | h
    · have hne : c ≠ x.1 := by
        intro heq
        have h1 : c ∈ xs.map Prod.fst := List.mem_map.mpr ⟨(c, d), h, rfl⟩
        have h2 : c ∈ [x].map Prod.fst := by simp [heq]
        exact hdisj h1 h2
      rw [if_neg hne]
      exact ih hxs h
    · have hx : x = (c, d) := (List.mem_singleton.mp h).symm
      subst hx
      simp [activation]

theorem buildResultMap_perm (rangeRules : List (Condition × ℚ)) (r q : ℚ)
    (hp : rangeRules.Perm initialRuleSets) (c : Condition) :
    buildResultMap rangeRules r q c = some ⟨specRuleDelta c, activation r q c⟩ := by
  apply buildResultMap_of_mem
  · exact ((hp.map Prod.fst).nodup_iff).mpr ruleKeys_nodup
  · exact hp.mem_iff.mpr (mem_initialRuleSets c)

/-- The second loop, from any starting accumulators, when every key is present. -/
theorem foldl_accumulate (m : Condition → Option Result) (d a : Condition → ℚ)
    (hm : ∀ c, m c = some ⟨d c, a c⟩) (l : List Condition) (acc : ℚ × ℚ) :
    l.foldl
        (fun acc cond =>
          match m cond with
          | some r => (acc.1 + r.delta * r.weight, acc.2 + r.weight)
          | none => acc)
        acc =
      (acc.1 + (l.map (fun c => a c * d c)).sum, acc.2 + (l.map a).sum) := by
  induction l generalizing acc with
  | nil => simp
  | cons x xs ih =>
    simp only [List.foldl_cons, List.map_cons, List.sum_cons]
    rw [hm x, ih]
    simp only
    ext <;> simp only <;> ring

theorem ruleKeys_perm_specRules : ruleKeys.Perm specRules := by
  simp [ruleKeys, specRules, initialRuleSets]

/-- The accumulators of `CalculateDelta`, in closed form, for every traversal order. -/
theorem accumulate_eq (rangeRules : List (Condition × ℚ)) (rangeResult : List Condition)
    (hp : rangeRules.Perm initialRuleSets) (hq : rangeResult.Perm ruleKeys) (r q : ℚ) :
    accumulate (buildResultMap rangeRules r q) rangeResult =
      ((specRules.map (fun c => activation r q c * specRuleDelta c)).sum,
        (specRules.map (fun c => activation r q c)).sum) := by
  unfold accumulate
  rw [foldl_accumulate _ specRuleDelta (activation r q) (buildResultMap_perm rangeRules r q hp)]
  have hperm : rangeResult.Perm specRules := hq.trans ruleKeys_perm_specRules
  rw [(hperm.map (fun c => activation r q c * specRuleDelta c)).sum_eq,
    (hperm.map (activation r q)).sum_eq]
  simp

theorem CalculateDelta_eq (rangeRules : List (Condition × ℚ)) (rangeResult : List Condition)
    (hp : rangeRules.Perm initialRuleSets) (hq : rangeResult.Perm ruleKeys) (r q : ℚ)
    (hr : 0 < r) : CalculateDelta rangeRules rangeResult r q = GoFloat.fin (specDelta r q) := by
  unfold CalculateDelta
  simp only [accumulate_eq rangeRules rangeResult hp hq]
  unfold GoFloat.div
  rw [if_neg (ne_of_gt (activation_sum_pos r q hr))]
  rfl


/-- A weighted sum of values that are at least `lo` wherever the weight is positive. -/
theorem mul_sum_le_sum_mul (a d : Condition → ℚ) (lo : ℚ) (l : List Condition)
    (ha : ∀ c ∈ l, 0 ≤ a c) (hlo : ∀ c ∈ l, 0 < a c → lo ≤ d c) :
    lo * (l.map a).sum ≤ (l.map (fun c => a c * d c)).sum := by
  induction l with
  | nil => simp
  | cons x xs ih =>
    simp only [List.map_cons, List.sum_cons]
    have h1 := ha x (List.mem_cons_self x xs)
    have h2 := ih (fun c hc => ha c (List.mem_cons_of_mem x hc))
      (fun c hc => hlo c (List.mem_cons_of_mem x hc))
    have h3 : lo * a x ≤ a x * d x := by
      rcases h1.lt_or_eq with hpos | hzero
      · have := hlo x (List.mem_cons_self x xs) hpos
        nlinarith
      · rw [← hzero]; simp
    linarith

theorem sum_mul_le_mul_sum (a d : Condition → ℚ) (hi : ℚ) (l : List Condition)
    (ha : ∀ c ∈ l, 0 ≤ a c) (hhi : ∀ c ∈ l, 0 < a c → d c ≤ hi) :
    (l.map (fun c => a c * d c)).sum ≤ hi * (l.map a).sum := by
  induction l with
  | nil => simp
  | cons x xs ih =>
    simp only [List.map_cons, List.sum_cons]
    have h1 := ha x (List.mem_cons_self x xs)
    have h2 := ih (fun c hc => ha c (List.mem_cons_of_mem x hc))
      (fun c hc => hhi c (List.mem_cons_of_mem x hc))
    have h3 : a x * d x ≤ hi * a x := by
      rcases h1.lt_or_eq with hpos | hzero
      · have := hhi x (List.mem_cons_self x xs) hpos
        nlinarith
      · rw [← hzero]; simp
    linarith

theorem le_specDelta (r q lo : ℚ) (hr : 0 < r)
    (hlo : ∀ c, 0 < activation r q c → lo ≤ specRuleDelta c) : lo ≤ specDelta r q := by
  unfold specDelta
  rw [le_div_iff₀ (activation_sum_pos r q hr)]
  exact mul_sum_le_sum_mul (activation r q) specRuleDelta lo specRules
    (fun c _ => activation_nonneg r q c) (fun c _ => hlo c)

theorem specDelta_le (r q hi : ℚ) (hr : 0 < r)
    (hhi : ∀ c, 0 < activation r q c → specRuleDelta c ≤ hi) : specDelta r q ≤ hi := by
  unfold specDelta
  rw [div_le_iff₀ (activation_sum_pos r q hr)]
  exact sum_mul_le_mul_sum (activation r q) specRuleDelta hi specRules
    (fun c _ => activation_nonneg r q c) (fun c _ => hhi c)

theorem specRuleDelta_bounds (c : Condition) :
    -(2 / 10) ≤ specRuleDelta c ∧ specRuleDelta c ≤ 1 := by
  rcases c with ⟨r, q⟩
  cases r <;> cases q <;> simp only [specRuleDelta] <;> norm_num

theorem activation_one_one (c : Condition) :
    activation 1 1 c = if c = ⟨RatioMedium, QualityPoor⟩ then 1 else 0 := by
  rcases c with ⟨r, q⟩
  cases r <;> cases q <;>
    norm_num [activation, updator.min, getRatioMap, getQualityMap, lowRatioFunc,
      mediumRatioFunc, highRatioFunc, poorQualityFunc, generalQualityFunc, goodQualityFunc] <;>
    simp

theorem specDelta_one_one : specDelta 1 1 = 1 / 2 := by
  simp only [specDelta, specRules, List.map_cons, List.map_nil, List.sum_cons, List.sum_nil,
    activation_one_one, specRuleDelta]
  simp
  norm_num


theorem activation_zero_ratio (q : ℚ) (c : Condition) : activation 0 q c = 0 := by
  have hq := getQualityMap_nonneg q c.quality
  have hr : getRatioMap 0 c.ratio = 0 := by
    rcases c with ⟨r, q'⟩
    cases r <;>
      norm_num [getRatioMap, lowRatioFunc, mediumRatioFunc, highRatioFunc]
  unfold activation
  rw [min_eq_inf, hr]
  exact inf_eq_left.mpr hq

/-! ### The claims on the controller -/

/-- C1: for a positive ratio, whatever the order in which the rule table and the
result map are ranged, `CalculateDelta` returns the finite value
`Σ(activation·ruleDelta) / Σ(activation)` over the nine rules of the specification,
computed in exact arithmetic. -/
theorem C1_CalculateDelta_weighted_average
    (rangeRules : List (Condition × ℚ)) (rangeResult : List Condition)
    (hp : rangeRules.Perm initialRuleSets) (hq : rangeResult.Perm ruleKeys)
    (ratio quality : ℚ) (hr : 0 < ratio) :
    CalculateDelta rangeRules rangeResult ratio quality =
      GoFloat.fin
        ((specRules.map (fun c =>
            updator.min (getRatioMap ratio c.ratio) (getQualityMap quality c.quality) *
              specRuleDelta c)).sum /
          (specRules.map (fun c =>
            updator.min (getRatioMap ratio c.ratio) (getQualityMap quality c.quality))).sum) :=
  CalculateDelta_eq rangeRules rangeResult hp hq ratio quality hr

/-- C1 at a concrete input: both maps ranged in reverse order, ratio 7/10 and
quality 7/10, where four rules are active. -/
theorem C1_CalculateDelta_weighted_average_witness :
    CalculateDelta initialRuleSets.reverse ruleKeys.reverse (7 / 10) (7 / 10) =
      GoFloat.fin
        ((specRules.map (fun c =>
            updator.min (getRatioMap (7 / 10) c.ratio) (getQualityMap (7 / 10) c.quality) *
              specRuleDelta c)).sum /
          (specRules.map (fun c =>
            updator.min (getRatioMap (7 / 10) c.ratio)
              (getQualityMap (7 / 10) c.quality))).sum) :=
  C1_CalculateDelta_weighted_average initialRuleSets.reverse ruleKeys.reverse
    (List.reverse_perm _) (List.reverse_perm _) (7 / 10) (7 / 10) (by norm_num)

/-- C2 (the code's behaviour): when all nine activations are zero, `CalculateDelta`
performs the division `0 / 0` and returns NaN, for every traversal order; it neither
fails nor returns `0`. -/
theorem C2_CalculateDelta_zero_activation_is_nan
    (rangeRules : List (Condition × ℚ)) (rangeResult : List Condition)
    (hp : rangeRules.Perm initialRuleSets) (hq : rangeResult.Perm ruleKeys)
    (ratio quality : ℚ) (hzero : ∀ c, activation ratio quality c = 0) :
    CalculateDelta rangeRules rangeResult ratio quality = GoFloat.nan ∧
      CalculateDelta rangeRules rangeResult ratio quality ≠ GoFloat.fin 0 := by
  have h : CalculateDelta rangeRules rangeResult ratio quality = GoFloat.nan := by
    unfold CalculateDelta
    simp only [accumulate_eq rangeRules rangeResult hp hq, hzero]
    simp [GoFloat.div]
  rw [h]
  exact ⟨rfl, fun hne => GoFloat.noConfusion hne⟩

/-- C2 at a concrete input: a measured request rate of zero gives ratio 0, all
activations vanish and the result is NaN. -/
theorem C2_CalculateDelta_zero_activation_is_nan_witness :
    (∀ c, activation 0 (1 / 2) c = 0) ∧
      CalculateDelta initialRuleSets ruleKeys 0 (1 / 2) = GoFloat.nan ∧
      CalculateDelta initialRuleSets ruleKeys 0 (1 / 2) ≠ GoFloat.fin 0 :=
  ⟨activation_zero_ratio (1 / 2),
    C2_CalculateDelta_zero_activation_is_nan initialRuleSets ruleKeys (List.Perm.refl _)
      (List.Perm.refl _) 0 (1 / 2) (activation_zero_ratio (1 / 2))⟩

/-- C3: for a positive ratio the result of `CalculateDelta` is a finite value lying
between the smallest and the largest delta of the rules with positive activation,
hence in `[-0.2, 1.0]`; at ratio 1 and quality 1 the activations sum to 1, only
the medium/poor rule is active, and the result is 0.5. -/
theorem C3_CalculateDelta_within_active_deltas
    (rangeRules : List (Condition × ℚ)) (rangeResult : List Condition)
    (hp : rangeRules.Perm initialRuleSets) (hq : rangeResult.Perm ruleKeys) :
    (∀ ratio quality : ℚ, 0 < ratio →
      ∃ v : ℚ, CalculateDelta rangeRules rangeResult ratio quality = GoFloat.fin v ∧
        (∀ lo : ℚ, (∀ c, 0 < activation ratio quality c → lo ≤ specRuleDelta c) → lo ≤ v) ∧
        (∀ hi : ℚ, (∀ c, 0 < activation ratio quality c → specRuleDelta c ≤ hi) → v ≤ hi) ∧
        -(2 / 10) ≤ v ∧ v ≤ 1) ∧
    (specRules.map (activation 1 1)).sum = 1 ∧
    (∀ c, 0 < activation 1 1 c ↔ c = ⟨RatioMedium, QualityPoor⟩) ∧
    CalculateDelta rangeRules rangeResult 1 1 = GoFloat.fin (1 / 2) := by
  refine ⟨?_, ?_, ?_, ?_⟩
  · intro ratio quality hr
    refine ⟨specDelta ratio quality, CalculateDelta_eq rangeRules rangeResult hp hq _ _ hr,
      fun lo hlo => le_specDelta _ _ _ hr hlo, fun hi hhi => specDelta_le _ _ _ hr hhi,
      le_specDelta _ _ _ hr (fun c _ => (specRuleDelta_bounds c).1),
      specDelta_le _ _ _ hr (fun c _ => (specRuleDelta_bounds c).2)⟩
  · simp only [specRules, List.map_cons, List.map_nil, List.sum_cons, List.sum_nil,
      activation_one_one]
    simp
  · intro c
    rw [activation_one_one]
    split_ifs with h
    · simp [h]
    · simp [h]
  · rw [CalculateDelta_eq rangeRules rangeResult hp hq 1 1 (by norm_num), specDelta_one_one]

/-- C3 at a concrete input: ratio 3/2 and quality 9/10, rule table ranged in
reverse order. -/
theorem C3_CalculateDelta_within_active_deltas_witness :
    ∃ v : ℚ, CalculateDelta initialRuleSets.reverse ruleKeys (3 / 2) (9 / 10) = GoFloat.fin v ∧
      (∀ lo : ℚ, (∀ c, 0 < activation (3 / 2) (9 / 10) c → lo ≤ specRuleDelta c) → lo ≤ v) ∧
      (∀ hi : ℚ, (∀ c, 0 < activation (3 / 2) (9 / 10) c → specRuleDelta c ≤ hi) → v ≤ hi) ∧
      -(2 / 10) ≤ v ∧ v ≤ 1 :=
  (C3_CalculateDelta_within_active_deltas initialRuleSets.reverse ruleKeys
    (List.reverse_perm _) (List.Perm.refl _)).1 (3 / 2) (9 / 10) (by norm_num)

end updator

namespace extractor

/-! ### Loops and the heap -/

theorem rangeLoop_invariant {σ α : Type} (body : σ → α → Except Fault σ) (P : σ → Prop)
    (hstep : ∀ st x st1, P st → body st x = Except.ok st1 → P st1) :
    ∀ (xs : List α) (st st1 : σ), P st → rangeLoop body xs st = Except.ok st1 → P st1
  | [], st, st1, hP, h => by
    simp only [rangeLoop, Except.ok.injEq] at h
    exact h ▸ hP
  | x :: xs, st, st1, hP, h => by
    simp only [rangeLoop] at h
    split at h
    · exact Except.noConfusion h
    · rename_i st2 hb
      exact rangeLoop_invariant body P hstep xs st2 st1 (hstep st x st2 hP hb) h

theorem modifyAt_length (heap : List Span) (p : Nat) (f : Span → Span) :
    (modifyAt heap p f).length = heap.length := by
  unfold modifyAt
  split <;> simp

theorem modifyAt_getElem? (heap : List Span) (p i : Nat) (f : Span → Span) :
    (modifyAt heap p f)[i]? = if i = p then (heap[p]?).map f else heap[i]? := by
  unfold modifyAt
  cases h : heap[p]? with
  | none =>
    simp only [Option.map_none']
    split_ifs with hip
    · rw [hip, h]
    · rfl
  | some node =>
    simp only [Option.map_some']
    have hlt : p < heap.length := (List.getElem?_eq_some.mp h).1
    rw [List.getElem?_set]
    by_cases hip : i = p
    · rw [if_pos hip.symm, if_pos hlt, if_pos hip]
    · rw [if_neg (fun hpi => hip hpi.symm), if_neg hip]

theorem HeapClosed_modifyAt (heap : List Span) (p : Nat) (f : Span → Span)
    (h : HeapClosed heap)
    (hf : ∀ node cs, node.children = some cs → (∀ c ∈ cs, c < heap.length) →
      ∃ cs1, (f node).children = some cs1 ∧ ∀ c ∈ cs1, c < heap.length) :
    HeapClosed (modifyAt heap p f) := by
  intro i node hi
  rw [modifyAt_getElem?] at hi
  rw [modifyAt_length]
  split_ifs at hi with hip
  · cases hp : heap[p]? with
    | none => rw [hp] at hi; exact Option.noConfusion hi
    | some old =>
      rw [hp] at hi
      simp only [Option.map_some', Option.some.injEq] at hi
      obtain ⟨cs, hcs, hlt⟩ := h p old hp
      rw [← hi]
      exact hf old cs hcs hlt
  · exact h i node hi

theorem BuildInv_allocBody (st : BuildState) (span : model.Span) (st1 : BuildState)
    (hinv : BuildInv st) (h : allocBody st span = Except.ok st1) : BuildInv st1 := by
  obtain ⟨hclosed, hmap, hroot⟩ := hinv
  unfold allocBody at h
  split at h
  · exact Except.noConfusion h
  · rename_i pod _
    have hheap : HeapClosed
        (st.heap ++ [(⟨span.SpanID, pod, 0, span.Duration, some [], none⟩ : Span)]) := by
      intro p node hp
      rw [List.getElem?_append] at hp
      simp only [List.length_append, List.length_singleton]
      split_ifs at hp with hlt
      · obtain ⟨cs, hcs, hb⟩ := hclosed p node hp
        exact ⟨cs, hcs, fun c hc => Nat.lt_succ_of_lt (hb c hc)⟩
      · have hnode : node = ⟨span.SpanID, pod, 0, span.Duration, some [], none⟩ := by
          cases hk : p - st.heap.length with
          | zero => rw [hk] at hp; simpa using hp.symm
          | succ k => rw [hk] at hp; simp at hp
        exact ⟨[], by rw [hnode], fun c hc => absurd hc (List.not_mem_nil c)⟩
    have hmap1 : ∀ id p,
        (fun id => if id = span.SpanID then some st.heap.length else st.spanMap id) id = some p →
          p < (st.heap ++ [(⟨span.SpanID, pod, 0, span.Duration, some [], none⟩ : Span)]).length := by
      intro id p hp
      simp only [List.length_append, List.length_singleton]
      simp only at hp
      split_ifs at hp with hid
      · simp only [Option.some.injEq] at hp
        omega
      · exact Nat.lt_succ_of_lt (hmap id p hp)
    split_ifs at h with hr
    · simp only [Except.ok.injEq] at h
      subst h
      refine ⟨hheap, hmap1, ?_⟩
      intro r hrr
      simp only [Option.some.injEq] at hrr
      simp only [List.length_append, List.length_singleton]
      omega
    · simp only [Except.ok.injEq] at h
      subst h
      refine ⟨hheap, hmap1, ?_⟩
      intro r hrr
      simp only [List.length_append, List.length_singleton]
      exact Nat.lt_succ_of_lt (hroot r hrr)

theorem HeapClosed_modifyAt_same (heap : List Span) (p : Nat) (f : Span → Span)
    (h : HeapClosed heap) (hf : ∀ node, (f node).children = node.children) :
    HeapClosed (modifyAt heap p f) :=
  HeapClosed_modifyAt heap p f h (fun node cs hcs hlt => ⟨cs, by rw [hf node, hcs], hlt⟩)

theorem BuildInv_linkBody (st : BuildState) (span : model.Span) (st1 : BuildState)
    (hinv : BuildInv st) (h : linkBody st span = Except.ok st1) : BuildInv st1 := by
  obtain ⟨hclosed, hmap, hroot⟩ := hinv
  unfold linkBody at h
  split at h
  · exact Except.noConfusion h
  · rename_i self hself
    have h1 : HeapClosed (modifyAt st.heap self
        (fun node => { node with startTime := span.StartTime - st.graph.startTime })) :=
      HeapClosed_modifyAt_same _ _ _ hclosed (fun _ => rfl)
    split at h
    · exact Except.noConfusion h
    · rename_i ref _ _
      split_ifs at h with hchild
      · split at h
        · exact Except.noConfusion h
        · rename_i parent hparent
          simp only [Except.ok.injEq] at h
          subst h
          refine ⟨?_, ?_, ?_⟩
          · apply HeapClosed_modifyAt
            · exact HeapClosed_modifyAt_same _ _ _ h1 (fun _ => rfl)
            · intro node cs hcs hlt
              refine ⟨cs ++ [self], by simp [hcs], ?_⟩
              intro c hc
              rcases List.mem_append.mp hc with hc1 | hc1
              · exact hlt c hc1
              · rw [List.mem_singleton.mp hc1]
                simp only [modifyAt_length]
                exact hmap _ _ hself
          · intro id q hq
            simp only [modifyAt_length]
            exact hmap id q hq
          · intro r hr
            simp only [modifyAt_length]
            exact hroot r hr
      · simp only [Except.ok.injEq] at h
        subst h
        refine ⟨h1, ?_, ?_⟩
        · intro id q hq
          simp only [modifyAt_length]
          exact hmap id q hq
        · intro r hr
          simp only [modifyAt_length]
          exact hroot r hr

/-- The tree-building loops of `NewGraph` leave a closed heap. -/
theorem buildTree_inv (trace : model.Trace) (st : BuildState)
    (h : buildTree trace = Except.ok st) : BuildInv st := by
  unfold buildTree at h
  split at h
  · exact Except.noConfusion h
  · rename_i st0 h0
    have hinit : BuildInv ⟨[], fun _ => none, ⟨⟨0, 0⟩, none, 0, none⟩⟩ := by
      refine ⟨?_, ?_, ?_⟩
      · intro p node hp
        simp at hp
      · intro id q hq
        exact Option.noConfusion hq
      · intro r hr
        exact Option.noConfusion hr
    have h1 := rangeLoop_invariant allocBody BuildInv BuildInv_allocBody _ _ _ hinit h0
    exact rangeLoop_invariant linkBody BuildInv BuildInv_linkBody _ _ _ h1 h

theorem pickMaxChild_foldl (heap : List Span) (children : List Nat) (best : Nat × Int) :
    (children.foldl
        (fun best child =>
          match heap[child]? with
          | some node => if best.2 < node.duration then (child, node.duration) else best
          | none => best)
        best).1 = best.1 ∨
      (children.foldl
        (fun best child =>
          match heap[child]? with
          | some node => if best.2 < node.duration then (child, node.duration) else best
          | none => best)
        best).1 ∈ children := by
  induction children generalizing best with
  | nil => exact Or.inl rfl
  | cons c cs ih =>
    simp only [List.foldl_cons]
    rcases ih (match heap[c]? with
      | some node => if best.2 < node.duration then (c, node.duration) else best
      | none => best) with h | h
    · rw [h]
      cases heap[c]? with
      | none => exact Or.inl rfl
      | some node =>
        simp only
        split_ifs
        · exact Or.inr (List.mem_cons_self c cs)
        · exact Or.inl rfl
    · exact Or.inr (List.mem_cons_of_mem c h)

theorem pickMaxChild_fst (heap : List Span) (curr : Nat) (children : List Nat) :
    (pickMaxChild heap curr children).1 = curr ∨ (pickMaxChild heap curr children).1 ∈ children :=
  pickMaxChild_foldl heap children (curr, 0)

/-- On a closed heap the loop of `buildLongestPath` never meets a nil `children`: it
exhausts every budget. -/
theorem descend_none (heap : List Span) (hclosed : HeapClosed heap) :
    ∀ (fuel curr : Nat) (path : List Nat), curr < heap.length → descend heap fuel curr path = none
  | 0, _, _, _ => rfl
  | fuel + 1, curr, path, hcurr => by
    obtain ⟨cs, hcs, hlt⟩ := hclosed curr heap[curr] (List.getElem?_eq_getElem hcurr)
    unfold descend
    rw [List.getElem?_eq_getElem hcurr]
    simp only [hcs]
    apply descend_none heap hclosed fuel
    rcases pickMaxChild_fst heap curr cs with h | h
    · rw [h]; exact hcurr
    · exact hlt _ h

theorem buildLongestPath_none (trace : model.Trace) (st : BuildState)
    (h : buildTree trace = Except.ok st) (hroot : st.graph.root.isSome = true) (fuel : Nat) :
    buildLongestPath fuel st.heap st.graph = none := by
  obtain ⟨hclosed, -, hr⟩ := buildTree_inv trace st h
  unfold buildLongestPath
  cases hg : st.graph.root with
  | none => rw [hg] at hroot; exact Bool.noConfusion hroot
  | some root => exact descend_none st.heap hclosed fuel root [root] (hr root hg)

theorem NewGraph_none (trace : model.Trace) (st : BuildState)
    (h : buildTree trace = Except.ok st) (hroot : st.graph.root.isSome = true) (fuel : Nat) :
    NewGraph fuel trace = none := by
  unfold NewGraph
  simp only [h, buildLongestPath_none trace st h hroot fuel]

/-! ### The claims on `GetPercentileLatency` and on the critical path -/

theorem rangeLoop_percentileBody_length (latencies : List Int) :
    ∀ (percentiles : List ℚ) (init results : List Int),
      rangeLoop (percentileBody latencies) percentiles init = Except.ok results →
        results.length = init.length + percentiles.length ∧ results.take init.length = init
  | [], init, results, h => by
    simp only [rangeLoop, Except.ok.injEq] at h
    subst h
    simp
  | p :: ps, init, results, h => by
    simp only [rangeLoop] at h
    split at h
    · exact Except.noConfusion h
    · rename_i next hb
      have hnext : ∃ latency, next = init ++ [latency] := by
        unfold percentileBody at hb
        simp only at hb
        split at hb
        · split at hb
          · exact ⟨_, (Except.ok.inj hb).symm⟩
          · exact Except.noConfusion hb
        · exact Except.noConfusion hb
      obtain ⟨latency, rfl⟩ := hnext
      obtain ⟨h1, h2⟩ := rangeLoop_percentileBody_length latencies ps _ results h
      have hlen : (init ++ [latency]).length = init.length + 1 := by simp
      rw [hlen] at h1 h2
      refine ⟨by rw [h1, List.length_cons]; omega, ?_⟩
      have h3 := congrArg (List.take init.length) h2
      rw [List.take_take, Nat.min_eq_left (Nat.le_succ _)] at h3
      rw [h3]
      simp

/-- Whenever `GetPercentileLatency` returns, its result has twice as many entries as
there are percentiles, and the first half are the zero durations `make` put there. -/
theorem GetPercentileLatency_length (percentiles : List ℚ) (traces : List model.Trace)
    (filter : model.Span → Bool) (results : List Int)
    (h : GetPercentileLatency percentiles traces filter = Except.ok results) :
    results.length = 2 * percentiles.length ∧
      results.take percentiles.length = List.replicate percentiles.length 0 := by
  unfold GetPercentileLatency at h
  obtain ⟨h1, h2⟩ := rangeLoop_percentileBody_length _ percentiles _ results h
  simp only [List.length_replicate] at h1 h2
  exact ⟨by omega, h2⟩

/-- C4 (the code's behaviour): for percentiles `[0.5, 0.99]` on one hundred traces with
filtered sums 1..100, the sorted sample holds 51 at index 50 and 100 at index 99, but
`GetPercentileLatency` returns four durations, `[0, 0, 51, 100]`: entries 0 and 1, those
`getQoS` reads, are zero. -/
theorem C4_GetPercentileLatency_returns_leading_zeros :
    ((collectLatencies (serviceFilter "svc") hundredTraces).insertionSort
        (fun a b => a ≤ b))[50]? = some 51 ∧
      ((collectLatencies (serviceFilter "svc") hundredTraces).insertionSort
        (fun a b => a ≤ b))[99]? = some 100 ∧
      GetPercentileLatency [1 / 2, 99 / 100] hundredTraces (serviceFilter "svc") =
        Except.ok [0, 0, 51, 100] := by
  decide!

/-- C5 (the code's behaviour): with percentile `1.0` on a one-element sample, and with
any percentile on an empty sample, the computed index equals the sample size and the
unguarded access `latencies[index]` panics. -/
theorem C5_GetPercentileLatency_index_out_of_range :
    GetPercentileLatency [1] [⟨[exampleSpan 1 5 []]⟩] (serviceFilter "svc") =
        Except.error Fault.indexOutOfRange ∧
      GetPercentileLatency [1 / 2, 99 / 100] [] (serviceFilter "svc") =
        Except.error Fault.indexOutOfRange := by
  decide!

/-- C6 (the code's behaviour): on the trace of a root of duration 10 without references
and two childless children of durations 7 and 3, `NewGraph` panics at
`span.References[0]` of the root; when the root carries a reference, the tree is built
(children 7 and 3 under the root) but `buildLongestPath` never returns, whatever the
budget, so no path `[root, child(7)]` is produced. -/
theorem C6_NewGraph_yields_no_critical_path :
    (∀ fuel, NewGraph fuel rootTenTrace = some (Except.error Fault.indexOutOfRange)) ∧
      (∃ st, buildTree rootTenTraceWithRef = Except.ok st ∧ st.graph.root = some 0 ∧
        st.heap.map (fun node => (node.duration, node.children)) =
          [(10, some [1, 2]), (7, some []), (3, some [])]) ∧
      (∀ fuel, NewGraph fuel rootTenTraceWithRef = none) :=
  ⟨fun _ => rfl, ⟨_, rfl, rfl, rfl⟩, fun fuel => NewGraph_none rootTenTraceWithRef _ rfl rfl fuel⟩

/-- C7 (the code's behaviour): whenever the tree-building loops of `NewGraph` complete
and found a root, the descent loop of `buildLongestPath` does not terminate: every
node's `children` is an allocated slice, never nil, so for every budget the loop is
still running and `NewGraph` has not returned. -/
theorem C7_buildLongestPath_never_terminates (trace : model.Trace) (fuel : Nat)
    (hbuilt : ∃ st, buildTree trace = Except.ok st ∧ st.graph.root.isSome = true) :
    NewGraph fuel trace = none ∧
      ∀ st, buildTree trace = Except.ok st → buildLongestPath fuel st.heap st.graph = none := by
  obtain ⟨st, hst, hroot⟩ := hbuilt
  refine ⟨NewGraph_none trace st hst hroot fuel, ?_⟩
  intro st1 hst1
  have heq : st1 = st := Except.ok.inj (hst1.symm.trans hst)
  rw [heq]
  exact buildLongestPath_none trace st hst hroot fuel

/-- C7 at a concrete input: a trace of a lone root (no children), budget 1000. -/
theorem C7_buildLongestPath_never_terminates_witness :
    NewGraph 1000 loneRootTrace = none ∧
      ∀ st, buildTree loneRootTrace = Except.ok st →
        buildLongestPath 1000 st.heap st.graph = none :=
  C7_buildLongestPath_never_terminates loneRootTrace 1000 ⟨_, rfl, rfl⟩

/-! ### The tree built by `NewGraph` -/

theorem rangeLoop_indexed_aux {σ α : Type} (body : σ → α → Except Fault σ) (xs : List α)
    (P : Nat → σ → Prop)
    (hstep : ∀ k x st st1, xs[k]? = some x → P k st → body st x = Except.ok st1 → P (k + 1) st1) :
    ∀ (post pre : List α) (st : σ), xs = pre ++ post → P pre.length st →
      (∃ st1, rangeLoop body post st = Except.ok st1 ∧ P xs.length st1) ∨
        ∃ k x st2 e, xs[k]? = some x ∧ P k st2 ∧ body st2 x = Except.error e ∧
          rangeLoop body post st = Except.error e
  | [], pre, st, hx, hP => by
    left
    refine ⟨st, rfl, ?_⟩
    rw [hx, List.append_nil]
    exact hP
  | x :: rest, pre, st, hx, hP => by
    have hk : xs[pre.length]? = some x := by
      rw [hx, List.getElem?_append_right (Nat.le_refl _)]
      simp
    cases hb : body st x with
    | error e =>
      right
      exact ⟨pre.length, x, st, e, hk, hP, hb, by simp only [rangeLoop, hb]⟩
    | ok st2 =>
      have hP2 : P (pre ++ [x]).length st2 := by
        rw [List.length_append, List.length_singleton]
        exact hstep _ _ _ _ hk hP hb
      have := rangeLoop_indexed_aux body xs P hstep rest (pre ++ [x]) st2
        (by rw [hx, List.append_assoc, List.singleton_append]) hP2
      simp only [rangeLoop, hb]
      exact this

/-- A loop that keeps an invariant indexed by the position either ends in a state that
satisfies it at the end, or stops at a step that panics in a state that satisfies it. -/
theorem rangeLoop_indexed {σ α : Type} (body : σ → α → Except Fault σ) (xs : List α)
    (P : Nat → σ → Prop)
    (hstep : ∀ k x st st1, xs[k]? = some x → P k st → body st x = Except.ok st1 → P (k + 1) st1)
    (st : σ) (h0 : P 0 st) :
    (∃ st1, rangeLoop body xs st = Except.ok st1 ∧ P xs.length st1) ∨
      ∃ k x st2 e, xs[k]? = some x ∧ P k st2 ∧ body st2 x = Except.error e ∧
        rangeLoop body xs st = Except.error e :=
  rangeLoop_indexed_aux body xs P hstep xs [] st rfl h0

theorem spanID_inj (spans : List model.Span)
    (hnd : (spans.map (fun s => s.SpanID)).Nodup) (i j : Nat) (s t : model.Span)
    (hi : spans[i]? = some s) (hj : spans[j]? = some t) (heq : s.SpanID = t.SpanID) : i = j := by
  have hlen : i < (spans.map (fun s => s.SpanID)).length := by
    rw [List.length_map]
    exact (List.getElem?_eq_some.mp hi).1
  apply List.getElem?_inj hlen hnd
  rw [List.getElem?_map, List.getElem?_map, hi, hj]
  simp only [Option.map_some', heq]

theorem AllocInv_step (spans : List model.Span) (hnd : (spans.map (fun s => s.SpanID)).Nodup)
    (k : Nat) (x : model.Span) (st st1 : BuildState) (hk : spans[k]? = some x)
    (h : AllocInv spans k st) (hb : allocBody st x = Except.ok st1) : AllocInv spans (k + 1) st1 := by
  obtain ⟨hlen, ⟨hm1, hm2⟩, hnodes⟩ := h
  unfold allocBody at hb
  split at hb
  · exact Except.noConfusion hb
  · rename_i pod _
    have hst : st1.heap = st.heap ++ [(⟨x.SpanID, pod, 0, x.Duration, some [], none⟩ : Span)] ∧
        st1.spanMap = fun id => if id = x.SpanID then some st.heap.length else st.spanMap id := by
      split_ifs at hb <;> (cases hb; exact ⟨rfl, rfl⟩)
    obtain ⟨hheap, hmap⟩ := hst
    refine ⟨?_, ⟨?_, ?_⟩, ?_⟩
    · rw [hheap, List.length_append, List.length_singleton, hlen]
    · intro j s hj hs
      rw [hmap]
      simp only
      by_cases hid : s.SpanID = x.SpanID
      · rw [if_pos hid, hlen, spanID_inj spans hnd j k s x hs hk hid]
      · rw [if_neg hid]
        apply hm1 j s _ hs
        rcases Nat.lt_succ_iff_lt_or_eq.mp hj with hlt | heq
        · exact hlt
        · rw [heq, hk] at hs
          exact absurd (congrArg (fun t => t.SpanID) (Option.some.inj hs)).symm hid
    · intro id q hq
      rw [hmap] at hq
      simp only at hq
      split_ifs at hq with hid
      · simp only [Option.some.injEq] at hq
        rw [← hq, hlen]
        exact ⟨Nat.lt_succ_self k, x, hk, hid.symm⟩
      · obtain ⟨hlt, hs⟩ := hm2 id q hq
        exact ⟨Nat.lt_succ_of_lt hlt, hs⟩
    · intro i node hi
      rw [hheap, List.getElem?_append] at hi
      split_ifs at hi with hlt
      · exact hnodes i node hi
      · have hik : i = k ∧ node = ⟨x.SpanID, pod, 0, x.Duration, some [], none⟩ := by
          cases hd : i - st.heap.length with
          | zero =>
            rw [hd] at hi
            refine ⟨by omega, ?_⟩
            simpa using hi.symm
          | succ d => rw [hd] at hi; simp at hi
        rw [hik.1, hik.2, hk]
        exact ⟨rfl, rfl⟩

theorem allocBody_ok (st : BuildState) (x : model.Span) (htags : 2 ≤ x.Process.Tags.length) :
    ∃ st1, allocBody st x = Except.ok st1 := by
  unfold allocBody
  rw [List.getElem?_eq_getElem (show 1 < x.Process.Tags.length from htags)]
  simp only
  split_ifs
  · exact ⟨_, rfl⟩
  · exact ⟨_, rfl⟩

theorem attachedUnder_succ (spans : List model.Span) (k id : Nat) :
    attachedUnder spans (k + 1) id =
      attachedUnder spans k id ++
        if (spans[k]?).bind firstChildOf = some id then [k] else [] := by
  unfold attachedUnder
  rw [List.range_succ, List.filter_append]
  congr 1
  by_cases h : (spans[k]?).bind firstChildOf = some id
  · simp [h]
  · simp [h]

theorem modifyAt_preserving (heap : List Span) (p : Nat) (f : Span → Span) (i : Nat)
    (node : Span) (h : (modifyAt heap p f)[i]? = some node)
    (hf : ∀ n, (f n).spanID = n.spanID ∧ (f n).children = n.children) :
    ∃ old, heap[i]? = some old ∧ node.spanID = old.spanID ∧ node.children = old.children := by
  rw [modifyAt_getElem?] at h
  split_ifs at h with hip
  · cases hp : heap[p]? with
    | none => rw [hp] at h; exact Option.noConfusion h
    | some old =>
      rw [hp] at h
      simp only [Option.map_some', Option.some.injEq] at h
      refine ⟨old, by rw [hip, hp], ?_⟩
      rw [← h]
      exact hf old
  · exact ⟨node, h, rfl, rfl⟩

theorem firstChildOf_cons (x : model.Span) (ref : model.SpanRef) (rest : List model.SpanRef)
    (h : x.References = ref :: rest) :
    firstChildOf x =
      if ref.RefType = model.SpanRefType.ChildOf then some ref.SpanID else none := by
  unfold firstChildOf
  rw [h]

theorem LinkInv_step (spans : List model.Span) (k : Nat) (x : model.Span) (st st1 : BuildState)
    (hk : spans[k]? = some x) (h : LinkInv spans k st) (hb : linkBody st x = Except.ok st1) :
    LinkInv spans (k + 1) st1 := by
  obtain ⟨hlen, ⟨hm1, hm2⟩, hnodes, hpres⟩ := h
  have hkn : k < spans.length := (List.getElem?_eq_some.mp hk).1
  have hself : st.spanMap x.SpanID = some k := hm1 k x hkn hk
  unfold linkBody at hb
  simp only [hself] at hb
  cases hrefs : x.References with
  | nil =>
    rw [hrefs] at hb
    exact Except.noConfusion hb
  | cons ref rest =>
    rw [hrefs] at hb
    simp only at hb
    have hfirst := firstChildOf_cons x ref rest hrefs
    by_cases hchild : ref.RefType = model.SpanRefType.ChildOf
    · rw [if_pos hchild] at hb hfirst
      cases hpar : st.spanMap ref.SpanID with
      | none =>
        rw [hpar] at hb
        exact Except.noConfusion hb
      | some parent =>
        rw [hpar] at hb
        simp only [Except.ok.injEq] at hb
        subst hb
        obtain ⟨hparlt, sp, hsp, hspid⟩ := hm2 ref.SpanID parent hpar
        refine ⟨?_, ⟨hm1, hm2⟩, ?_, ?_⟩
        · simp only [modifyAt_length]
          exact hlen
        · intro i node hi
          rw [modifyAt_getElem?] at hi
          split_ifs at hi with hip
          · cases hmid : (modifyAt (modifyAt st.heap k
                (fun node => { node with startTime := x.StartTime - st.graph.startTime })) k
                (fun node => { node with parent := some parent }))[parent]? with
            | none => rw [hmid] at hi; exact Option.noConfusion hi
            | some mid =>
              rw [hmid] at hi
              simp only [Option.map_some', Option.some.injEq] at hi
              obtain ⟨mid1, hmid1, hid1, hch1⟩ :=
                modifyAt_preserving _ _ _ _ _ hmid (fun _ => ⟨rfl, rfl⟩)
              obtain ⟨old, hold, hid0, hch0⟩ :=
                modifyAt_preserving _ _ _ _ _ hmid1 (fun _ => ⟨rfl, rfl⟩)
              obtain ⟨hsid, hchildren⟩ := hnodes parent old hold
              have hidp : old.spanID = ref.SpanID := by
                rw [hsp] at hsid
                simp only [Option.map_some', Option.some.injEq] at hsid
                rw [← hsid, hspid]
              rw [← hi, hip]
              simp only
              rw [hid1, hid0, hch1, hch0, hchildren]
              refine ⟨hsid, ?_⟩
              rw [attachedUnder_succ, hk]
              simp only [Option.some_bind, hfirst, hidp, if_true, Option.getD_some]
          · obtain ⟨mid1, hmid1, hid1, hch1⟩ :=
              modifyAt_preserving _ _ _ _ _ hi (fun _ => ⟨rfl, rfl⟩)
            obtain ⟨old, hold, hid0, hch0⟩ :=
              modifyAt_preserving _ _ _ _ _ hmid1 (fun _ => ⟨rfl, rfl⟩)
            obtain ⟨hsid, hchildren⟩ := hnodes i old hold
            rw [hid1, hid0, hch1, hch0, hchildren]
            refine ⟨hsid, ?_⟩
            have hne : ¬ (some ref.SpanID = some old.spanID) := by
              intro heq
              have heq1 : ref.SpanID = old.spanID := Option.some.inj heq
              cases hsi : spans[i]? with
              | none => rw [hsi] at hsid; exact Option.noConfusion hsid
              | some si =>
                rw [hsi] at hsid
                simp only [Option.map_some', Option.some.injEq] at hsid
                have hmi := hm1 i si (List.getElem?_eq_some.mp hsi).1 hsi
                rw [hsid, ← heq1, hpar] at hmi
                exact hip (Option.some.inj hmi).symm
            rw [attachedUnder_succ, hk]
            simp only [Option.some_bind, hfirst, if_neg hne, List.append_nil]
        · intro j s pid hj hs hpid
          rcases Nat.lt_succ_iff_lt_or_eq.mp hj with hlt | heq
          · exact hpres j s pid hlt hs hpid
          · rw [heq, hk] at hs
            rw [← Option.some.inj hs, hfirst] at hpid
            rw [← Option.some.inj hpid]
            exact List.mem_map.mpr ⟨sp, List.mem_iff_getElem?.mpr ⟨parent, hsp⟩, hspid⟩
    · rw [if_neg hchild] at hb hfirst
      simp only [Except.ok.injEq] at hb
      subst hb
      refine ⟨?_, ⟨hm1, hm2⟩, ?_, ?_⟩
      · simp only [modifyAt_length]
        exact hlen
      · intro i node hi
        obtain ⟨old, hold, hid0, hch0⟩ :=
          modifyAt_preserving _ _ _ _ _ hi (fun _ => ⟨rfl, rfl⟩)
        obtain ⟨hsid, hchildren⟩ := hnodes i old hold
        rw [hid0, hch0, hchildren]
        refine ⟨hsid, ?_⟩
        rw [attachedUnder_succ, hk]
        simp only [Option.some_bind, hfirst, List.append_nil]
        simp
      · intro j s pid hj hs hpid
        rcases Nat.lt_succ_iff_lt_or_eq.mp hj with hlt | heq
        · exact hpres j s pid hlt hs hpid
        · rw [heq, hk] at hs
          rw [← Option.some.inj hs, hfirst] at hpid
          exact Option.noConfusion hpid

theorem linkBody_error (spans : List model.Span) (k : Nat) (x : model.Span) (st : BuildState)
    (e : Fault) (hk : spans[k]? = some x) (h : LinkInv spans k st) (href : x.References ≠ [])
    (hb : linkBody st x = Except.error e) :
    e = Fault.nilDereference ∧
      ∃ pid, firstChildOf x = some pid ∧ pid ∉ spans.map (fun s => s.SpanID) := by
  obtain ⟨hlen, ⟨hm1, hm2⟩, hnodes, hpres⟩ := h
  have hkn : k < spans.length := (List.getElem?_eq_some.mp hk).1
  have hself : st.spanMap x.SpanID = some k := hm1 k x hkn hk
  unfold linkBody at hb
  simp only [hself] at hb
  cases hrefs : x.References with
  | nil => exact absurd hrefs href
  | cons ref rest =>
    rw [hrefs] at hb
    simp only at hb
    have hfirst := firstChildOf_cons x ref rest hrefs
    by_cases hchild : ref.RefType = model.SpanRefType.ChildOf
    · rw [if_pos hchild] at hb hfirst
      cases hpar : st.spanMap ref.SpanID with
      | none =>
        rw [hpar] at hb
        simp only [Except.error.injEq] at hb
        refine ⟨hb.symm, ref.SpanID, hfirst, ?_⟩
        intro hmem
        obtain ⟨s, hs, hsid⟩ := List.mem_map.mp hmem
        obtain ⟨j, hj⟩ := List.mem_iff_getElem?.mp hs
        have := hm1 j s (List.getElem?_eq_some.mp hj).1 hj
        rw [hsid, hpar] at this
        exact Option.noConfusion this
      | some parent =>
        rw [hpar] at hb
        exact Except.noConfusion hb
    · rw [if_neg hchild] at hb
      exact Except.noConfusion hb

/-- The two loops of `NewGraph` on a trace whose spans have distinct ids, two process
tags and a first reference: they end in the linked state, or stop at a child-of
reference to an absent span. -/
theorem buildTree_cases (trace : model.Trace)
    (htags : ∀ s ∈ trace.Spans, 2 ≤ s.Process.Tags.length)
    (hrefs : ∀ s ∈ trace.Spans, s.References ≠ [])
    (hnd : (trace.Spans.map (fun s => s.SpanID)).Nodup) :
    (∃ st, buildTree trace = Except.ok st ∧ LinkInv trace.Spans trace.Spans.length st) ∨
      (buildTree trace = Except.error Fault.nilDereference ∧
        ∃ s ∈ trace.Spans, ∃ pid, firstChildOf s = some pid ∧
          pid ∉ trace.Spans.map (fun s => s.SpanID)) := by
  have hinit : AllocInv trace.Spans 0 ⟨[], fun _ => none, ⟨⟨0, 0⟩, none, 0, none⟩⟩ := by
    refine ⟨rfl, ⟨?_, ?_⟩, ?_⟩
    · intro j s hj
      exact absurd hj (Nat.not_lt_zero j)
    · intro id q hq
      exact Option.noConfusion hq
    · intro i node hi
      simp at hi
  unfold buildTree
  rcases rangeLoop_indexed allocBody trace.Spans (AllocInv trace.Spans)
      (AllocInv_step trace.Spans hnd) _ hinit with ⟨st0, h0, hA⟩ | ⟨k, x, st2, e, hk, -, hb, -⟩
  · rw [h0]
    simp only
    obtain ⟨hlen, hmap, hnodes⟩ := hA
    have hL : LinkInv trace.Spans 0 st0 := by
      refine ⟨hlen, hmap, ?_, ?_⟩
      · intro i node hi
        obtain ⟨hch, hid⟩ := hnodes i node hi
        exact ⟨hid, by rw [hch]; rfl⟩
      · intro j s pid hj
        exact absurd hj (Nat.not_lt_zero j)
    rcases rangeLoop_indexed linkBody trace.Spans (LinkInv trace.Spans)
        (LinkInv_step trace.Spans) st0 hL with ⟨st1, h1, hQ⟩ | ⟨k, x, st2, e, hk, hQ, hb, hloop⟩
    · exact Or.inl ⟨st1, h1, hQ⟩
    · have hx : x ∈ trace.Spans := List.mem_iff_getElem?.mpr ⟨k, hk⟩
      obtain ⟨he, pid, hpid, habs⟩ := linkBody_error trace.Spans k x st2 e hk hQ (hrefs x hx) hb
      rw [he] at hloop
      exact Or.inr ⟨hloop, x, hx, pid, hpid, habs⟩
  · have hx : x ∈ trace.Spans := List.mem_iff_getElem?.mpr ⟨k, hk⟩
    obtain ⟨st3, hst3⟩ := allocBody_ok st2 x (htags x hx)
    rw [hst3] at hb
    exact Except.noConfusion hb

theorem mem_attachedUnder (spans : List model.Span) (id j : Nat) :
    j ∈ attachedUnder spans spans.length id ↔
      ∃ t, spans[j]? = some t ∧ firstChildOf t = some id := by
  unfold attachedUnder
  rw [List.mem_filter, List.mem_range]
  constructor
  · rintro ⟨hj, hc⟩
    refine ⟨spans[j], List.getElem?_eq_getElem hj, ?_⟩
    rw [List.getElem?_eq_getElem hj] at hc
    simpa using hc
  · rintro ⟨t, ht, hc⟩
    refine ⟨(List.getElem?_eq_some.mp ht).1, ?_⟩
    rw [ht]
    simpa using hc

/-! ### The tree-building loops on traces with a first reference everywhere -/

/-- On a trace whose spans have distinct span ids, at least two process
tags and at least one reference each, the tree-building loops of `NewGraph` complete
exactly when every span whose first reference is child-of names a span of the trace,
and otherwise stop with a nil dereference; when they complete, node `i` of the heap is
the span at position `i`, and its children are, in trace order, exactly the spans
whose first reference is child-of and names it. A span whose first reference is not
child-of is therefore attached under no node, without any error. -/
theorem buildTree_attaches_first_childOf (trace : model.Trace)
    (htags : ∀ s ∈ trace.Spans, 2 ≤ s.Process.Tags.length)
    (hrefs : ∀ s ∈ trace.Spans, s.References ≠ [])
    (hnd : (trace.Spans.map (fun s => s.SpanID)).Nodup) :
    ((∃ st, buildTree trace = Except.ok st) ↔
        ∀ s ∈ trace.Spans, ∀ pid, firstChildOf s = some pid →
          pid ∈ trace.Spans.map (fun s => s.SpanID)) ∧
      (∀ e, buildTree trace = Except.error e → e = Fault.nilDereference) ∧
      ∀ st, buildTree trace = Except.ok st →
        st.heap.length = trace.Spans.length ∧
          ∀ (i : Nat) (s : model.Span), trace.Spans[i]? = some s →
            ∃ node cs, st.heap[i]? = some node ∧ node.spanID = s.SpanID ∧
              node.children = some cs ∧
              cs = attachedUnder trace.Spans trace.Spans.length s.SpanID ∧
              ∀ j, j ∈ cs ↔ ∃ t, trace.Spans[j]? = some t ∧ firstChildOf t = some s.SpanID := by
  rcases buildTree_cases trace htags hrefs hnd with ⟨st, hst, hQ⟩ | ⟨herr, x, hx, pid, hpid, habs⟩
  · obtain ⟨hlen, -, hnodes, hpres⟩ := hQ
    refine ⟨⟨fun _ s hs pid hpid => ?_, fun _ => ⟨st, hst⟩⟩, ?_, ?_⟩
    · obtain ⟨j, hj⟩ := List.mem_iff_getElem?.mp hs
      exact hpres j s pid (List.getElem?_eq_some.mp hj).1 hj hpid
    · intro e he
      rw [hst] at he
      exact Except.noConfusion he
    · intro st1 hst1
      have heq : st1 = st := Except.ok.inj (hst1.symm.trans hst)
      rw [heq]
      refine ⟨hlen, ?_⟩
      intro i s hs
      have hi : i < st.heap.length := by
        rw [hlen]
        exact (List.getElem?_eq_some.mp hs).1
      obtain ⟨hid, hch⟩ := hnodes i st.heap[i] (List.getElem?_eq_getElem hi)
      rw [hs] at hid
      simp only [Option.map_some', Option.some.injEq] at hid
      refine ⟨st.heap[i], attachedUnder trace.Spans trace.Spans.length s.SpanID,
        List.getElem?_eq_getElem hi, hid.symm, ?_, rfl, ?_⟩
      · rw [hch, hid]
      · intro j
        exact mem_attachedUnder trace.Spans s.SpanID j
  · refine ⟨⟨?_, fun hall => absurd (hall x hx pid hpid) habs⟩, ?_, ?_⟩
    · rintro ⟨st, hst⟩
      rw [herr] at hst
      exact Except.noConfusion hst
    · intro e he
      rw [herr] at he
      exact (Except.error.inj he).symm
    · intro st hst
      rw [herr] at hst
      exact Except.noConfusion hst

/-! ### The claim on `NewGraph` -/

theorem allocBody_spanMap (st st1 : BuildState) (x : model.Span)
    (h : allocBody st x = Except.ok st1) :
    ∀ id, st1.spanMap id = if id = x.SpanID then some st.heap.length else st.spanMap id := by
  unfold allocBody at h
  split at h
  · exact Except.noConfusion h
  · split_ifs at h
    · simp only [Except.ok.injEq] at h
      subst h
      intro id
      rfl
    · simp only [Except.ok.injEq] at h
      subst h
      intro id
      rfl

theorem allocBody_error (st : BuildState) (x : model.Span) (e : Fault)
    (h : allocBody st x = Except.error e) : e = Fault.indexOutOfRange := by
  unfold allocBody at h
  split at h
  · exact (Except.error.inj h).symm
  · split_ifs at h

/-- The first loop of `NewGraph` panics at `span.Process.Tags[1]`, or completes with a
node in `spanMap` for every span of the trace. -/
theorem allocLoop_cases :
    ∀ (xs : List model.Span) (st : BuildState),
      (∃ st1, rangeLoop allocBody xs st = Except.ok st1 ∧
        (∀ id, (st.spanMap id).isSome = true → (st1.spanMap id).isSome = true) ∧
        ∀ x ∈ xs, (st1.spanMap x.SpanID).isSome = true) ∨
        rangeLoop allocBody xs st = Except.error Fault.indexOutOfRange
  | [], st => Or.inl ⟨st, rfl, fun _ h => h, fun x hx => absurd hx (List.not_mem_nil x)⟩
  | x :: xs, st => by
    cases h2 : allocBody st x with
    | error e =>
      right
      rw [allocBody_error st x e h2] at h2
      simp only [rangeLoop, h2]
    | ok st2 =>
      have hmap := allocBody_spanMap st st2 x h2
      rcases allocLoop_cases xs st2 with ⟨st1, h1, hkeep, hall⟩ | herr
      · left
        refine ⟨st1, by simp only [rangeLoop, h2, h1], ?_, ?_⟩
        · intro id hid
          apply hkeep
          rw [hmap]
          split_ifs
          · rfl
          · exact hid
        · intro y hy
          rcases List.mem_cons.mp hy with hyx | hy1
          · apply hkeep
            rw [hmap, hyx, if_pos rfl]
            rfl
          · exact hall y hy1
      · right
        simp only [rangeLoop, h2, herr]

/-- The second loop of `NewGraph` panics at `span.References[0]` of a span without
references. -/
theorem linkBody_no_references (st : BuildState) (x : model.Span)
    (hself : (st.spanMap x.SpanID).isSome = true) (href : x.References = []) :
    linkBody st x = Except.error Fault.indexOutOfRange := by
  obtain ⟨self, hs⟩ := Option.isSome_iff_exists.mp hself
  unfold linkBody
  simp only [hs, href]

theorem linkBody_ok (st : BuildState) (x : model.Span)
    (hself : (st.spanMap x.SpanID).isSome = true) (href : x.References ≠ [])
    (hpar : ∀ pid, firstChildOf x = some pid → (st.spanMap pid).isSome = true) :
    ∃ st1, linkBody st x = Except.ok st1 ∧ st1.spanMap = st.spanMap := by
  obtain ⟨self, hs⟩ := Option.isSome_iff_exists.mp hself
  cases hrefs : x.References with
  | nil => exact absurd hrefs href
  | cons ref rest =>
    have hfirst := firstChildOf_cons x ref rest hrefs
    unfold linkBody
    simp only [hs, hrefs]
    by_cases hchild : ref.RefType = model.SpanRefType.ChildOf
    · rw [if_pos hchild] at hfirst
      obtain ⟨parent, hp⟩ := Option.isSome_iff_exists.mp (hpar _ hfirst)
      simp only [if_pos hchild, hp]
      exact ⟨_, rfl, rfl⟩
    · simp only [if_neg hchild]
      exact ⟨_, rfl, rfl⟩

theorem linkLoop_index_out_of_range :
    ∀ (xs : List model.Span) (st : BuildState),
      (∀ x ∈ xs, (st.spanMap x.SpanID).isSome = true) →
      (∀ x ∈ xs, ∀ pid, firstChildOf x = some pid → (st.spanMap pid).isSome = true) →
      (∃ x ∈ xs, x.References = []) →
      rangeLoop linkBody xs st = Except.error Fault.indexOutOfRange
  | [], _, _, _, ⟨x, hx, _⟩ => absurd hx (List.not_mem_nil x)
  | x :: xs, st, hself, hpar, hroot => by
    by_cases href : x.References = []
    · simp only [rangeLoop, linkBody_no_references st x (hself x (List.mem_cons_self x xs)) href]
    · obtain ⟨st1, h1, hmap⟩ := linkBody_ok st x (hself x (List.mem_cons_self x xs)) href
        (hpar x (List.mem_cons_self x xs))
      simp only [rangeLoop, h1]
      apply linkLoop_index_out_of_range xs st1
      · intro y hy
        rw [hmap]
        exact hself y (List.mem_cons_of_mem x hy)
      · intro y hy pid hpid
        rw [hmap]
        exact hpar y (List.mem_cons_of_mem x hy) pid hpid
      · obtain ⟨r, hr, hrr⟩ := hroot
        rcases List.mem_cons.mp hr with hrx | hr1
        · rw [hrx] at hrr
          exact absurd hrr href
        · exact ⟨r, hr1, hrr⟩

/-- On a trace holding a span without references in which every first child-of
reference names a span of the trace, the loops of `NewGraph` panic with an index out
of range: at `span.References[0]`, if not before at `span.Process.Tags[1]`. -/
theorem buildTree_index_out_of_range (trace : model.Trace)
    (hroot : ∃ s ∈ trace.Spans, s.References = [])
    (hpar : ∀ s ∈ trace.Spans, ∀ pid, firstChildOf s = some pid →
      pid ∈ trace.Spans.map (fun s => s.SpanID)) :
    buildTree trace = Except.error Fault.indexOutOfRange := by
  unfold buildTree
  rcases allocLoop_cases trace.Spans ⟨[], fun _ => none, ⟨⟨0, 0⟩, none, 0, none⟩⟩ with
    ⟨st, hst, -, hall⟩ | herr
  · simp only [hst]
    apply linkLoop_index_out_of_range trace.Spans st hall _ hroot
    intro x hx pid hpid
    obtain ⟨s, hs, hsid⟩ := List.mem_map.mp (hpar x hx pid hpid)
    rw [← hsid]
    exact hall s hs
  · simp only [herr]

/-- With two process tags on every span the first loop completes, so the panic is the
one at `span.References[0]`. -/
theorem allocLoop_ok (xs : List model.Span) (st : BuildState)
    (htags : ∀ x ∈ xs, 2 ≤ x.Process.Tags.length) :
    ∃ st1, rangeLoop allocBody xs st = Except.ok st1 := by
  induction xs generalizing st with
  | nil => exact ⟨st, rfl⟩
  | cons x xs ih =>
    obtain ⟨st2, h2⟩ := allocBody_ok st x (htags x (List.mem_cons_self x xs))
    obtain ⟨st1, h1⟩ := ih st2 (fun y hy => htags y (List.mem_cons_of_mem x hy))
    exact ⟨st1, by simp only [rangeLoop, h2, h1]⟩

/-- `NewGraph` returns a graph for no trace: it panics, or `buildLongestPath` is still
running after every budget. -/
theorem NewGraph_never_returns (trace : model.Trace) (fuel : Nat) (result : List Span × Graph) :
    NewGraph fuel trace ≠ some (Except.ok result) := by
  intro h
  cases hb : buildTree trace with
  | error e =>
    unfold NewGraph at h
    simp only [hb] at h
    exact Except.noConfusion (Option.some.inj h)
  | ok st =>
    cases hr : st.graph.root with
    | none =>
      unfold NewGraph buildLongestPath at h
      simp only [hb, hr] at h
      exact Except.noConfusion (Option.some.inj h)
    | some root =>
      rw [NewGraph_none trace st hb (by rw [hr]; rfl) fuel] at h
      exact Option.noConfusion h

/-- C8 (the code's behaviour): `NewGraph` does not succeed on well-formed traces. On
every trace that holds a span without references (as the root of a well-formed trace
is) and whose first child-of references all name spans of the trace, the loops of
`NewGraph` panic with an index out of range, so `NewGraph` panics for every budget;
when every span carries two process tags the first loop completes and the panic is that
of `span.References[0]` in the second. `NewGraph` returns a graph for no trace at all.
There is no orphan failure either: on `followerTrace` the loops complete and the span
whose first reference is follows-from is attached under no node, and on `orphanTrace`,
whose second span is child-of an absent span, they stop with a nil dereference. -/
theorem C8_NewGraph_panics_on_well_formed_traces :
    (∀ trace : model.Trace, (∃ s ∈ trace.Spans, s.References = []) →
        (∀ s ∈ trace.Spans, ∀ pid, firstChildOf s = some pid →
          pid ∈ trace.Spans.map (fun s => s.SpanID)) →
        buildTree trace = Except.error Fault.indexOutOfRange ∧
          (∀ fuel, NewGraph fuel trace = some (Except.error Fault.indexOutOfRange)) ∧
          ((∀ s ∈ trace.Spans, 2 ≤ s.Process.Tags.length) →
            ∃ st, rangeLoop allocBody trace.Spans
                ⟨[], fun _ => none, ⟨⟨0, 0⟩, none, 0, none⟩⟩ = Except.ok st ∧
              rangeLoop linkBody trace.Spans st = Except.error Fault.indexOutOfRange)) ∧
      (∀ (trace : model.Trace) (fuel : Nat) (result : List Span × Graph),
        NewGraph fuel trace ≠ some (Except.ok result)) ∧
      ((followerTrace.Spans[1]?).map
          (fun s => (s.idStringsEqual, s.References.head?.map (fun r => r.RefType))) =
          some (false, some model.SpanRefType.FollowsFrom) ∧
        ∃ st, buildTree followerTrace = Except.ok st ∧
          st.heap.map (fun node => (node.spanID, node.children, node.parent)) =
            [(1, some [], none), (2, some [], none)]) ∧
      buildTree orphanTrace = Except.error Fault.nilDereference := by
  refine ⟨?_, NewGraph_never_returns, ⟨rfl, _, rfl, rfl⟩, rfl⟩
  intro trace hroot hpar
  have h := buildTree_index_out_of_range trace hroot hpar
  refine ⟨h, fun fuel => ?_, fun htags => ?_⟩
  · unfold NewGraph
    simp only [h]
  · obtain ⟨st, hst⟩ := allocLoop_ok trace.Spans _ htags
    refine ⟨st, hst, ?_⟩
    unfold buildTree at h
    simp only [hst] at h
    exact h

/-- C8 at a concrete input: the well-formed trace of a root without references, its
child and its grandchild. -/
theorem C8_NewGraph_panics_on_well_formed_traces_witness :
    buildTree chainTrace = Except.error Fault.indexOutOfRange ∧
      (∀ fuel, NewGraph fuel chainTrace = some (Except.error Fault.indexOutOfRange)) ∧
      ∃ st, rangeLoop allocBody chainTrace.Spans
          ⟨[], fun _ => none, ⟨⟨0, 0⟩, none, 0, none⟩⟩ = Except.ok st ∧
        rangeLoop linkBody chainTrace.Spans st = Except.error Fault.indexOutOfRange :=
  have h := C8_NewGraph_panics_on_well_formed_traces.1 chainTrace (by decide)
    (by
      intro s hs pid hpid
      simp only [chainTrace, List.mem_cons, List.mem_singleton, List.not_mem_nil,
        or_false] at hs
      rcases hs with h | h | h <;> (subst h; cases hpid) <;> decide)
  ⟨h.1, h.2.1, h.2.2 (by decide)⟩

/-! ### Byte order and numeric order -/

theorem beUint64_lt (bs : List Nat) (h : ∀ b ∈ bs, b < 256) : beUint64 bs < 256 ^ bs.length := by
  induction bs with
  | nil => simp [beUint64]
  | cons b bs ih =>
    have hb : b < 256 := h b (List.mem_cons_self b bs)
    have hrest := ih (fun c hc => h c (List.mem_cons_of_mem b hc))
    have hmul : b * 256 ^ bs.length + 256 ^ bs.length ≤ 256 * 256 ^ bs.length := by
      have := Nat.mul_le_mul_right (256 ^ bs.length) (Nat.succ_le_of_lt hb)
      rw [Nat.succ_mul] at this
      exact this
    simp only [beUint64, List.length_cons, pow_succ]
    rw [Nat.mul_comm (256 ^ bs.length) 256]
    omega

/-- On byte strings of one length, `bytes.Compare` is the order of the numbers they
denote in big-endian. -/
theorem bytesCompare_eq (as : List Nat) :
    ∀ (bs : List Nat), as.length = bs.length → (∀ b ∈ as, b < 256) → (∀ b ∈ bs, b < 256) →
      bytesCompare as bs =
        if beUint64 as < beUint64 bs then Ordering.lt
        else if beUint64 bs < beUint64 as then Ordering.gt else Ordering.eq := by
  induction as with
  | nil =>
    intro bs hlen _ _
    cases bs with
    | nil => simp [bytesCompare, beUint64]
    | cons b bs => simp at hlen
  | cons a as ih =>
    intro bs hlen ha hb
    cases bs with
    | nil => simp at hlen
    | cons b bs =>
      have hlen1 : as.length = bs.length := by simpa using hlen
      have hA := beUint64_lt as (fun c hc => ha c (List.mem_cons_of_mem a hc))
      have hB := beUint64_lt bs (fun c hc => hb c (List.mem_cons_of_mem b hc))
      rw [← hlen1] at hB
      have ih1 := ih bs hlen1 (fun c hc => ha c (List.mem_cons_of_mem a hc))
        (fun c hc => hb c (List.mem_cons_of_mem b hc))
      simp only [bytesCompare, beUint64, ← hlen1]
      by_cases hab : a < b
      · have hmul := Nat.mul_le_mul_right (256 ^ as.length) (Nat.succ_le_of_lt hab)
        rw [Nat.succ_mul] at hmul
        rw [if_pos hab, if_pos (by omega)]
      · by_cases hba : b < a
        · have hmul := Nat.mul_le_mul_right (256 ^ as.length) (Nat.succ_le_of_lt hba)
          rw [Nat.succ_mul] at hmul
          rw [if_neg hab, if_pos hba, if_neg (by omega), if_pos (by omega)]
        · have heq : a = b := by omega
          subst heq
          rw [if_neg hab, if_neg hba, ih1]
          simp only [Nat.add_lt_add_iff_left]

theorem bytesCompare_ne_lt (as bs : List Nat) (hlen : as.length = bs.length)
    (ha : ∀ b ∈ as, b < 256) (hb : ∀ b ∈ bs, b < 256) :
    bytesCompare as bs ≠ Ordering.lt ↔ beUint64 bs ≤ beUint64 as := by
  rw [bytesCompare_eq as bs hlen ha hb]
  split_ifs with h1 h2
  · simp only [ne_eq, not_true_eq_false, false_iff]; omega
  · simp only [ne_eq, reduceCtorEq, not_false_eq_true, true_iff]; omega
  · simp only [ne_eq, reduceCtorEq, not_false_eq_true, true_iff]; omega

theorem bytesCompare_ne_gt (as bs : List Nat) (hlen : as.length = bs.length)
    (ha : ∀ b ∈ as, b < 256) (hb : ∀ b ∈ bs, b < 256) :
    bytesCompare as bs ≠ Ordering.gt ↔ beUint64 as ≤ beUint64 bs := by
  rw [bytesCompare_eq as bs hlen ha hb]
  split_ifs with h1 h2
  · simp only [ne_eq, reduceCtorEq, not_false_eq_true, true_iff]; omega
  · simp only [ne_eq, not_true_eq_false, false_iff]; omega
  · simp only [ne_eq, reduceCtorEq, not_false_eq_true, true_iff]; omega

theorem putUint64_length (v : Nat) : (putUint64 v).length = 8 := rfl

theorem putUint64_bytes (v : Nat) : ∀ b ∈ putUint64 v, b < 256 := by
  intro b hb
  simp only [putUint64, List.mem_cons, List.mem_singleton, List.not_mem_nil, or_false] at hb
  rcases hb with h | h | h | h | h | h | h | h <;> (rw [h]; exact Nat.mod_lt _ (by norm_num))

theorem beUint64_putUint64 (v : Nat) (hv : v < 2 ^ 64) : beUint64 (putUint64 v) = v := by
  simp only [putUint64, beUint64, List.length_cons, List.length_nil]
  norm_num
  omega

theorem timeAsEpochMicroseconds_eq (t : Int) (h0 : 0 ≤ t) (h1 : t < 2 ^ 63) :
    (timeAsEpochMicroseconds t : Int) = t / 1000 ∧ timeAsEpochMicroseconds t < 2 ^ 64 := by
  unfold timeAsEpochMicroseconds
  rw [Int.tdiv_eq_ediv h0 (by norm_num)]
  have h2 : (0 : Int) ≤ t / 1000 % 2 ^ 64 := Int.emod_nonneg _ (by norm_num)
  constructor
  · rw [Int.toNat_of_nonneg h2]
    norm_num at h1 ⊢
    omega
  · have h3 : ((t / 1000 % 2 ^ 64).toNat : Int) < 2 ^ 64 := by
      rw [Int.toNat_of_nonneg h2]
      exact Int.emod_lt_of_pos _ (by norm_num)
    exact_mod_cast h3

/-! ### The scan of `queryWithoutServiceName` -/

theorem slice_timestamp (key : List Nat) (hlen : key.length = 33) :
    slice key (sizeOfTraceID + 1) (sizeOfTraceID + 1 + 8) = Except.ok (keyTimestamp key) := by
  unfold slice keyTimestamp sizeOfTraceID
  rw [hlen]
  rfl

theorem slice_traceID (key : List Nat) (hlen : key.length = 33) :
    slice key 1 (sizeOfTraceID + 1) = Except.ok (sub key 1 (sizeOfTraceID + 1)) := by
  unfold slice sizeOfTraceID
  rw [hlen]
  rfl

theorem scanBody_wf (minTimeStamp maxTimeStamp : List Nat) (st : ScanState) (item : Item)
    (hwf : WellFormedPrimaryKey item.key) :
    scanBody minTimeStamp maxTimeStamp st item =
      Except.ok (scanNext minTimeStamp maxTimeStamp st item.key) := by
  unfold scanBody scanNext
  rw [slice_timestamp item.key hwf.1, slice_traceID item.key hwf.1]
  simp only
  unfold timestampInRange
  split_ifs <;> rfl

theorem sub_traceID_ne_nil (key : List Nat) (hlen : key.length = 33) :
    sub key 1 (sizeOfTraceID + 1) ≠ [] := by
  intro h
  have := congrArg List.length h
  simp [sub, sizeOfTraceID, hlen] at this

theorem keyTimestamp_length (key : List Nat) (hlen : key.length = 33) :
    (keyTimestamp key).length = 8 := by
  simp [keyTimestamp, sub, sizeOfTraceID, hlen]

theorem keyTimestamp_bytes (key : List Nat) (h : ∀ b ∈ key, b < 256) :
    ∀ b ∈ keyTimestamp key, b < 256 := by
  intro b hb
  exact h b (List.mem_of_mem_take (List.mem_of_mem_drop hb))

/-- The scan over well-formed keys: it never panics, keeps what was recorded, records
only keys in range, and records a key of every trace that has a key in range. -/
theorem scan_loop (minTimeStamp maxTimeStamp : List Nat) :
    ∀ (items : List Item) (st : ScanState),
      (∀ item ∈ items, WellFormedPrimaryKey item.key) → ScanInv st →
        ∃ st1, rangeLoop (scanBody minTimeStamp maxTimeStamp) items st = Except.ok st1 ∧
          ScanInv st1 ∧ (∀ k ∈ st.traceKeys, k ∈ st1.traceKeys) ∧
          (∀ k ∈ st1.traceKeys, k ∈ st.traceKeys ∨
            ∃ item ∈ items, item.key = k ∧ timestampInRange minTimeStamp maxTimeStamp k) ∧
          ∀ item ∈ items, timestampInRange minTimeStamp maxTimeStamp item.key →
            ∃ k ∈ st1.traceKeys,
              sub k 1 (sizeOfTraceID + 1) = sub item.key 1 (sizeOfTraceID + 1)
  | [], st, _, hinv =>
    ⟨st, rfl, hinv, fun _ hk => hk, fun _ hk => Or.inl hk,
      fun item hitem => absurd hitem (List.not_mem_nil item)⟩
  | x :: rest, st, hwf, hinv => by
    have hx := hwf x (List.mem_cons_self x rest)
    have hnext : ScanInv (scanNext minTimeStamp maxTimeStamp st x.key) ∧
        (∀ k ∈ st.traceKeys, k ∈ (scanNext minTimeStamp maxTimeStamp st x.key).traceKeys) ∧
        (∀ k ∈ (scanNext minTimeStamp maxTimeStamp st x.key).traceKeys,
          k ∈ st.traceKeys ∨ (x.key = k ∧ timestampInRange minTimeStamp maxTimeStamp k)) ∧
        (timestampInRange minTimeStamp maxTimeStamp x.key →
          ∃ k ∈ (scanNext minTimeStamp maxTimeStamp st x.key).traceKeys,
            sub k 1 (sizeOfTraceID + 1) = sub x.key 1 (sizeOfTraceID + 1)) := by
      unfold scanNext
      by_cases hr : timestampInRange minTimeStamp maxTimeStamp x.key
      · rw [if_pos hr]
        by_cases hp : sub x.key 1 (sizeOfTraceID + 1) ≠ st.prevTraceID
        · rw [if_pos hp]
          refine ⟨Or.inr ⟨x.key, List.mem_append_right _ (List.mem_singleton_self _), rfl⟩,
            fun k hk => List.mem_append_left _ hk, ?_,
            fun _ => ⟨x.key, List.mem_append_right _ (List.mem_singleton_self _), rfl⟩⟩
          intro k hk
          rcases List.mem_append.mp hk with h | h
          · exact Or.inl h
          · rw [List.mem_singleton.mp h]
            exact Or.inr ⟨rfl, hr⟩
        · rw [if_neg hp]
          refine ⟨hinv, fun k hk => hk, fun k hk => Or.inl hk, fun _ => ?_⟩
          have hp1 : sub x.key 1 (sizeOfTraceID + 1) = st.prevTraceID := not_not.mp hp
          rcases hinv with h | ⟨k, hk, hkeq⟩
          · exact absurd (hp1.trans h) (sub_traceID_ne_nil x.key hx.1)
          · exact ⟨k, hk, hkeq.trans hp1.symm⟩
      · rw [if_neg hr]
        exact ⟨hinv, fun k hk => hk, fun k hk => Or.inl hk, fun h => absurd h hr⟩
    obtain ⟨hinv1, hkeep, honly, hrec⟩ := hnext
    obtain ⟨st1, hloop, hinv2, hkeep2, honly2, hrec2⟩ :=
      scan_loop minTimeStamp maxTimeStamp rest _
        (fun item hitem => hwf item (List.mem_cons_of_mem x hitem)) hinv1
    refine ⟨st1, ?_, hinv2, fun k hk => hkeep2 k (hkeep k hk), ?_, ?_⟩
    · simp only [rangeLoop, scanBody_wf minTimeStamp maxTimeStamp st x hx]
      exact hloop
    · intro k hk
      rcases honly2 k hk with h | ⟨item, hitem, hkey, hr⟩
      · rcases honly k h with h1 | ⟨hkey, hr⟩
        · exact Or.inl h1
        · exact Or.inr ⟨x, List.mem_cons_self x rest, hkey, hr⟩
      · exact Or.inr ⟨item, List.mem_cons_of_mem x hitem, hkey, hr⟩
    · intro item hitem hr
      rcases List.mem_cons.mp hitem with h | h
      · rw [h] at hr ⊢
        obtain ⟨k, hk, hkeq⟩ := hrec hr
        exact ⟨k, hkeep2 k hk, hkeq⟩
      · exact hrec2 item h hr

theorem scanPrefix_wf (store : Store) (hwf : ∀ item ∈ store, WellFormedPrimaryKey item.key) :
    scanPrefix store [spanKeyPrefix] = store := by
  have hkey : ∀ item ∈ store, ∃ rest, item.key = spanKeyPrefix :: rest ∧ rest ≠ [] := by
    intro item hitem
    obtain ⟨hlen, hhead, -⟩ := hwf item hitem
    cases hk : item.key with
    | nil => rw [hk] at hlen; simp at hlen
    | cons b rest =>
      rw [hk] at hhead hlen
      simp only [List.head?_cons, Option.some.injEq] at hhead
      refine ⟨rest, by rw [hhead], ?_⟩
      intro hnil
      rw [hnil] at hlen
      simp at hlen
  unfold scanPrefix seekForward
  have hdrop : store.dropWhile (fun item => bytesCompare item.key [spanKeyPrefix] == Ordering.lt)
      = store := by
    cases store with
    | nil => rfl
    | cons x xs =>
      obtain ⟨rest, hk, hne⟩ := hkey x (List.mem_cons_self x xs)
      rw [List.dropWhile_cons]
      have : (bytesCompare x.key [spanKeyPrefix] == Ordering.lt) = false := by
        rw [hk]
        cases rest with
        | nil => exact absurd rfl hne
        | cons r rs =>
          simp only [bytesCompare, lt_self_iff_false, if_false]
          rfl
      rw [this]
      rfl
  rw [hdrop, List.takeWhile_eq_self_iff]
  intro item hitem
  obtain ⟨rest, hk, -⟩ := hkey item hitem
  rw [hk]
  simp

/-! ### The claims on `QueryTimeRange` -/

theorem timestampInRange_iff (query : Query) (hs0 : 0 ≤ query.startTime)
    (hs1 : query.startTime < 2 ^ 63) (he0 : 0 ≤ query.endTime) (he1 : query.endTime < 2 ^ 63)
    (key : List Nat) (hwf : WellFormedPrimaryKey key) :
    timestampInRange (putUint64 (timeAsEpochMicroseconds query.startTime))
        (putUint64 (timeAsEpochMicroseconds query.endTime)) key ↔
      query.startTime / 1000 ≤ (keyMicros key : Int) ∧
        (keyMicros key : Int) ≤ query.endTime / 1000 := by
  obtain ⟨hsv, hsb⟩ := timeAsEpochMicroseconds_eq query.startTime hs0 hs1
  obtain ⟨hev, heb⟩ := timeAsEpochMicroseconds_eq query.endTime he0 he1
  have hlen := keyTimestamp_length key hwf.1
  have hbytes := keyTimestamp_bytes key hwf.2.2
  unfold timestampInRange keyMicros
  rw [bytesCompare_ne_lt _ _ (by rw [hlen, putUint64_length]) hbytes (putUint64_bytes _),
    bytesCompare_ne_gt _ _ (by rw [hlen, putUint64_length]) hbytes (putUint64_bytes _),
    beUint64_putUint64 _ hsb, beUint64_putUint64 _ heb, ← hsv, ← hev]
  constructor
  · rintro ⟨h1, h2⟩
    exact ⟨by exact_mod_cast h1, by exact_mod_cast h2⟩
  · rintro ⟨h1, h2⟩
    exact ⟨by exact_mod_cast h1, by exact_mod_cast h2⟩

/-- With a positive limit `queryWithoutServiceName` returns at most that many ids. -/
theorem queryWithoutServiceName_length_le (store : Store) (query : Query)
    (ids : List model.TraceID) (hlimit : 0 < query.numTraces)
    (h : queryWithoutServiceName store query = Except.ok ids) :
    (ids.length : Int) ≤ query.numTraces := by
  unfold queryWithoutServiceName at h
  split at h
  · exact Except.noConfusion h
  · rename_i traceKeys _
    simp only [Except.ok.injEq] at h
    rw [← h, List.length_map, List.length_take]
    split_ifs with hc
    · have := Int.toNat_of_nonneg (le_of_lt hlimit)
      omega
    · have hge : ((traceKeys.insertionSort timestampDescending).length : Int) ≤ query.numTraces := by
        by_contra hlt
        exact hc ⟨hlimit, not_le.mp hlt⟩
      omega

/-- C9: on a store of well-formed primary keys, for a query without service name whose
times are not before the epoch, `QueryTimeRange` returns; every id it returns is the
trace id of a stored key whose embedded start time lies in `[start, end]` microseconds,
both ends included; and when the limit does not truncate, the trace id of every stored
key in that window is returned. -/
theorem C9_QueryTimeRange_returns_traces_in_window (store : Store) (query : Query)
    (hwf : ∀ item ∈ store, WellFormedPrimaryKey item.key)
    (hsvc : query.serviceName = [])
    (hs0 : 0 ≤ query.startTime) (hs1 : query.startTime < 2 ^ 63)
    (he0 : 0 ≤ query.endTime) (he1 : query.endTime < 2 ^ 63) :
    ∃ ids traceKeys, QueryTimeRange store query = Except.ok ids ∧
      scanPrimary store query = Except.ok traceKeys ∧
      (∀ id ∈ ids, ∃ item ∈ store, keyTraceID item.key = id ∧
        query.startTime / 1000 ≤ (keyMicros item.key : Int) ∧
        (keyMicros item.key : Int) ≤ query.endTime / 1000) ∧
      ((query.numTraces ≤ 0 ∨ (traceKeys.length : Int) ≤ query.numTraces) →
        ∀ item ∈ store, query.startTime / 1000 ≤ (keyMicros item.key : Int) →
          (keyMicros item.key : Int) ≤ query.endTime / 1000 → keyTraceID item.key ∈ ids) := by
  obtain ⟨st1, hloop, -, -, honly, hrec⟩ :=
    scan_loop (putUint64 (timeAsEpochMicroseconds query.startTime))
      (putUint64 (timeAsEpochMicroseconds query.endTime)) store ⟨[], []⟩ hwf (Or.inl rfl)
  have hscan : scanPrimary store query = Except.ok st1.traceKeys := by
    unfold scanPrimary
    rw [scanPrefix_wf store hwf]
    simp only [hloop]
  have hiff := timestampInRange_iff query hs0 hs1 he0 he1
  have hquery : QueryTimeRange store query = queryWithoutServiceName store query := by
    unfold QueryTimeRange
    rw [if_pos hsvc]
  rw [hquery]
  unfold queryWithoutServiceName
  rw [hscan]
  refine ⟨_, st1.traceKeys, rfl, rfl, ?_, ?_⟩
  · intro id hid
    obtain ⟨k, hk, hkid⟩ := List.mem_map.mp hid
    have hk1 : k ∈ st1.traceKeys :=
      (List.perm_insertionSort timestampDescending st1.traceKeys).mem_iff.mp
        (List.mem_of_mem_take hk)
    rcases honly k hk1 with h | ⟨item, hitem, hkey, hr⟩
    · exact absurd h (List.not_mem_nil k)
    · refine ⟨item, hitem, ?_, ?_⟩
      · rw [hkey]
        exact hkid
      · rw [hkey]
        exact (hiff k (hkey ▸ hwf item hitem)).mp hr
  · intro hlimit item hitem h1 h2
    obtain ⟨k, hk, hkid⟩ := hrec item hitem ((hiff item.key (hwf item hitem)).mpr ⟨h1, h2⟩)
    have hsize : (if 0 < query.numTraces ∧
        query.numTraces < ((st1.traceKeys.insertionSort timestampDescending).length : Int)
        then query.numTraces.toNat
        else (st1.traceKeys.insertionSort timestampDescending).length) =
        (st1.traceKeys.insertionSort timestampDescending).length := by
      rw [if_neg]
      rw [List.length_insertionSort]
      rintro ⟨h3, h4⟩
      rcases hlimit with h5 | h5
      · omega
      · omega
    simp only [hsize, List.take_length]
    refine List.mem_map.mpr ⟨k, ?_, ?_⟩
    · exact (List.perm_insertionSort timestampDescending st1.traceKeys).mem_iff.mpr hk
    · unfold keyTraceID
      rw [hkid]

/-- C9 at a concrete input: four primary keys, the window 5 µs to 20 µs, no limit. -/
theorem C9_QueryTimeRange_returns_traces_in_window_witness :
    ∃ ids traceKeys, QueryTimeRange examplePrimaryStore (NewQuery [] 5000 20000 0) = Except.ok ids ∧
      scanPrimary examplePrimaryStore (NewQuery [] 5000 20000 0) = Except.ok traceKeys ∧
      (∀ id ∈ ids, ∃ item ∈ examplePrimaryStore, keyTraceID item.key = id ∧
        (5000 : Int) / 1000 ≤ (keyMicros item.key : Int) ∧
        (keyMicros item.key : Int) ≤ (20000 : Int) / 1000) ∧
      (((0 : Int) ≤ 0 ∨ (traceKeys.length : Int) ≤ (0 : Int)) →
        ∀ item ∈ examplePrimaryStore, (5000 : Int) / 1000 ≤ (keyMicros item.key : Int) →
          (keyMicros item.key : Int) ≤ (20000 : Int) / 1000 → keyTraceID item.key ∈ ids) :=
  C9_QueryTimeRange_returns_traces_in_window examplePrimaryStore (NewQuery [] 5000 20000 0)
    (by decide) rfl (by decide) (by decide) (by decide) (by decide)

/-- C10 (the code's behaviour): with service name `"a"` and limit 1, on a store holding
two index keys of that service for two traces inside the window, `QueryTimeRange`
returns both trace ids: `queryWithServiceName` never reads the limit. -/
theorem C10_QueryTimeRange_with_service_exceeds_limit :
    QueryTimeRange exampleIndexStore (NewQuery [97] 5000 20000 1) =
      Except.ok [⟨0, 1⟩, ⟨0, 2⟩] := by
  decide

end extractor

namespace updator

open Ratio Quality

/-! ### The control cycle and the actuators -/

theorem truncToInt_le (q : ℚ) (n : Int) (h : q ≤ n) (hn : 0 ≤ n) :
    extractor.truncToInt q ≤ n := by
  unfold extractor.truncToInt
  by_cases hnum : 0 ≤ q.num
  · rw [Int.tdiv_eq_ediv hnum (Int.ofNat_nonneg _), ← Rat.floor_def]
    have h1 : ((⌊q⌋ : Int) : ℚ) ≤ n := (Int.floor_le q).trans h
    exact_mod_cast h1
  · have hneg : 0 ≤ -q.num := by omega
    have h1 : q.num.tdiv q.den = -((-q.num).tdiv q.den) := by
      rw [Int.neg_tdiv, neg_neg]
    have h2 := Int.tdiv_nonneg hneg (Int.ofNat_nonneg q.den)
    omega

theorem truncToInt_intCast (k : Int) : extractor.truncToInt (k : ℚ) = k := by
  unfold extractor.truncToInt
  simp

theorem sum_quality_memberships (q : ℚ) :
    poorQualityFunc q + generalQualityFunc q + goodQualityFunc q = 1 := by
  unfold poorQualityFunc generalQualityFunc goodQualityFunc
  rcases le_or_lt q (6 / 10) with h1 | h1
  · have n1 : ¬ (q > 1) := not_lt.mpr (by linarith)
    have n2 : ¬ (8 / 10 < q) := not_lt.mpr (by linarith)
    have n3 : ¬ (6 / 10 < q) := not_lt.mpr h1
    simp only [n1, n2, n3, h1, false_and, if_true, if_false]
    norm_num
  · have n0 : ¬ (q ≤ 6 / 10) := not_le.mpr h1
    rcases le_or_lt q (8 / 10) with h2 | h2
    · have n1 : ¬ (q > 1) := not_lt.mpr (by linarith)
      have n2 : ¬ (8 / 10 < q) := not_lt.mpr h2
      simp only [n0, n1, n2, h1, h2, false_and, and_self, if_true, if_false]
      linarith
    · have n2 : ¬ (q ≤ 8 / 10) := not_le.mpr h2
      rcases le_or_lt q 1 with h3 | h3
      · have n1 : ¬ (q > 1) := not_lt.mpr h3
        simp only [n0, n1, n2, h1, h2, h3, and_false, and_self, if_true, if_false]
        linarith
      · have p1 : q > 1 := h3
        simp only [n0, n2, p1, h1, h2, not_le.mpr h3, and_false, if_true, if_false]
        norm_num

theorem sum_ratio_memberships (r : ℚ) (hr : 0 < r) :
    lowRatioFunc r + mediumRatioFunc r + highRatioFunc r = 1 := by
  unfold lowRatioFunc mediumRatioFunc highRatioFunc
  rcases le_or_lt r (6 / 10) with h1 | h1
  · have n1 : ¬ (6 / 10 < r) := not_lt.mpr h1
    have n2 : ¬ (1 < r) := not_lt.mpr (by linarith)
    have n3 : ¬ (r > 14 / 10) := not_lt.mpr (by linarith)
    simp only [hr, h1, n1, n2, n3, and_self, false_and, if_true, if_false]
    norm_num
  · have n0 : ¬ (r ≤ 6 / 10) := not_le.mpr h1
    have p0 : 6 / 10 ≤ r := le_of_lt h1
    rcases le_or_lt r 1 with h2 | h2
    · have n2 : ¬ (1 < r) := not_lt.mpr h2
      have n3 : ¬ (r > 14 / 10) := not_lt.mpr (by linarith)
      rcases lt_or_eq_of_le h2 with h3 | h3
      · simp only [n0, p0, n2, n3, h1, h2, h3, and_false, and_self, false_and, if_true, if_false]
        linarith
      · have n4 : ¬ (r < 1) := not_lt.mpr (by linarith)
        simp only [n0, p0, n2, n3, n4, h1, h2, and_false, and_self, false_and, if_true,
          if_false]
        linarith
    · have n2 : ¬ (r ≤ 1) := not_le.mpr h2
      have n4 : ¬ (r < 1) := not_lt.mpr (by linarith)
      rcases le_or_lt r (14 / 10) with h3 | h3
      · simp only [n0, n2, n4, h1, h2, h3, and_false, and_self, false_and, if_true, if_false]
        linarith
      · have n5 : ¬ (r ≤ 14 / 10) := not_le.mpr h3
        have p5 : r > 14 / 10 := h3
        simp only [n0, n2, n4, n5, p5, h1, h2, and_false, and_self, false_and, if_true,
          if_false]
        norm_num

theorem getRatioMap_nonpos (r : ℚ) (hr : r ≤ 0) (b : Ratio) : getRatioMap r b = 0 := by
  have n1 : ¬ (0 < r) := not_lt.mpr hr
  have n2 : ¬ (6 / 10 ≤ r) := not_le.mpr (by linarith)
  have n3 : ¬ (6 / 10 < r) := not_lt.mpr (by linarith)
  have n4 : ¬ (1 < r) := not_lt.mpr (by linarith)
  have n5 : ¬ (r > 14 / 10) := not_lt.mpr (by linarith)
  cases b <;>
    simp only [getRatioMap, lowRatioFunc, mediumRatioFunc, highRatioFunc, n1, n2, n3, n4, n5,
      false_and, if_false]

theorem activation_nonpos_ratio (r q : ℚ) (hr : r ≤ 0) (c : Condition) :
    activation r q c = 0 := by
  unfold activation
  rw [min_eq_inf, getRatioMap_nonpos r hr]
  exact inf_eq_left.mpr (getQualityMap_nonneg q c.quality)

theorem activation_five_five (c : Condition) :
    activation 5 5 c = if c = ⟨RatioHigh, QualityPoor⟩ then 1 else 0 := by
  rcases c with ⟨r, q⟩
  cases r <;> cases q <;>
    norm_num [activation, updator.min, getRatioMap, getQualityMap, lowRatioFunc,
      mediumRatioFunc, highRatioFunc, poorQualityFunc, generalQualityFunc, goodQualityFunc] <;>
    simp

/-! ### The claims on the control cycle, the actuators and the memberships -/

/-- C15: for a pod without a history entry, lines 160-173 of `update` choose the delta
`1.0` whatever the traversal orders, the measured rate and the rest of the history (no
ratio or quality enters), create the entry `HistoryEntry{currRps: rps}` for the pod, and
leave the entry of every other pod as it was. -/
theorem C15_cold_start_delta_is_one
    (rangeRules : List (Condition × ℚ)) (rangeResult : List Condition)
    (history : History) (podName : String) (rps : Int) (hnew : history podName = none) :
    (updateDelta rangeRules rangeResult history podName rps).1 = GoFloat.fin 1 ∧
      (updateDelta rangeRules rangeResult history podName rps).2 podName =
        some ⟨rps, 0, GoFloat.fin 0⟩ ∧
      ∀ p, p ≠ podName →
        (updateDelta rangeRules rangeResult history podName rps).2 p = history p := by
  unfold updateDelta
  rw [hnew]
  refine ⟨rfl, ?_, ?_⟩
  · simp only [if_true]
  · intro p hp
    simp only [if_neg hp]

/-- C15 at a concrete input: an empty history, pod `"compose-post"`, 120 requests per
second. -/
theorem C15_cold_start_delta_is_one_witness :
    (updateDelta initialRuleSets ruleKeys (fun _ => none) "compose-post" 120).1 = GoFloat.fin 1 ∧
      (updateDelta initialRuleSets ruleKeys (fun _ => none) "compose-post" 120).2 "compose-post" =
        some ⟨120, 0, GoFloat.fin 0⟩ ∧
      ∀ p, p ≠ "compose-post" →
        (updateDelta initialRuleSets ruleKeys (fun _ => none) "compose-post" 120).2 p =
          (fun _ => none) p :=
  C15_cold_start_delta_is_one initialRuleSets ruleKeys (fun _ => none) "compose-post" 120 rfl

/-- C16 (the code's behaviour): with delta `1.0` `updateReplica` keeps every replica
count, but the in-place resize is not a no-op. When the quota file holds an integer `c`
with `0 < c < 2^53` (a number `float64` holds exactly), each of `updateCpu`,
`updateMemory` and `updateNetworkBandwidth` writes `2 * c`, which is not `c`; the delta
`1.0` reaches them unchanged through the request (`float32(1.0)` is 1), so the in-place
branch of `update` doubles the quota. When `ParseFloat` rejects the content, 0 is
written. For the memory limit 9223372036854771712 (no limit) the doubled value does not
fit `int64` and the smallest `int64` is written. -/
theorem C16_resize_with_delta_one_doubles :
    (∀ n : Int, 0 ≤ n → n < 2 ^ 31 → updateReplica n 1 = n) ∧
      (∀ c : Int, 0 < c → c < 2 ^ 53 →
        updateCpu (some (c : ℚ)) (GoFloat.fin 1) = 2 * c ∧
          updateMemory (some (c : ℚ)) (GoFloat.fin 1) = 2 * c ∧
          updateNetworkBandwidth (some (c : ℚ)) (GoFloat.fin 1) = 2 * c ∧
          updateCpu (some (c : ℚ)) (GoFloat.fin 1) ≠ c ∧
          updateInPlace ResourceType.ResourceCPU (some (c : ℚ)) (GoFloat.fin 1) =
            (2 * c, false)) ∧
      float32 (GoFloat.fin 1) = GoFloat.fin 1 ∧
      updateCpu none (GoFloat.fin 1) = 0 ∧ updateMemory none (GoFloat.fin 1) = 0 ∧
      updateNetworkBandwidth none (GoFloat.fin 1) = 0 ∧
      updateMemory (some 9223372036854771712) (GoFloat.fin 1) = -9223372036854775808 := by
  have h32 : float32 (GoFloat.fin 1) = GoFloat.fin 1 := by decide!
  have h2 : ∀ c : Int, 0 < c → c < 2 ^ 53 →
      int64OfFloat (GoFloat.mul (GoFloat.fin (parsedOrZero (some (c : ℚ))))
        (GoFloat.add (GoFloat.fin 1) (GoFloat.fin 1))) = 2 * c := by
    intro c h0 h1
    have hc : (c : ℚ) * (1 + 1) = ((2 * c : Int) : ℚ) := by push_cast; ring
    unfold parsedOrZero
    simp only [GoFloat.add, GoFloat.mul, int64OfFloat, hc, truncToInt_intCast]
    rw [if_pos]
    constructor <;> omega
  refine ⟨?_, ?_, h32, by decide!, by decide!, by decide!, by decide!⟩
  · intro n _ _
    unfold updateReplica
    rw [mul_one, truncToInt_intCast]
  · intro c h0 h1
    have h := h2 c h0 h1
    refine ⟨h, h, h, ?_, ?_⟩
    · unfold updateCpu
      simp only
      rw [h]
      omega
    · unfold updateInPlace DoUpdate updateCpu
      simp only [h32, h]

/-- C16 at a concrete input: three replicas and a quota file holding 100000. -/
theorem C16_resize_with_delta_one_doubles_witness :
    updateReplica 3 1 = 3 ∧ updateCpu (some 100000) (GoFloat.fin 1) = 200000 ∧
      updateMemory (some 100000) (GoFloat.fin 1) = 200000 ∧
      updateNetworkBandwidth (some 100000) (GoFloat.fin 1) = 200000 ∧
      updateCpu (some 100000) (GoFloat.fin 1) ≠ 100000 ∧
      updateInPlace ResourceType.ResourceCPU (some 100000) (GoFloat.fin 1) = (200000, false) := by
  have h := C16_resize_with_delta_one_doubles.2.1 100000 (by norm_num) (by norm_num)
  have hn := C16_resize_with_delta_one_doubles.1 3 (by norm_num) (by norm_num)
  push_cast at h
  exact ⟨hn, h⟩

/-- C17 (the code's behaviour): `violation` is overwritten in every iteration, so the
flag returned is that of the entry ranged over last. With a violating first operation
(a median of two seconds) and two fast ones, ranging in the listed order reports no
violation although it names the violating operation; ranging in the reverse order
reports the violation. -/
theorem C17_isQosViolation_depends_on_order :
    isQosViolation exampleLats = Except.ok (false, "/wrk2-api/post/compose") ∧
      isQosViolation exampleLats.reverse = Except.ok (true, "/wrk2-api/post/compose") := by
  decide!

/-- C19: the three quality memberships sum to 1 for every quality and the three ratio
memberships sum to 1 for every positive ratio; hence the nine activations have a
positive sum for every positive ratio and every quality; at ratio 5 and quality 5 the
sum is 1 and only the high/poor rule is active; for a ratio that is not positive all
nine activations are 0. -/
theorem C19_memberships_partition_unity :
    (∀ q : ℚ, getQualityMap q QualityPoor + getQualityMap q QualityGeneral +
        getQualityMap q QualityGood = 1) ∧
      (∀ r : ℚ, 0 < r →
        getRatioMap r RatioLow + getRatioMap r RatioMedium + getRatioMap r RatioHigh = 1) ∧
      (∀ r q : ℚ, 0 < r → 0 < (specRules.map (activation r q)).sum) ∧
      (specRules.map (activation 5 5)).sum = 1 ∧
      (∀ c, 0 < activation 5 5 c ↔ c = ⟨RatioHigh, QualityPoor⟩) ∧
      ∀ (r q : ℚ) (c : Condition), r ≤ 0 → activation r q c = 0 := by
  refine ⟨sum_quality_memberships, sum_ratio_memberships,
    fun r q hr => activation_sum_pos r q hr, ?_, ?_,
    fun r q c hr => activation_nonpos_ratio r q hr c⟩
  · simp only [specRules, List.map_cons, List.map_nil, List.sum_cons, List.sum_nil,
      activation_five_five]
    simp
  · intro c
    rw [activation_five_five]
    split_ifs with h
    · simp [h]
    · simp [h]

/-- C19 at a concrete input: ratio 7/10, quality 9/10. -/
theorem C19_memberships_partition_unity_witness :
    getRatioMap (7 / 10) RatioLow + getRatioMap (7 / 10) RatioMedium +
        getRatioMap (7 / 10) RatioHigh = 1 ∧
      0 < (specRules.map (activation (7 / 10) (9 / 10))).sum :=
  ⟨C19_memberships_partition_unity.2.1 (7 / 10) (by norm_num),
    C19_memberships_partition_unity.2.2.1 (7 / 10) (9 / 10) (by norm_num)⟩

/-- C20: for a positive ratio, every quality and every replica count `n ≥ 0`,
`CalculateDelta` returns a finite delta and the replica count `updateReplica` computes
from it, `n * delta` truncated toward zero, is at most `n`. -/
theorem C20_updateReplica_never_adds
    (rangeRules : List (Condition × ℚ)) (rangeResult : List Condition)
    (hp : rangeRules.Perm initialRuleSets) (hq : rangeResult.Perm ruleKeys)
    (ratio quality : ℚ) (hr : 0 < ratio) (n : Int) (hn : 0 ≤ n) :
    ∃ delta : ℚ, CalculateDelta rangeRules rangeResult ratio quality = GoFloat.fin delta ∧
      updateReplica n delta ≤ n := by
  refine ⟨specDelta ratio quality, CalculateDelta_eq rangeRules rangeResult hp hq _ _ hr, ?_⟩
  have hle : specDelta ratio quality ≤ 1 :=
    specDelta_le _ _ _ hr (fun c _ => (specRuleDelta_bounds c).2)
  have hn1 : (0 : ℚ) ≤ (n : ℚ) := by exact_mod_cast hn
  unfold updateReplica
  apply truncToInt_le _ _ _ hn
  nlinarith

/-- C20 at a concrete input: ratio 3/2, quality 9/10, five replicas. -/
theorem C20_updateReplica_never_adds_witness :
    ∃ delta : ℚ, CalculateDelta initialRuleSets ruleKeys (3 / 2) (9 / 10) = GoFloat.fin delta ∧
      updateReplica 5 delta ≤ 5 :=
  C20_updateReplica_never_adds initialRuleSets ruleKeys (List.Perm.refl _) (List.Perm.refl _)
    (3 / 2) (9 / 10) (by norm_num) 5 (by norm_num)

end updator

namespace extractor

/-! ### The byte order -/

theorem bytesCompare_nil_left (b : List Nat) : bytesCompare [] b ≠ Ordering.gt := by
  cases b <;> simp [bytesCompare]

theorem bytesCompare_self (a : List Nat) : bytesCompare a a = Ordering.eq := by
  induction a with
  | nil => rfl
  | cons x xs ih => simp [bytesCompare, ih]

theorem bytesCompare_eq_iff (a : List Nat) :
    ∀ b : List Nat, bytesCompare a b = Ordering.eq ↔ a = b := by
  induction a with
  | nil =>
    intro b
    cases b <;> simp [bytesCompare]
  | cons x xs ih =>
    intro b
    cases b with
    | nil => simp [bytesCompare]
    | cons y ys =>
      simp only [bytesCompare, List.cons.injEq]
      split_ifs with h1 h2
      · simp only [reduceCtorEq, false_iff, not_and]
        intro h; omega
      · simp only [reduceCtorEq, false_iff, not_and]
        intro h; omega
      · rw [ih ys]
        constructor
        · intro h; exact ⟨by omega, h⟩
        · intro h; exact h.2

theorem bytesCompare_swap (a : List Nat) :
    ∀ b : List Nat, bytesCompare b a = (bytesCompare a b).swap := by
  induction a with
  | nil =>
    intro b
    cases b <;> rfl
  | cons x xs ih =>
    intro b
    cases b with
    | nil => rfl
    | cons y ys =>
      simp only [bytesCompare]
      by_cases h1 : x < y
      · have h2 : ¬ y < x := by omega
        simp only [h1, h2, if_true, if_false, Ordering.swap]
      · by_cases h2 : y < x
        · simp only [h1, h2, if_true, if_false, Ordering.swap]
        · simp only [h1, h2, if_false]
          exact ih ys

theorem bytesLe_cons_cons (x y : Nat) (as bs : List Nat) :
    bytesLe (x :: as) (y :: bs) ↔ x < y ∨ (x = y ∧ bytesLe as bs) := by
  unfold bytesLe
  simp only [bytesCompare]
  by_cases h1 : x < y
  · rw [if_pos h1]
    simp [h1]
  · by_cases h2 : y < x
    · rw [if_neg h1, if_pos h2]
      simp only [ne_eq, not_true_eq_false, false_iff, not_or, not_and]
      exact ⟨h1, fun h => by omega⟩
    · rw [if_neg h1, if_neg h2]
      have heq : x = y := by omega
      simp [h1, heq]

theorem bytesLe_refl (a : List Nat) : bytesLe a a := by
  unfold bytesLe
  rw [bytesCompare_self]
  simp

theorem bytesLe_trans (a : List Nat) :
    ∀ b c : List Nat, bytesLe a b → bytesLe b c → bytesLe a c := by
  induction a with
  | nil =>
    intro b c _ _
    exact bytesCompare_nil_left c
  | cons x xs ih =>
    intro b c hab hbc
    cases b with
    | nil => exact absurd rfl hab
    | cons y ys =>
      cases c with
      | nil => exact absurd rfl hbc
      | cons z zs =>
        rw [bytesLe_cons_cons] at hab hbc ⊢
        rcases hab with h1 | ⟨h1, h1t⟩
        · rcases hbc with h2 | ⟨h2, _⟩
          · exact Or.inl (by omega)
          · exact Or.inl (by omega)
        · rcases hbc with h2 | ⟨h2, h2t⟩
          · exact Or.inl (by omega)
          · exact Or.inr ⟨by omega, ih ys zs h1t h2t⟩

theorem bytesLe_antisymm (a b : List Nat) (h1 : bytesLe a b) (h2 : bytesLe b a) : a = b := by
  unfold bytesLe at h1 h2
  rw [bytesCompare_swap a b] at h2
  apply (bytesCompare_eq_iff a b).mp
  cases h : bytesCompare a b with
  | lt => rw [h] at h2; exact absurd rfl h2
  | eq => rfl
  | gt => exact absurd h h1

theorem bytesLe_total (a b : List Nat) : bytesLe a b ∨ bytesLe b a := by
  unfold bytesLe
  rw [bytesCompare_swap a b]
  cases bytesCompare a b <;> simp [Ordering.swap]

theorem bytesLt_iff (a b : List Nat) : bytesLt a b ↔ bytesLe a b ∧ a ≠ b := by
  unfold bytesLt bytesLe
  rw [ne_eq, ne_eq, ← bytesCompare_eq_iff a b]
  cases bytesCompare a b <;> simp

theorem bytesLt_of_lt_of_le (a b c : List Nat) (h1 : bytesLt a b) (h2 : bytesLe b c) :
    bytesLt a c := by
  rw [bytesLt_iff] at h1 ⊢
  refine ⟨bytesLe_trans a b c h1.1 h2, ?_⟩
  intro hac
  rw [← hac] at h2
  exact h1.2 (bytesLe_antisymm a b h1.1 h2)

theorem bytesLt_of_le_of_lt (a b c : List Nat) (h1 : bytesLe a b) (h2 : bytesLt b c) :
    bytesLt a c := by
  rw [bytesLt_iff] at h2 ⊢
  refine ⟨bytesLe_trans a b c h1 h2.1, ?_⟩
  intro hac
  rw [hac] at h1
  exact h2.2 (bytesLe_antisymm b c h2.1 h1)

theorem bytesLe_take (a : List Nat) :
    ∀ (b : List Nat) (n : Nat), bytesLe a b → bytesLe (a.take n) (b.take n) := by
  induction a with
  | nil =>
    intro b n _
    rw [List.take_nil]
    exact bytesCompare_nil_left _
  | cons x xs ih =>
    intro b n hab
    cases b with
    | nil => exact absurd rfl hab
    | cons y ys =>
      cases n with
      | zero => exact bytesLe_refl _
      | succ n =>
        rw [List.take_succ_cons, List.take_succ_cons]
        rw [bytesLe_cons_cons] at hab ⊢
        rcases hab with h | ⟨h, ht⟩
        · exact Or.inl h
        · exact Or.inr ⟨h, ih ys n ht⟩

theorem bytesLe_of_isPrefixOf (p : List Nat) :
    ∀ k : List Nat, p.isPrefixOf k = true → bytesLe p k := by
  induction p with
  | nil =>
    intro k _
    exact bytesCompare_nil_left k
  | cons x xs ih =>
    intro k hk
    cases k with
    | nil => simp [List.isPrefixOf] at hk
    | cons y ys =>
      simp only [List.isPrefixOf, Bool.and_eq_true, beq_iff_eq] at hk
      rw [bytesLe_cons_cons]
      exact Or.inr ⟨hk.1, ih ys hk.2⟩

/-! ### The order of the result of `queryWithoutServiceName` -/

theorem timestampDescending_iff (k h : List Nat) :
    timestampDescending k h ↔ bytesLe (keyTimestamp h) (keyTimestamp k) := by
  unfold timestampDescending bytesLe
  rw [bytesCompare_swap (keyTimestamp k) (keyTimestamp h)]
  cases bytesCompare (keyTimestamp k) (keyTimestamp h) <;> simp [Ordering.swap]

theorem sorted_timestampDescending (l : List (List Nat)) :
    (l.insertionSort timestampDescending).Pairwise timestampDescending := by
  haveI : IsTotal (List Nat) timestampDescending :=
    ⟨fun a b => by
      rw [timestampDescending_iff, timestampDescending_iff]
      exact (bytesLe_total _ _).symm⟩
  haveI : IsTrans (List Nat) timestampDescending :=
    ⟨fun a b c hab hbc => by
      rw [timestampDescending_iff] at hab hbc ⊢
      exact bytesLe_trans _ _ _ hbc hab⟩
  exact List.sorted_insertionSort timestampDescending l

theorem mem_scanPrefix (store : Store) (p : List Nat) (x : Item) (hx : x ∈ scanPrefix store p) :
    x ∈ store ∧ p.isPrefixOf x.key = true := by
  unfold scanPrefix seekForward at hx
  have hp := List.mem_takeWhile_imp hx
  exact ⟨(List.dropWhile_sublist _).subset ((List.takeWhile_sublist _).subset hx), hp⟩

/-- The scan of `queryWithoutServiceName` on a store whose primary keys are well-formed:
it ends, every recorded key is a well-formed stored key inside the window, and every
key inside the window has its trace recorded. -/
theorem scanPrimary_spec (store : Store) (query : Query) (hprim : PrimaryKeysWellFormed store) :
    ∃ recorded, scanPrimary store query = Except.ok recorded ∧
      (∀ k ∈ recorded, WellFormedPrimaryKey k ∧ ∃ item ∈ store, item.key = k ∧
        timestampInRange (putUint64 (timeAsEpochMicroseconds query.startTime))
          (putUint64 (timeAsEpochMicroseconds query.endTime)) k) ∧
      ∀ item ∈ scanPrefix store [spanKeyPrefix],
        timestampInRange (putUint64 (timeAsEpochMicroseconds query.startTime))
          (putUint64 (timeAsEpochMicroseconds query.endTime)) item.key →
        ∃ k ∈ recorded, sub k 1 (sizeOfTraceID + 1) = sub item.key 1 (sizeOfTraceID + 1) := by
  have hwf : ∀ item ∈ scanPrefix store [spanKeyPrefix], WellFormedPrimaryKey item.key := by
    intro item hitem
    obtain ⟨hmem, hpre⟩ := mem_scanPrefix store _ item hitem
    exact hprim item hmem hpre
  obtain ⟨st1, hloop, -, -, honly, hrec⟩ :=
    scan_loop (putUint64 (timeAsEpochMicroseconds query.startTime))
      (putUint64 (timeAsEpochMicroseconds query.endTime)) (scanPrefix store [spanKeyPrefix])
      ⟨[], []⟩ hwf (Or.inl rfl)
  refine ⟨st1.traceKeys, ?_, ?_, hrec⟩
  · unfold scanPrimary
    simp only [hloop]
  · intro k hk
    rcases honly k hk with h | ⟨item, hitem, hkey, hr⟩
    · exact absurd h (List.not_mem_nil k)
    · exact ⟨hkey ▸ hwf item hitem, item, (mem_scanPrefix store _ item hitem).1, hkey, hr⟩

theorem keyMicros_le_iff (k h : List Nat) (hk : WellFormedPrimaryKey k)
    (hh : WellFormedPrimaryKey h) :
    timestampDescending k h ↔ keyMicros h ≤ keyMicros k := by
  rw [timestampDescending_iff]
  unfold bytesLe keyMicros
  exact bytesCompare_ne_gt _ _
    (by rw [keyTimestamp_length h hh.1, keyTimestamp_length k hk.1])
    (keyTimestamp_bytes h hh.2.2) (keyTimestamp_bytes k hk.2.2)

theorem sizeCount_eq (limit : Int) (n : Nat) :
    (if 0 < limit ∧ limit < (n : Int) then limit.toNat else n) =
      if 0 < limit then Nat.min limit.toNat n else n := by
  by_cases h0 : 0 < limit
  · have h1 := Int.toNat_of_nonneg (le_of_lt h0)
    rw [if_pos h0]
    by_cases h2 : limit < (n : Int)
    · rw [if_pos ⟨h0, h2⟩]
      exact (Nat.min_eq_left (by omega)).symm
    · rw [if_neg (fun h => h2 h.2)]
      exact (Nat.min_eq_right (by omega)).symm
  · rw [if_neg h0, if_neg (fun h => h0 h.1)]

/-- C11: on a store whose primary keys are well-formed, a query without service name
returns the trace ids of the recorded keys sorted by embedded start time, newest first
(the start times are non-increasing along the sorted keys), cut to the first
`min(limit, n)` entries when the limit is positive and uncut otherwise. -/
theorem C11_QueryTimeRange_newest_first (store : Store) (query : Query)
    (hprim : PrimaryKeysWellFormed store) (hsvc : query.serviceName = []) :
    ∃ recorded sorted, scanPrimary store query = Except.ok recorded ∧
      sorted = recorded.insertionSort timestampDescending ∧
      sorted.Perm recorded ∧
      sorted.Pairwise (fun k h => keyMicros h ≤ keyMicros k) ∧
      QueryTimeRange store query =
        Except.ok ((sorted.take
          (if 0 < query.numTraces then Nat.min query.numTraces.toNat recorded.length
            else recorded.length)).map keyTraceID) := by
  obtain ⟨recorded, hscan, hwf, -⟩ := scanPrimary_spec store query hprim
  refine ⟨recorded, _, hscan, rfl, List.perm_insertionSort _ _, ?_, ?_⟩
  · apply (sorted_timestampDescending recorded).imp_of_mem
    intro k h hk hh hkh
    have hk1 := (hwf k ((List.perm_insertionSort _ _).mem_iff.mp hk)).1
    have hh1 := (hwf h ((List.perm_insertionSort _ _).mem_iff.mp hh)).1
    exact (keyMicros_le_iff k h hk1 hh1).mp hkh
  · unfold QueryTimeRange
    rw [if_pos hsvc]
    unfold queryWithoutServiceName
    rw [hscan]
    simp only [List.length_insertionSort, sizeCount_eq]
    rfl

/-- C11 at a concrete input: four primary keys, the window 5 µs to 20 µs, limit 1. -/
theorem C11_QueryTimeRange_newest_first_witness :
    ∃ recorded sorted, scanPrimary examplePrimaryStore (NewQuery [] 5000 20000 1) =
        Except.ok recorded ∧
      sorted = recorded.insertionSort timestampDescending ∧
      sorted.Perm recorded ∧
      sorted.Pairwise (fun k h => keyMicros h ≤ keyMicros k) ∧
      QueryTimeRange examplePrimaryStore (NewQuery [] 5000 20000 1) =
        Except.ok ((sorted.take
          (if 0 < (NewQuery [] 5000 20000 1).numTraces
            then Nat.min (NewQuery [] 5000 20000 1).numTraces.toNat recorded.length
            else recorded.length)).map keyTraceID) :=
  C11_QueryTimeRange_newest_first examplePrimaryStore (NewQuery [] 5000 20000 1)
    (by decide) rfl

/-- C18 (the code's behaviour): the store holds only index keys of service `"a"`, in byte
order; the key at 20 µs lies inside the window 5 µs..20 µs, but its trace id starts
with `0xFF`, so it sorts above the seek key `index ++ maxTime ++ [0xFF]` and the
reverse scan never visits it: only the trace at 10 µs is returned. With the first id
byte `0xFE` the same key is returned. -/
theorem C18_reverse_scan_misses_high_trace_id :
    highTraceIndexStore.Pairwise (fun a b => bytesLt a.key b.key) ∧
      QueryTimeRange highTraceIndexStore (NewQuery [97] 5000 20000 0) =
        Except.ok [⟨0, 1⟩] ∧
      QueryTimeRange lowerTraceIndexStore (NewQuery [97] 5000 20000 0) =
        Except.ok [⟨0, 1⟩, ⟨254 * 2 ^ 56, 7⟩] := by
  decide

/-! ### The scan of `queryWithServiceName` -/

theorem slice_ok (s : List Nat) (lo hi : Int) (r : List Nat)
    (h : slice s lo hi = Except.ok r) :
    0 ≤ lo ∧ lo ≤ hi ∧ hi ≤ (s.length : Int) ∧ r = sub s lo.toNat hi.toNat := by
  unfold slice at h
  split_ifs at h with hc
  exact ⟨hc.1, hc.2.1, hc.2.2, (Except.ok.inj h).symm⟩

theorem slice_eq_ok (s : List Nat) (lo hi : Int) (h0 : 0 ≤ lo) (h1 : lo ≤ hi)
    (h2 : hi ≤ (s.length : Int)) : slice s lo hi = Except.ok (sub s lo.toNat hi.toNat) := by
  unfold slice
  rw [if_pos ⟨h0, h1, h2⟩]

theorem sub_length (s : List Nat) (a b : Nat) (hb : b ≤ s.length) :
    (sub s a b).length = b - a := by
  unfold sub
  rw [List.length_drop, List.length_take, Nat.min_eq_left hb]

theorem sub_split (s : List Nat) (a b : Nat) (hab : a ≤ b) :
    s = sub s 0 a ++ sub s a b ++ sub s b s.length := by
  unfold sub
  have h1 : s.take a = (s.take b).take a := by
    rw [List.take_take, Nat.min_eq_left hab]
  rw [List.drop_zero, List.take_length, h1, List.take_append_drop, List.take_append_drop]

theorem sub_bytes (s : List Nat) (a b : Nat) (h : ∀ x ∈ s, x < 256) :
    ∀ x ∈ sub s a b, x < 256 := by
  intro x hx
  exact h x (List.mem_of_mem_take (List.mem_of_mem_drop hx))

theorem ordering_bne_iff (a b : Ordering) : (a != b) = true ↔ a ≠ b := by
  cases a <;> cases b <;> decide

/-- What `scanFunction` has checked when it lets the loop run on an entry. -/
theorem scanFunction_true (it : Item) (index tStart tEnd : List Nat)
    (h : scanFunction (some it) index tStart tEnd = Except.ok true) :
    it.key.length = index.length + 24 ∧ sub it.key 0 index.length = index ∧
      bytesLe tEnd (sub it.key index.length (index.length + 8)) ∧
      bytesLe (sub it.key index.length (index.length + 8)) tStart := by
  unfold scanFunction at h
  simp only at h
  split at h
  · exact Except.noConfusion h
  · rename_i timestamp hts
    split_ifs at h with hlen
    · simp at h
    · have hlen1 : it.key.length = index.length + 24 := not_not.mp hlen
      split at h
      · exact Except.noConfusion h
      · rename_i head hhead
        obtain ⟨-, -, -, hts1⟩ := slice_ok _ _ _ _ hts
        obtain ⟨-, -, -, hhead1⟩ := slice_ok _ _ _ _ hhead
        have e1 : ((it.key.length : Int) - ((sizeOfTraceID + 8 : Nat) : Int)).toNat =
            index.length := by
          unfold sizeOfTraceID; omega
        have e2 : ((it.key.length : Int) - ((sizeOfTraceID + 8 : Nat) : Int) + 8).toNat =
            index.length + 8 := by
          unfold sizeOfTraceID; omega
        rw [e1, e2] at hts1
        rw [e1] at hhead1
        simp only [Int.toNat_zero] at hhead1
        simp only [Except.ok.injEq, Bool.and_eq_true, ordering_bne_iff] at h
        obtain ⟨hpre, hle, hge⟩ := h
        refine ⟨hlen1, ?_, ?_, ?_⟩
        · rw [← hhead1]
          have hp : index <+: head := List.isPrefixOf_iff_prefix.mp hpre
          refine (hp.eq_of_length ?_).symm
          rw [hhead1, sub_length _ _ _ (by omega)]
          omega
        · rw [← hts1]
          exact hle
        · rw [← hts1]
          unfold bytesLe
          rw [bytesCompare_swap tStart timestamp]
          cases hc : bytesCompare tStart timestamp with
          | lt => exact absurd hc hge
          | eq => simp [Ordering.swap]
          | gt => simp [Ordering.swap]

theorem scanFunction_ok (it : Item) (index tStart tEnd : List Nat)
    (hlen : 24 ≤ it.key.length) : ∃ b, scanFunction (some it) index tStart tEnd = Except.ok b := by
  unfold scanFunction
  simp only
  rw [slice_eq_ok _ _ _ (by unfold sizeOfTraceID; omega) (by omega)
    (by unfold sizeOfTraceID; omega)]
  simp only
  split_ifs
  · exact ⟨false, rfl⟩
  · rw [slice_eq_ok _ _ _ (le_refl 0) (by unfold sizeOfTraceID; omega)
      (by unfold sizeOfTraceID; omega)]
    exact ⟨_, rfl⟩

/-- The reverse scan returns when every entry it may visit has at least 24 bytes. -/
theorem scanIndex_ok (index maxTs minTs : List Nat) :
    ∀ (items : List Item) (acc : List (List Nat)), (∀ it ∈ items, 24 ≤ it.key.length) →
      ∃ res, scanIndex index maxTs minTs items acc = Except.ok res
  | [], acc, _ => ⟨acc, rfl⟩
  | it :: rest, acc, hlen => by
    have hit := hlen it (List.mem_cons_self it rest)
    have hrest : ∀ x ∈ rest, 24 ≤ x.key.length := fun x hx => hlen x (List.mem_cons_of_mem it hx)
    obtain ⟨b, hb⟩ := scanFunction_ok it index maxTs minTs hit
    unfold scanIndex
    rw [hb]
    cases b with
    | false => exact ⟨acc, rfl⟩
    | true =>
      simp only
      rw [slice_eq_ok _ _ _ (le_refl 0) (by unfold sizeOfTraceID; omega)
        (by unfold sizeOfTraceID; omega)]
      simp only
      split_ifs
      · rw [slice_eq_ok _ _ _ (by unfold sizeOfTraceID; omega) (by unfold sizeOfTraceID; omega)
          (le_refl _)]
        exact scanIndex_ok index maxTs minTs rest _ hrest
      · exact scanIndex_ok index maxTs minTs rest _ hrest

/-- Every trace id the reverse scan collects is the tail of a visited key of the exact
form `index ++ timestamp ++ traceID` whose timestamp lies between the bounds. -/
theorem scanIndex_spec (index maxTs minTs : List Nat) :
    ∀ (items : List Item) (acc res : List (List Nat)),
      scanIndex index maxTs minTs items acc = Except.ok res →
        ∀ t ∈ res, t ∈ acc ∨ ∃ item ∈ items, IndexKeyOf index minTs maxTs item.key t
  | [], acc, res, h, t, ht => by
    simp only [scanIndex, Except.ok.injEq] at h
    exact Or.inl (h ▸ ht)
  | it :: rest, acc, res, h, t, ht => by
    unfold scanIndex at h
    split at h
    · exact Except.noConfusion h
    · simp only [Except.ok.injEq] at h
      exact Or.inl (h ▸ ht)
    · rename_i hsf
      obtain ⟨hlen, hhead, hmin, hmax⟩ := scanFunction_true it index maxTs minTs hsf
      simp only at h
      split at h
      · exact Except.noConfusion h
      · split_ifs at h
        · split at h
          · exact Except.noConfusion h
          · rename_i head _ tid htid
            obtain ⟨-, -, -, htid1⟩ := slice_ok _ _ _ _ htid
            have e1 : ((it.key.length : Int) - ((sizeOfTraceID : Nat) : Int)).toNat =
                index.length + 8 := by
              unfold sizeOfTraceID; omega
            rw [e1, Int.toNat_ofNat] at htid1
            rcases scanIndex_spec index maxTs minTs rest _ res h t ht with hmem | ⟨x, hx, hk⟩
            · rcases List.mem_append.mp hmem with h1 | h1
              · exact Or.inl h1
              · right
                refine ⟨it, List.mem_cons_self it rest,
                  sub it.key index.length (index.length + 8), ?_, ?_, ?_, hmin, hmax⟩
                · rw [List.mem_singleton.mp h1, htid1]
                  have := sub_split it.key index.length (index.length + 8) (by omega)
                  rw [hhead] at this
                  exact this
                · rw [sub_length _ _ _ (by omega)]
                  omega
                · rw [List.mem_singleton.mp h1, htid1, sub_length _ _ _ (le_refl _)]
                  omega
            · exact Or.inr ⟨x, List.mem_cons_of_mem it hx, hk⟩
        · rcases scanIndex_spec index maxTs minTs rest _ res h t ht with hmem | ⟨x, hx, hk⟩
          · exact Or.inl hmem
          · exact Or.inr ⟨x, List.mem_cons_of_mem it hx, hk⟩

theorem dedupAdjacent_eq (l : List (List Nat)) :
    ∀ prev, dedupAdjacent l prev = (dedupBytes l prev).map bytesToTraceID := by
  induction l with
  | nil => intro prev; rfl
  | cons x xs ih =>
    intro prev
    unfold dedupAdjacent dedupBytes
    split_ifs
    · rw [List.map_cons, ih]
    · exact ih prev

theorem mem_dedupBytes (l : List (List Nat)) :
    ∀ prev, ∀ y ∈ dedupBytes l prev, y ∈ l := by
  induction l with
  | nil => intro prev y hy; exact absurd hy (List.not_mem_nil y)
  | cons x xs ih =>
    intro prev y hy
    unfold dedupBytes at hy
    split_ifs at hy
    · rcases List.mem_cons.mp hy with h | h
      · rw [h]; exact List.mem_cons_self x xs
      · exact List.mem_cons_of_mem x (ih x y h)
    · exact List.mem_cons_of_mem x (ih prev y hy)

theorem timeAsEpochMicroseconds_lt (t : Int) : timeAsEpochMicroseconds t < 2 ^ 64 := by
  unfold timeAsEpochMicroseconds
  have h2 : (0 : Int) ≤ t.tdiv 1000 % 2 ^ 64 := Int.emod_nonneg _ (by norm_num)
  have h3 : ((t.tdiv 1000 % 2 ^ 64).toNat : Int) < 2 ^ 64 := by
    rw [Int.toNat_of_nonneg h2]
    exact Int.emod_lt_of_pos _ (by norm_num)
  exact_mod_cast h3

theorem mem_seekReverse (store : Store) (k : List Nat) (x : Item) (hx : x ∈ seekReverse store k) :
    x ∈ store := by
  unfold seekReverse at hx
  exact List.mem_reverse.mp ((List.dropWhile_sublist _).subset hx)

/-- What `queryWithServiceName` returns: the ids of the deduplicated sorted scan result,
each taken from a stored key of the exact form. -/
theorem queryWithServiceName_spec (store : Store) (query : Query) (ids : List model.TraceID)
    (h : queryWithServiceName store query = Except.ok ids) :
    ∃ indexResults : List (List Nat),
      ids = (dedupBytes (indexResults.insertionSort bytesAscending) []).map bytesToTraceID ∧
      ∀ t ∈ indexResults, ∃ item ∈ store,
        IndexKeyOf (serviceNameIndexKey :: query.serviceName)
          (putUint64 (timeAsEpochMicroseconds query.startTime))
          (putUint64 (timeAsEpochMicroseconds query.endTime)) item.key t := by
  unfold queryWithServiceName at h
  cases hscan : scanIndex (serviceNameIndexKey :: query.serviceName)
      (putUint64 (timeAsEpochMicroseconds query.endTime))
      (putUint64 (timeAsEpochMicroseconds query.startTime))
      (seekReverse store ((serviceNameIndexKey :: query.serviceName) ++
        putUint64 (timeAsEpochMicroseconds query.endTime) ++ [0xFF])) [] with
  | error e =>
    simp only [hscan] at h
    exact Except.noConfusion h
  | ok indexResults =>
    simp only [hscan, Except.ok.injEq] at h
    refine ⟨indexResults, ?_, ?_⟩
    · rw [← h, dedupAdjacent_eq]
    · intro t ht
      rcases scanIndex_spec _ _ _ _ _ _ hscan t ht with h1 | ⟨item, hitem, hk⟩
      · exact absurd h1 (List.not_mem_nil t)
      · exact ⟨item, mem_seekReverse store _ item hitem, hk⟩

theorem queryWithServiceName_ok (store : Store) (query : Query)
    (hlen : ∀ item ∈ store, 24 ≤ item.key.length) :
    ∃ ids, queryWithServiceName store query = Except.ok ids := by
  unfold queryWithServiceName
  simp only
  obtain ⟨res, hres⟩ := scanIndex_ok (serviceNameIndexKey :: query.serviceName)
    (putUint64 (timeAsEpochMicroseconds query.endTime))
    (putUint64 (timeAsEpochMicroseconds query.startTime))
    (seekReverse store ((serviceNameIndexKey :: query.serviceName) ++
      putUint64 (timeAsEpochMicroseconds query.endTime) ++ [0xFF])) []
    (fun it hit => hlen it (mem_seekReverse store _ it hit))
  rw [hres]
  exact ⟨_, rfl⟩

/-- Every returned id comes from a stored key of the exact form, with the timestamp
inside the window as a number. -/
theorem queryWithServiceName_mem (store : Store) (query : Query)
    (hbytes : ∀ item ∈ store, ∀ b ∈ item.key, b < 256) (ids : List model.TraceID)
    (h : queryWithServiceName store query = Except.ok ids) (id : model.TraceID) (hid : id ∈ ids) :
    ∃ item ∈ store, ∃ ts tid,
      item.key = serviceNameIndexKey :: query.serviceName ++ ts ++ tid ∧
      ts.length = 8 ∧ tid.length = 16 ∧
      item.key.length = query.serviceName.length + 25 ∧
      bytesToTraceID tid = id ∧
      timeAsEpochMicroseconds query.startTime ≤ beUint64 ts ∧
      beUint64 ts ≤ timeAsEpochMicroseconds query.endTime := by
  obtain ⟨indexResults, hids, hres⟩ := queryWithServiceName_spec store query ids h
  rw [hids] at hid
  obtain ⟨t, ht, htid⟩ := List.mem_map.mp hid
  have ht1 : t ∈ indexResults :=
    (List.perm_insertionSort bytesAscending indexResults).mem_iff.mp (mem_dedupBytes _ _ t ht)
  obtain ⟨item, hitem, ts, hkey, hts, htl, hmin, hmax⟩ := hres t ht1
  have htsb : ∀ b ∈ ts, b < 256 := by
    intro b hb
    apply hbytes item hitem b
    rw [hkey]
    exact List.mem_append_left _ (List.mem_append_right _ hb)
  refine ⟨item, hitem, ts, t, hkey, hts, htl, ?_, htid, ?_, ?_⟩
  · rw [hkey]
    simp only [List.length_append, List.length_cons, hts, htl]
  · have := (bytesCompare_ne_gt _ ts (by rw [putUint64_length, hts]) (putUint64_bytes _) htsb).mp
      hmin
    rwa [beUint64_putUint64 _ (timeAsEpochMicroseconds_lt _)] at this
  · have := (bytesCompare_ne_gt ts _ (by rw [putUint64_length, hts]) htsb (putUint64_bytes _)).mp
      hmax
    rwa [beUint64_putUint64 _ (timeAsEpochMicroseconds_lt _)] at this

/-! ### The claim on the service index -/

/-- C12: for a non-empty service name `s`, `QueryTimeRange` returns whenever every stored
key has at least 24 bytes, and each trace id it returns is the decoded last 16 bytes of
a stored key that is exactly `0x81 ++ s ++ timestamp ++ traceID` (length `len(s) + 25`)
whose 8-byte timestamp lies in `[start, end]` microseconds; so a trace id that no key
of that exact form carries (for instance one indexed only under a longer service name)
is not returned. -/
theorem C12_QueryTimeRange_service_exact_key (store : Store) (query : Query)
    (hbytes : ∀ item ∈ store, ∀ b ∈ item.key, b < 256) (hsvc : query.serviceName ≠ []) :
    ((∀ item ∈ store, 24 ≤ item.key.length) → ∃ ids, QueryTimeRange store query = Except.ok ids) ∧
      (∀ ids, QueryTimeRange store query = Except.ok ids → ∀ id ∈ ids,
        ∃ item ∈ store, ∃ ts tid,
          item.key = serviceNameIndexKey :: query.serviceName ++ ts ++ tid ∧
          ts.length = 8 ∧ tid.length = 16 ∧
          item.key.length = query.serviceName.length + 25 ∧
          bytesToTraceID tid = id ∧
          timeAsEpochMicroseconds query.startTime ≤ beUint64 ts ∧
          beUint64 ts ≤ timeAsEpochMicroseconds query.endTime) ∧
      ∀ ids, QueryTimeRange store query = Except.ok ids → ∀ id,
        (∀ item ∈ store, ∀ ts tid,
          item.key = serviceNameIndexKey :: query.serviceName ++ ts ++ tid →
          ts.length = 8 → tid.length = 16 → bytesToTraceID tid ≠ id) → id ∉ ids := by
  have hq : QueryTimeRange store query = queryWithServiceName store query := by
    unfold QueryTimeRange
    rw [if_neg hsvc]
  rw [hq]
  refine ⟨queryWithServiceName_ok store query, ?_, ?_⟩
  · intro ids hids id hid
    exact queryWithServiceName_mem store query hbytes ids hids id hid
  · intro ids hids id hnone hid
    obtain ⟨item, hitem, ts, tid, hkey, hts, htl, -, hdec, -, -⟩ :=
      queryWithServiceName_mem store query hbytes ids hids id hid
    exact hnone item hitem ts tid hkey hts htl hdec

/-- C12 at a concrete input: a store with one key of service `"a"` and one of service
`"ab"`, queried for `"a"`. -/
theorem C12_QueryTimeRange_service_exact_key_witness :
    ((∀ item ∈ twoServiceIndexStore, 24 ≤ item.key.length) → ∃ ids, QueryTimeRange twoServiceIndexStore (NewQuery [97] 5000 20000 0) = Except.ok ids) ∧
      (∀ ids, QueryTimeRange twoServiceIndexStore (NewQuery [97] 5000 20000 0) = Except.ok ids → ∀ id ∈ ids,
        ∃ item ∈ twoServiceIndexStore, ∃ ts tid,
          item.key = serviceNameIndexKey :: [97] ++ ts ++ tid ∧
          ts.length = 8 ∧ tid.length = 16 ∧
          item.key.length = [97].length + 25 ∧
          bytesToTraceID tid = id ∧
          timeAsEpochMicroseconds 5000 ≤ beUint64 ts ∧
          beUint64 ts ≤ timeAsEpochMicroseconds 20000) ∧
      ∀ ids, QueryTimeRange twoServiceIndexStore (NewQuery [97] 5000 20000 0) = Except.ok ids → ∀ id,
        (∀ item ∈ twoServiceIndexStore, ∀ ts tid,
          item.key = serviceNameIndexKey :: [97] ++ ts ++ tid →
          ts.length = 8 → tid.length = 16 → bytesToTraceID tid ≠ id) → id ∉ ids :=
  C12_QueryTimeRange_service_exact_key twoServiceIndexStore (NewQuery [97] 5000 20000 0)
    (by decide) (by decide)

/-! ### No trace id twice -/

theorem bytesAscending_iff (k h : List Nat) : bytesAscending k h ↔ bytesLe k h := by
  unfold bytesAscending bytesLe
  rw [bytesCompare_swap k h]
  cases bytesCompare k h <;> simp [Ordering.swap]

theorem sorted_bytesAscending (l : List (List Nat)) :
    (l.insertionSort bytesAscending).Pairwise bytesLe := by
  haveI : IsTotal (List Nat) bytesAscending :=
    ⟨fun a b => by
      rw [bytesAscending_iff, bytesAscending_iff]
      exact bytesLe_total a b⟩
  haveI : IsTrans (List Nat) bytesAscending :=
    ⟨fun a b c hab hbc => by
      rw [bytesAscending_iff] at hab hbc ⊢
      exact bytesLe_trans _ _ _ hab hbc⟩
  exact (List.sorted_insertionSort bytesAscending l).imp
    (fun {a b} h => (bytesAscending_iff a b).mp h)

/-- On a list in ascending byte order whose entries are not below `prev`, the last loop
of `queryWithServiceName` keeps a strictly ascending list of entries above `prev`. -/
theorem dedupBytes_sorted (l : List (List Nat)) :
    ∀ prev, l.Pairwise bytesLe → (∀ x ∈ l, bytesLe prev x) →
      (dedupBytes l prev).Pairwise bytesLt ∧ ∀ y ∈ dedupBytes l prev, bytesLt prev y := by
  induction l with
  | nil =>
    intro prev _ _
    exact ⟨List.Pairwise.nil, fun y hy => absurd hy (List.not_mem_nil y)⟩
  | cons x xs ih =>
    intro prev hsorted hprev
    obtain ⟨hx, hxs⟩ := List.pairwise_cons.mp hsorted
    unfold dedupBytes
    split_ifs with hne
    · have hlt : bytesLt prev x :=
        (bytesLt_iff prev x).mpr ⟨hprev x (List.mem_cons_self x xs), hne⟩
      obtain ⟨h1, h2⟩ := ih x hxs hx
      refine ⟨List.pairwise_cons.mpr ⟨h2, h1⟩, ?_⟩
      intro y hy
      rcases List.mem_cons.mp hy with h | h
      · rw [h]; exact hlt
      · exact bytesLt_of_lt_of_le prev x y hlt ((bytesLt_iff x y).mp (h2 y h)).1
    · exact ih prev hxs (fun y hy => hprev y (List.mem_cons_of_mem x hy))

theorem beUint64_inj (a b : List Nat) (hlen : a.length = b.length) (ha : ∀ x ∈ a, x < 256)
    (hb : ∀ x ∈ b, x < 256) (h : beUint64 a = beUint64 b) : a = b := by
  apply (bytesCompare_eq_iff a b).mp
  rw [bytesCompare_eq a b hlen ha hb, h]
  simp

theorem bytesToTraceID_inj (a b : List Nat) (hal : a.length = 16) (hbl : b.length = 16)
    (ha : ∀ x ∈ a, x < 256) (hb : ∀ x ∈ b, x < 256)
    (h : bytesToTraceID a = bytesToTraceID b) : a = b := by
  unfold bytesToTraceID sizeOfTraceID at h
  simp only [model.TraceID.mk.injEq] at h
  have h1 := beUint64_inj (sub a 0 8) (sub b 0 8)
    (by rw [sub_length _ _ _ (by omega), sub_length _ _ _ (by omega)])
    (sub_bytes a 0 8 ha) (sub_bytes b 0 8 hb) h.1
  have h2 := beUint64_inj (sub a 8 16) (sub b 8 16)
    (by rw [sub_length _ _ _ (by omega), sub_length _ _ _ (by omega)])
    (sub_bytes a 8 16 ha) (sub_bytes b 8 16 hb) h.2
  have h3 : sub a 16 a.length = [] :=
    List.eq_nil_of_length_eq_zero (by rw [sub_length _ _ _ (le_refl _)]; omega)
  have h4 : sub b 16 b.length = [] :=
    List.eq_nil_of_length_eq_zero (by rw [sub_length _ _ _ (le_refl _)]; omega)
  rw [sub_split a 8 16 (by omega), sub_split b 8 16 (by omega), h1, h2, h3, h4]

theorem nodup_of_pairwise_bytesLt (l : List (List Nat)) (h : l.Pairwise bytesLt) : l.Nodup :=
  h.imp (fun {a b} hab => ((bytesLt_iff a b).mp hab).2)

theorem keyTraceIDBytes_length (k : List Nat) (hk : WellFormedPrimaryKey k) :
    (keyTraceIDBytes k).length = 16 := by
  unfold keyTraceIDBytes sizeOfTraceID
  rw [sub_length _ _ _ (by rw [hk.1]; omega)]

theorem keyTraceIDBytes_bytes (k : List Nat) (hk : WellFormedPrimaryKey k) :
    ∀ x ∈ keyTraceIDBytes k, x < 256 :=
  sub_bytes k _ _ hk.2.2

theorem keyTraceIDBytes_mono (a b : List Nat) (ha : WellFormedPrimaryKey a)
    (hb : WellFormedPrimaryKey b) (h : bytesLe a b) :
    bytesLe (keyTraceIDBytes a) (keyTraceIDBytes b) := by
  have h1 := bytesLe_take a b (sizeOfTraceID + 1) h
  unfold keyTraceIDBytes sub
  cases a with
  | nil => have := ha.1; simp at this
  | cons x xs =>
    cases b with
    | nil => have := hb.1; simp at this
    | cons y ys =>
      have hx := ha.2.1
      have hy := hb.2.1
      simp only [List.head?_cons, Option.some.injEq] at hx hy
      rw [List.take_succ_cons, List.take_succ_cons, bytesLe_cons_cons] at h1
      rw [List.take_succ_cons, List.take_succ_cons, List.drop_succ_cons, List.drop_succ_cons,
        List.drop_zero, List.drop_zero]
      rcases h1 with hlt | ⟨-, hle⟩
      · omega
      · exact hle

/-- On well-formed keys in ascending byte order the scan of `queryWithoutServiceName`
records keys of strictly ascending trace ids. -/
theorem scan_strict (minTs maxTs : List Nat) :
    ∀ (items : List Item) (st st1 : ScanState),
      items.Pairwise (fun a b => bytesLe a.key b.key) →
      (∀ it ∈ items, WellFormedPrimaryKey it.key) →
      (st.traceKeys.map keyTraceIDBytes).Pairwise bytesLt →
      (∀ k ∈ st.traceKeys, bytesLe (keyTraceIDBytes k) st.prevTraceID) →
      (∀ x ∈ items, bytesLe st.prevTraceID (keyTraceIDBytes x.key)) →
      rangeLoop (scanBody minTs maxTs) items st = Except.ok st1 →
      (st1.traceKeys.map keyTraceIDBytes).Pairwise bytesLt
  | [], st, st1, _, _, hpw, _, _, h => by
    simp only [rangeLoop, Except.ok.injEq] at h
    exact h ▸ hpw
  | x :: rest, st, st1, hsorted, hwf, hpw, hle, hge, h => by
    obtain ⟨hx, hrest⟩ := List.pairwise_cons.mp hsorted
    have hxwf := hwf x (List.mem_cons_self x rest)
    have hrwf : ∀ it ∈ rest, WellFormedPrimaryKey it.key :=
      fun it hit => hwf it (List.mem_cons_of_mem x hit)
    simp only [rangeLoop, scanBody_wf minTs maxTs st x hxwf] at h
    have hxge := hge x (List.mem_cons_self x rest)
    by_cases hrec : timestampInRange minTs maxTs x.key ∧
        sub x.key 1 (sizeOfTraceID + 1) ≠ st.prevTraceID
    · have hnext : scanNext minTs maxTs st x.key =
          ⟨st.traceKeys ++ [x.key], sub x.key 1 (sizeOfTraceID + 1)⟩ := by
        unfold scanNext
        rw [if_pos hrec.1, if_pos hrec.2]
      rw [hnext] at h
      have hlt : bytesLt st.prevTraceID (keyTraceIDBytes x.key) :=
        (bytesLt_iff _ _).mpr ⟨hxge, fun heq => hrec.2 heq.symm⟩
      refine scan_strict minTs maxTs rest _ st1 hrest hrwf ?_ ?_ ?_ h
      · rw [List.map_append, List.pairwise_append]
        refine ⟨hpw, List.pairwise_singleton _ _, ?_⟩
        intro a ha b hb
        obtain ⟨k, hk, hka⟩ := List.mem_map.mp ha
        simp only [List.map_cons, List.map_nil, List.mem_singleton] at hb
        rw [hb, ← hka]
        exact bytesLt_of_le_of_lt _ _ _ (hle k hk) hlt
      · intro k hk
        rcases List.mem_append.mp hk with h1 | h1
        · exact bytesLe_trans _ _ _ (hle k h1) hxge
        · rw [List.mem_singleton.mp h1]
          exact bytesLe_refl _
      · intro y hy
        exact keyTraceIDBytes_mono x.key y.key hxwf (hrwf y hy) (hx y hy)
    · have hnext : scanNext minTs maxTs st x.key = st := by
        unfold scanNext
        by_cases hr : timestampInRange minTs maxTs x.key
        · rw [if_pos hr, if_neg (fun hne => hrec ⟨hr, hne⟩)]
        · rw [if_neg hr]
      rw [hnext] at h
      exact scan_strict minTs maxTs rest st st1 hrest hrwf hpw hle
        (fun y hy => hge y (List.mem_cons_of_mem x hy)) h

theorem scanPrefix_sublist (store : Store) (p : List Nat) : (scanPrefix store p).Sublist store := by
  unfold scanPrefix seekForward
  exact (List.takeWhile_sublist _).trans (List.dropWhile_sublist _)

theorem scanPrimary_strict (store : Store) (query : Query) (recorded : List (List Nat))
    (hord : StoreOrdered store) (hprim : PrimaryKeysWellFormed store)
    (h : scanPrimary store query = Except.ok recorded) :
    (recorded.map keyTraceIDBytes).Pairwise bytesLt := by
  unfold scanPrimary at h
  cases hloop : rangeLoop
      (scanBody (putUint64 (timeAsEpochMicroseconds query.startTime))
        (putUint64 (timeAsEpochMicroseconds query.endTime)))
      (scanPrefix store [spanKeyPrefix]) ⟨[], []⟩ with
  | error e =>
    simp only [hloop] at h
    exact Except.noConfusion h
  | ok st =>
    simp only [hloop, Except.ok.injEq] at h
    rw [← h]
    refine scan_strict _ _ (scanPrefix store [spanKeyPrefix]) ⟨[], []⟩ st
      (List.Pairwise.sublist (scanPrefix_sublist store _) hord.1) ?_ List.Pairwise.nil ?_ ?_ hloop
    · intro it hit
      obtain ⟨hmem, hpre⟩ := mem_scanPrefix store _ it hit
      exact hprim it hmem hpre
    · intro k hk
      exact absurd hk (List.not_mem_nil k)
    · intro x _
      exact bytesCompare_nil_left _

theorem nodup_map_keyTraceID (keys : List (List Nat))
    (hwf : ∀ k ∈ keys, WellFormedPrimaryKey k) (hnd : (keys.map keyTraceIDBytes).Nodup) :
    (keys.map keyTraceID).Nodup := by
  have hmap : keys.map keyTraceID = (keys.map keyTraceIDBytes).map bytesToTraceID := by
    rw [List.map_map]
    rfl
  rw [hmap]
  apply List.Nodup.map_on _ hnd
  intro a ha b hb hab
  obtain ⟨k, hk, rfl⟩ := List.mem_map.mp ha
  obtain ⟨h, hh, rfl⟩ := List.mem_map.mp hb
  exact bytesToTraceID_inj _ _ (keyTraceIDBytes_length k (hwf k hk))
    (keyTraceIDBytes_length h (hwf h hh)) (keyTraceIDBytes_bytes k (hwf k hk))
    (keyTraceIDBytes_bytes h (hwf h hh)) hab

/-- The result of `queryWithServiceName` is strictly ascending in the id bytes. -/
theorem queryWithServiceName_strict (store : Store) (query : Query)
    (hbytes : ∀ item ∈ store, ∀ b ∈ item.key, b < 256) (ids : List model.TraceID)
    (h : queryWithServiceName store query = Except.ok ids) :
    ∃ idBytes : List (List Nat), ids = idBytes.map bytesToTraceID ∧
      idBytes.Pairwise bytesLt ∧ (∀ t ∈ idBytes, t.length = 16) ∧ ids.Nodup := by
  obtain ⟨indexResults, hids, hres⟩ := queryWithServiceName_spec store query ids h
  have hstrict := (dedupBytes_sorted (indexResults.insertionSort bytesAscending) []
    (sorted_bytesAscending indexResults) (fun x _ => bytesCompare_nil_left x)).1
  have hmem : ∀ t ∈ dedupBytes (indexResults.insertionSort bytesAscending) [],
      t.length = 16 ∧ ∀ b ∈ t, b < 256 := by
    intro t ht
    have ht1 : t ∈ indexResults :=
      (List.perm_insertionSort bytesAscending indexResults).mem_iff.mp (mem_dedupBytes _ _ t ht)
    obtain ⟨item, hitem, ts, hkey, -, htl, -, -⟩ := hres t ht1
    refine ⟨htl, fun b hb => hbytes item hitem b ?_⟩
    rw [hkey]
    exact List.mem_append_right _ hb
  refine ⟨_, hids, hstrict, fun t ht => (hmem t ht).1, ?_⟩
  rw [hids]
  apply List.Nodup.map_on _ (nodup_of_pairwise_bytesLt _ hstrict)
  intro a ha b hb hab
  exact bytesToTraceID_inj a b (hmem a ha).1 (hmem b hb).1 (hmem a ha).2 (hmem b hb).2 hab

/-! ### The claim on duplicates -/

/-- C13: on a store listed in ascending byte order whose primary keys are well-formed,
`QueryTimeRange` returns no trace id twice. With a service name the result is the
decoding of a strictly ascending list of 16-byte ids (sorted, adjacent duplicates
removed); without one the scan records every trace id at most once. The call returns
without a service name, and with one when every key has at least 24 bytes. -/
theorem C13_QueryTimeRange_no_duplicates (store : Store) (query : Query)
    (hord : StoreOrdered store) (hprim : PrimaryKeysWellFormed store) :
    ((query.serviceName = [] ∨ ∀ item ∈ store, 24 ≤ item.key.length) →
        ∃ ids, QueryTimeRange store query = Except.ok ids) ∧
      (∀ ids, QueryTimeRange store query = Except.ok ids → ids.Nodup) ∧
      (query.serviceName ≠ [] → ∀ ids, QueryTimeRange store query = Except.ok ids →
        ∃ idBytes : List (List Nat), ids = idBytes.map bytesToTraceID ∧
          idBytes.Pairwise bytesLt ∧ ∀ t ∈ idBytes, t.length = 16) ∧
      (query.serviceName = [] → ∀ recorded, scanPrimary store query = Except.ok recorded →
        (recorded.map keyTraceID).Nodup) := by
  obtain ⟨recorded, hscan, hwf, -⟩ := scanPrimary_spec store query hprim
  have hstrict := scanPrimary_strict store query recorded hord hprim hscan
  have hwf1 : ∀ k ∈ recorded, WellFormedPrimaryKey k := fun k hk => (hwf k hk).1
  have hnone : query.serviceName = [] → QueryTimeRange store query =
      Except.ok (((recorded.insertionSort timestampDescending).take
        (if 0 < query.numTraces ∧
            query.numTraces < ((recorded.insertionSort timestampDescending).length : Int)
          then query.numTraces.toNat
          else (recorded.insertionSort timestampDescending).length)).map keyTraceID) := by
    intro hsvc
    unfold QueryTimeRange
    rw [if_pos hsvc]
    unfold queryWithoutServiceName
    rw [hscan]
    rfl
  have hsome : query.serviceName ≠ [] →
      QueryTimeRange store query = queryWithServiceName store query := by
    intro hsvc
    unfold QueryTimeRange
    rw [if_neg hsvc]
  refine ⟨?_, ?_, ?_, ?_⟩
  · intro hcase
    by_cases hsvc : query.serviceName = []
    · exact ⟨_, hnone hsvc⟩
    · rcases hcase with h | h
      · exact absurd h hsvc
      · rw [hsome hsvc]
        exact queryWithServiceName_ok store query h
  · intro ids hids
    by_cases hsvc : query.serviceName = []
    · rw [hnone hsvc] at hids
      rw [← Except.ok.inj hids]
      apply nodup_map_keyTraceID
      · intro k hk
        exact hwf1 k ((List.perm_insertionSort _ _).mem_iff.mp (List.mem_of_mem_take hk))
      · have hsub : (((recorded.insertionSort timestampDescending).take
            (if 0 < query.numTraces ∧
                query.numTraces < ((recorded.insertionSort timestampDescending).length : Int)
              then query.numTraces.toNat
              else (recorded.insertionSort timestampDescending).length)).map
            keyTraceIDBytes).Sublist
            ((recorded.insertionSort timestampDescending).map keyTraceIDBytes) :=
          (List.take_sublist _ _).map _
        apply hsub.nodup
        exact (((List.perm_insertionSort timestampDescending recorded).map
          keyTraceIDBytes).nodup_iff).mpr (nodup_of_pairwise_bytesLt _ hstrict)
    · rw [hsome hsvc] at hids
      obtain ⟨-, -, -, -, hnd⟩ := queryWithServiceName_strict store query hord.2 ids hids
      exact hnd
  · intro hsvc ids hids
    rw [hsome hsvc] at hids
    obtain ⟨idBytes, h1, h2, h3, -⟩ := queryWithServiceName_strict store query hord.2 ids hids
    exact ⟨idBytes, h1, h2, h3⟩
  · intro _ recorded1 hrec1
    have heq : recorded1 = recorded := Except.ok.inj (hrec1.symm.trans hscan)
    rw [heq]
    exact nodup_map_keyTraceID recorded hwf1 (nodup_of_pairwise_bytesLt _ hstrict)

/-- C13 at a concrete input: the store of four primary keys, queried without a service
name over the window 5 µs to 20 µs. -/
theorem C13_QueryTimeRange_no_duplicates_witness :
    (((NewQuery [] 5000 20000 0).serviceName = [] ∨ ∀ item ∈ examplePrimaryStore, 24 ≤ item.key.length) →
        ∃ ids, QueryTimeRange examplePrimaryStore (NewQuery [] 5000 20000 0) = Except.ok ids) ∧
      (∀ ids, QueryTimeRange examplePrimaryStore (NewQuery [] 5000 20000 0) = Except.ok ids → ids.Nodup) ∧
      ((NewQuery [] 5000 20000 0).serviceName ≠ [] → ∀ ids, QueryTimeRange examplePrimaryStore (NewQuery [] 5000 20000 0) = Except.ok ids →
        ∃ idBytes : List (List Nat), ids = idBytes.map bytesToTraceID ∧
          idBytes.Pairwise bytesLt ∧ ∀ t ∈ idBytes, t.length = 16) ∧
      ((NewQuery [] 5000 20000 0).serviceName = [] → ∀ recorded, scanPrimary examplePrimaryStore (NewQuery [] 5000 20000 0) = Except.ok recorded →
        (recorded.map keyTraceID).Nodup) :=
  C13_QueryTimeRange_no_duplicates examplePrimaryStore (NewQuery [] 5000 20000 0)
    (by decide) (by decide)

/-! ### Prefix scans of an ordered store -/

theorem ordering_beq_iff (a b : Ordering) : (a == b) = true ↔ a = b := by
  cases a <;> cases b <;> decide

theorem bytesLe_of_not_lt (a b : List Nat) (h : ¬ bytesLt a b) : bytesLe b a := by
  unfold bytesLt at h
  unfold bytesLe
  rw [bytesCompare_swap a b]
  cases hc : bytesCompare a b with
  | lt => exact absurd hc h
  | eq => simp [Ordering.swap]
  | gt => simp [Ordering.swap]

theorem isPrefixOf_between (p : List Nat) :
    ∀ y z : List Nat, bytesLe p y → bytesLe y z → p.isPrefixOf z = true →
      p.isPrefixOf y = true := by
  induction p with
  | nil =>
    intro y z _ _ _
    cases y <;> rfl
  | cons a ps ih =>
    intro y z hpy hyz hpz
    cases z with
    | nil => simp [List.isPrefixOf] at hpz
    | cons c zs =>
      cases y with
      | nil => exact absurd rfl hpy
      | cons b ys =>
        simp only [List.isPrefixOf, Bool.and_eq_true, beq_iff_eq] at hpz ⊢
        rw [bytesLe_cons_cons] at hpy hyz
        have hab : a = b := by
          rcases hpy with h1 | ⟨h1, -⟩ <;> rcases hyz with h2 | ⟨h2, -⟩ <;> omega
        have hbc : b = c := by omega
        refine ⟨hab, ih ys zs ?_ ?_ hpz.2⟩
        · rcases hpy with h1 | ⟨-, h1⟩
          · omega
          · exact h1
        · rcases hyz with h2 | ⟨-, h2⟩
          · omega
          · exact h2

theorem not_isPrefixOf_of_lt (p k : List Nat) (h : bytesLt k p) : ¬ (p.isPrefixOf k = true) := by
  intro hp
  have h1 := bytesLe_of_isPrefixOf p k hp
  rw [bytesLt_iff] at h
  exact h.2 (bytesLe_antisymm k p h.1 h1)

theorem takeWhile_eq_filter (p : List Nat) :
    ∀ l : List Item, l.Pairwise (fun a b => bytesLe a.key b.key) →
      (∀ x ∈ l, bytesLe p x.key) →
      l.takeWhile (fun item => p.isPrefixOf item.key) =
        l.filter (fun item => p.isPrefixOf item.key)
  | [], _, _ => rfl
  | y :: ys, hsorted, hge => by
    obtain ⟨hy, hys⟩ := List.pairwise_cons.mp hsorted
    by_cases hp : p.isPrefixOf y.key = true
    · rw [List.takeWhile_cons, List.filter_cons]
      simp only [hp, if_true]
      rw [takeWhile_eq_filter p ys hys (fun x hx => hge x (List.mem_cons_of_mem y hx))]
    · have hnil : ys.filter (fun item => p.isPrefixOf item.key) = [] := by
        rw [List.filter_eq_nil_iff]
        intro z hz hpz
        exact hp (isPrefixOf_between p y.key z.key (hge y (List.mem_cons_self y ys))
          (hy z hz) hpz)
      rw [List.takeWhile_cons, List.filter_cons, hnil]
      simp [hp]

/-- On a store in ascending byte order a prefix scan visits exactly the entries whose
key starts with the prefix, in store order. -/
theorem scanPrefix_eq_entriesUnder (p : List Nat) :
    ∀ store : Store, store.Pairwise (fun a b => bytesLe a.key b.key) →
      scanPrefix store p = entriesUnder store p
  | [], _ => rfl
  | x :: xs, hsorted => by
    obtain ⟨hx, hxs⟩ := List.pairwise_cons.mp hsorted
    unfold scanPrefix seekForward entriesUnder
    by_cases hlt : (bytesCompare x.key p == Ordering.lt) = true
    · have hlt1 : bytesLt x.key p := (ordering_beq_iff _ _).mp hlt
      have hnp := not_isPrefixOf_of_lt p x.key hlt1
      rw [List.dropWhile_cons, List.filter_cons]
      simp only [hlt, hnp, if_true]
      exact scanPrefix_eq_entriesUnder p xs hxs
    · rw [List.dropWhile_cons]
      simp only [hlt]
      have hge : bytesLe p x.key :=
        bytesLe_of_not_lt x.key p (fun h => hlt ((ordering_beq_iff _ _).mpr h))
      exact takeWhile_eq_filter p (x :: xs) hsorted (by
        intro z hz
        rcases List.mem_cons.mp hz with h | h
        · rw [h]; exact hge
        · exact bytesLe_trans _ _ _ hge (hx z h))

theorem decodeSpans_ok (codec : Codec) :
    ∀ (items : List Item) (spans : List model.Span),
      (∀ item ∈ items, (decodeOpt codec item).isSome = true) →
      decodeSpans codec items spans = Except.ok (spans ++ items.filterMap (decodeOpt codec))
  | [], spans, _ => by simp [decodeSpans]
  | item :: rest, spans, hdec => by
    have h1 := hdec item (List.mem_cons_self item rest)
    unfold decodeOpt at h1
    unfold decodeSpans
    cases hd : decodeValue codec item.value (item.userMeta &&& encodingTypeBits) with
    | error e => rw [hd] at h1; exact Bool.noConfusion h1
    | ok sp =>
      simp only
      have hopt : decodeOpt codec item = some sp := by
        unfold decodeOpt
        rw [hd]
      rw [decodeSpans_ok codec rest _ (fun x hx => hdec x (List.mem_cons_of_mem item hx)),
        List.filterMap_cons_some hopt, List.append_assoc, List.singleton_append]

theorem filterMap_map_some (f : Item → Option model.Span) :
    ∀ l : List Item, (∀ x ∈ l, (f x).isSome = true) → (l.filterMap f).map some = l.map f
  | [], _ => rfl
  | x :: xs, h => by
    obtain ⟨sp, hsp⟩ := Option.isSome_iff_exists.mp (h x (List.mem_cons_self x xs))
    rw [List.filterMap_cons_some hsp, List.map_cons, List.map_cons, hsp,
      filterMap_map_some f xs (fun y hy => h y (List.mem_cons_of_mem x hy))]

theorem head_of_isPrefixOf (a : Nat) (p : List Nat) :
    ∀ k : List Nat, (a :: p).isPrefixOf k = true → k.head? = some a
  | [], h => by simp [List.isPrefixOf] at h
  | b :: k, h => by
    simp only [List.isPrefixOf, Bool.and_eq_true, beq_iff_eq] at h
    simp [h.1]

/-- Every entry under the seek prefix of a trace id is a span entry. -/
theorem entriesUnder_spanKey (store : Store) (traceID : model.TraceID) (item : Item)
    (h : item ∈ entriesUnder store (createPrimaryKeySeekPrefix traceID)) :
    item ∈ store ∧ item.key.head? = some spanKeyPrefix := by
  unfold entriesUnder at h
  obtain ⟨hmem, hp⟩ := List.mem_filter.mp h
  exact ⟨hmem, head_of_isPrefixOf spanKeyPrefix _ item.key hp⟩

/-- The outer loop of `GetTraces` on an ordered store whose span values all decode:
it returns, having appended one trace for each id with an entry under its prefix. -/
theorem collectTraces_ok (codec : Codec) (store : Store)
    (hord : store.Pairwise (fun a b => bytesLe a.key b.key))
    (hdec : ∀ item ∈ store, item.key.head? = some spanKeyPrefix →
      (decodeOpt codec item).isSome = true) :
    ∀ (traceIDs : List model.TraceID) (traces : List model.Trace),
      collectTraces codec store (traceIDs.map createPrimaryKeySeekPrefix) traces =
        Except.ok (traces ++
          (traceIDs.filter (fun traceID =>
              !(entriesUnder store (createPrimaryKeySeekPrefix traceID)).isEmpty)).map
            (fun traceID => ⟨(entriesUnder store (createPrimaryKeySeekPrefix traceID)).filterMap
              (decodeOpt codec)⟩))
  | [], traces => by simp [collectTraces]
  | traceID :: rest, traces => by
    have hall : ∀ item ∈ entriesUnder store (createPrimaryKeySeekPrefix traceID),
        (decodeOpt codec item).isSome = true := fun item hitem =>
      hdec item (entriesUnder_spanKey store traceID item hitem).1
        (entriesUnder_spanKey store traceID item hitem).2
    have hlen : ((entriesUnder store (createPrimaryKeySeekPrefix traceID)).filterMap
        (decodeOpt codec)).length =
        (entriesUnder store (createPrimaryKeySeekPrefix traceID)).length := by
      have h := congrArg List.length (filterMap_map_some (decodeOpt codec) _ hall)
      simpa using h
    rw [List.map_cons]
    unfold collectTraces
    rw [scanPrefix_eq_entriesUnder _ store hord, decodeSpans_ok codec _ [] hall]
    simp only [List.nil_append]
    by_cases he : entriesUnder store (createPrimaryKeySeekPrefix traceID) = []
    · rw [List.filter_cons]
      simp only [he, List.filterMap_nil, List.length_nil, lt_irrefl, if_false,
        List.isEmpty_nil, Bool.not_true, Bool.false_eq_true]
      exact collectTraces_ok codec store hord hdec rest traces
    · have hpos : 0 < ((entriesUnder store (createPrimaryKeySeekPrefix traceID)).filterMap
          (decodeOpt codec)).length := by
        rw [hlen]
        exact List.length_pos.mpr he
      have hne : (!(entriesUnder store (createPrimaryKeySeekPrefix traceID)).isEmpty) = true := by
        cases hl : entriesUnder store (createPrimaryKeySeekPrefix traceID) with
        | nil => exact absurd hl he
        | cons a l => rfl
      rw [if_pos hpos, collectTraces_ok codec store hord hdec rest _, List.filter_cons]
      simp only [hne, if_true, List.map_cons, List.append_assoc, List.singleton_append]

/-! ### C14: `GetTraces` -/

/-- The seek prefix of a trace id is the byte `0x80` followed by the eight big-endian
bytes of `High` and the eight big-endian bytes of `Low`. -/
theorem createPrimaryKeySeekPrefix_bytes (traceID : model.TraceID) :
    createPrimaryKeySeekPrefix traceID =
      128 :: (putUint64 traceID.High ++ putUint64 traceID.Low) := rfl

/-- C14: on a store listed in ascending byte order in which every value under a span
key (first byte `0x80`) decodes, `GetTraces` returns for every list of trace ids. The
result lists, in input order, one trace for each input id that has an entry whose key
starts with the 17 bytes `0x80 ++ id` (the byte `0x80`, then `High` and `Low` in
big-endian); the spans of that trace are the decodings of all entries under that
prefix, in store (key) order. Ids without an entry are left out, so every returned
trace has a span and the result is no longer than the input. -/
theorem C14_GetTraces_one_trace_per_stored_id (codec : Codec) (store : Store)
    (traceIDs : List model.TraceID) (hord : StoreOrdered store)
    (hdec : ∀ item ∈ store, item.key.head? = some spanKeyPrefix →
      (decodeOpt codec item).isSome = true) :
    ∃ traces, GetTraces codec store traceIDs = Except.ok traces ∧
      traces = (traceIDs.filter (fun traceID =>
          !(entriesUnder store
            (128 :: (putUint64 traceID.High ++ putUint64 traceID.Low))).isEmpty)).map
        (fun traceID => ⟨(entriesUnder store
          (128 :: (putUint64 traceID.High ++ putUint64 traceID.Low))).filterMap
            (decodeOpt codec)⟩) ∧
      (∀ traceID : model.TraceID,
        ((entriesUnder store
            (128 :: (putUint64 traceID.High ++ putUint64 traceID.Low))).filterMap
            (decodeOpt codec)).map some =
          (entriesUnder store
            (128 :: (putUint64 traceID.High ++ putUint64 traceID.Low))).map
            (decodeOpt codec)) ∧
      (∀ t ∈ traces, t.Spans ≠ []) ∧ traces.length ≤ traceIDs.length := by
  simp only [← createPrimaryKeySeekPrefix_bytes]
  have hall : ∀ traceID : model.TraceID,
      ∀ item ∈ entriesUnder store (createPrimaryKeySeekPrefix traceID),
        (decodeOpt codec item).isSome = true := fun traceID item hitem =>
    hdec item (entriesUnder_spanKey store traceID item hitem).1
      (entriesUnder_spanKey store traceID item hitem).2
  have hmap := fun traceID : model.TraceID =>
    filterMap_map_some (decodeOpt codec) _ (hall traceID)
  refine ⟨_, ?_, rfl, hmap, ?_, ?_⟩
  · unfold GetTraces
    rw [collectTraces_ok codec store hord.1 hdec traceIDs [], List.nil_append]
  · intro t ht
    obtain ⟨traceID, hmem, rfl⟩ := List.mem_map.mp ht
    have hne := (List.mem_filter.mp hmem).2
    intro hnil
    have h := congrArg List.length (hmap traceID)
    simp only [List.length_map] at h
    simp only at hnil
    rw [hnil, List.length_nil] at h
    have he : entriesUnder store (createPrimaryKeySeekPrefix traceID) = [] :=
      List.length_eq_zero.mp h.symm
    rw [he] at hne
    exact Bool.noConfusion hne
  · rw [List.length_map]
    exact List.length_filter_le _ _

/-- C14 at a concrete input: the store of four span entries (traces 1, 1, 2, 3) read
with the ids 1, 5, 2; trace 5 has no entry. -/
theorem C14_GetTraces_one_trace_per_stored_id_witness :
    ∃ traces, GetTraces constantCodec exampleSpanStore ([⟨0, 1⟩, ⟨0, 5⟩, ⟨0, 2⟩] : List model.TraceID) = Except.ok traces ∧
      traces = (([⟨0, 1⟩, ⟨0, 5⟩, ⟨0, 2⟩] : List model.TraceID).filter (fun traceID =>
          !(entriesUnder exampleSpanStore
            (128 :: (putUint64 traceID.High ++ putUint64 traceID.Low))).isEmpty)).map
        (fun traceID => ⟨(entriesUnder exampleSpanStore
          (128 :: (putUint64 traceID.High ++ putUint64 traceID.Low))).filterMap
            (decodeOpt constantCodec)⟩) ∧
      (∀ traceID : model.TraceID,
        ((entriesUnder exampleSpanStore
            (128 :: (putUint64 traceID.High ++ putUint64 traceID.Low))).filterMap
            (decodeOpt constantCodec)).map some =
          (entriesUnder exampleSpanStore
            (128 :: (putUint64 traceID.High ++ putUint64 traceID.Low))).map
            (decodeOpt constantCodec)) ∧
      (∀ t ∈ traces, t.Spans ≠ []) ∧ traces.length ≤ ([⟨0, 1⟩, ⟨0, 5⟩, ⟨0, 2⟩] : List model.TraceID).length :=
  C14_GetTraces_one_trace_per_stored_id constantCodec exampleSpanStore
    [⟨0, 1⟩, ⟨0, 5⟩, ⟨0, 2⟩] (by decide) (by decide)

end extractor
